import Mathlib

/-!
# Multi-track audio extraction: a shallow embedding of `main.go`

The program scans the working directory for `.mp4` files, lets the user pick
one, parses a JSON list of `{rownum, typeName}` records, runs the transcoder
once for a default track and once per record, and zips the produced files.

Go strings are modelled as lists of Unicode code points (the inputs are taken
to be valid UTF-8 text), Go's `int` as a 64-bit two's-complement integer carried
in `Int` with explicit wrap-around, and the operating system (file tree,
directory creation, child processes, archive writes) as an explicit
environment record whose answers the program consumes.  Library routines the
program calls (`strings`, `strconv`, `path/filepath` on a slash-separated
platform, `encoding/json`, `sort`) are embedded as executable definitions.
-/

namespace MultiTrack

/-- Go string: the sequence of its code points. -/
abbrev GoString := List Char

deriving instance DecidableEq for Except

/-! ## Machine integers -/

/-- Largest value of Go's `int` on a 64-bit target. -/
def maxInt : Int := 9223372036854775807

/-- Smallest value of Go's `int` on a 64-bit target. -/
def minInt : Int := -9223372036854775808

/-- Reduction of a mathematical integer to the 64-bit two's-complement range. -/
def wrapInt (z : Int) : Int := (z + 9223372036854775808) % 18446744073709551616 - 9223372036854775808

/-- Go's `x + y` on `int`. -/
def addInt (x y : Int) : Int := wrapInt (x + y)

/-! ## `strings` -/

/-- Go's `unicode.IsSpace`. -/
def isSpace (c : Char) : Bool :=
  let n := c.toNat
  n == 9 || n == 10 || n == 11 || n == 12 || n == 13 || n == 32 || n == 0x85 || n == 0xA0
    || n == 0x1680 || (0x2000 ≤ n && n ≤ 0x200a) || n == 0x2028 || n == 0x2029
    || n == 0x202f || n == 0x205f || n == 0x3000

/-- Go's `strings.TrimSpace`: drop leading and trailing white space. -/
def TrimSpace (s : GoString) : GoString :=
  ((s.dropWhile isSpace).reverse.dropWhile isSpace).reverse

/-- Go's `strings.HasSuffix`. -/
def HasSuffix (s suffix : GoString) : Bool :=
  decide (suffix.length ≤ s.length) && (s.drop (s.length - suffix.length) == suffix)

/-- Go's `strings.TrimSuffix`. -/
def TrimSuffix (s suffix : GoString) : GoString :=
  if HasSuffix s suffix then s.take (s.length - suffix.length) else s

/-- Go's `strings.ReplaceAll` for a one-character pattern and replacement. -/
def ReplaceAll (s : GoString) (old new : Char) : GoString :=
  s.map (fun c => if c = old then new else c)

/-! ## `strconv` -/

/-- Errors of `strconv` number parsing. -/
inductive NumError
  | syntaxErr
  | rangeErr
  deriving DecidableEq, Repr

/-- Value of a decimal digit byte, `none` for any other character
(`ch -= '0'; if ch > 9`). -/
def digitVal (c : Char) : Option Nat :=
  if 48 ≤ c.toNat ∧ c.toNat ≤ 57 then some (c.toNat - 48) else none

/-- Digit loop of `strconv.ParseUint(s, 10, 64)`: `n` is the value read so far. -/
def parseUintLoop : GoString → Nat → Except NumError Nat
  | [], n => .ok n
  | c :: cs, n =>
    match digitVal c with
    | none => .error .syntaxErr
    | some d =>
      -- `n >= cutoff`: n*10 overflows uint64
      if n ≥ 1844674407370955162 then .error .rangeErr
      else
        let n1 := n * 10 + d
        -- `n1 < n || n1 > maxVal`: n+d overflows
        if n1 > 18446744073709551615 then .error .rangeErr
        else parseUintLoop cs n1

/-- Go's `strconv.ParseUint(s, 10, 64)`. -/
def ParseUint (s : GoString) : Except NumError Nat :=
  if s = [] then .error .syntaxErr else parseUintLoop s 0

/-- Go's `strconv.ParseInt(s, 10, 64)` (also `bitSize` 0 on a 64-bit target). -/
def ParseInt (s : GoString) : Except NumError Int :=
  match s with
  | [] => .error .syntaxErr
  | c :: cs =>
    let neg := c = '-'
    let body := if c = '+' ∨ c = '-' then cs else s
    match ParseUint body with
    | .error e => .error e
    | .ok un =>
      if ¬ neg ∧ un ≥ 9223372036854775808 then .error .rangeErr
      else if neg ∧ un > 9223372036854775808 then .error .rangeErr
      else .ok (if neg then - (un : Int) else (un : Int))

/-- Digit loop of the fast path of `strconv.Atoi`. -/
def atoiFastLoop : GoString → Nat → Option Nat
  | [], n => some n
  | c :: cs, n =>
    match digitVal c with
    | none => none
    | some d => atoiFastLoop cs (n * 10 + d)

/-- Go's `strconv.Atoi` on a 64-bit target: short inputs take the fast path,
everything else goes through `ParseInt`. -/
def Atoi (s : GoString) : Except NumError Int :=
  if 0 < s.length ∧ s.length < 19 then
    match s with
    | [] => .error .syntaxErr
    | c :: cs =>
      let body := if c = '-' ∨ c = '+' then cs else s
      if body.length < 1 then .error .syntaxErr
      else
        match atoiFastLoop body 0 with
        | none => .error .syntaxErr
        | some n => .ok (if c = '-' then - (n : Int) else (n : Int))
  else ParseInt s

/-- Digit loop of `strconv.FormatInt(_, 10)`: peel decimal digits off `u`,
least significant first, in front of `acc`. -/
def formatBits : Nat → Nat → GoString → GoString
  | 0, _, acc => acc
  | fuel + 1, u, acc =>
    if u ≥ 10 then formatBits fuel (u / 10) (Char.ofNat (u % 10 + 48) :: acc)
    else Char.ofNat (u + 48) :: acc

/-- Go's `fmt.Sprintf("%d", i)` for an `int`. -/
def formatInt (i : Int) : GoString :=
  if i < 0 then '-' :: formatBits 20 i.natAbs [] else formatBits 20 i.natAbs []

/-! ## `path/filepath` (slash-separated platform) and `os` path helpers -/

/-- The `..` case of `Clean`, backtracking branch: `out.w--` already done,
`w` is the candidate new length; step back to just after the previous
separator, never below `dotdot`. -/
def backtrackLoop (out : GoString) (dotdot : Nat) : Nat → Nat
  | 0 => 0
  | w + 1 =>
    if w + 1 > dotdot ∧ out.getD (w + 1) '/' ≠ '/' then backtrackLoop out dotdot w else w + 1

/-- Main loop of `filepath.Clean`: `rest` is the unread input `path[r:]`,
`out` the bytes written so far (`out.w = out.length`), `dotdot` the index
below which `..` must not backtrack. -/
def cleanLoop (rooted : Bool) : Nat → GoString → GoString → Nat → GoString
  | 0, _, out, _ => out
  | fuel + 1, rest, out, dotdot =>
    match rest with
    | [] => out
    | c :: cs =>
      if c = '/' then
        -- empty path element
        cleanLoop rooted fuel cs out dotdot
      else if c = '.' ∧ (cs = [] ∨ cs.head? = some '/') then
        -- . element
        cleanLoop rooted fuel cs out dotdot
      else if c = '.' ∧ cs.head? = some '.' ∧ (cs.tail = [] ∨ cs.tail.head? = some '/') then
        -- .. element: remove to last separator
        if out.length > dotdot then
          cleanLoop rooted fuel cs.tail (out.take (backtrackLoop out dotdot (out.length - 1))) dotdot
        else if ¬ rooted then
          let out1 := if out.length > 0 then out ++ ['/'] else out
          cleanLoop rooted fuel cs.tail (out1 ++ ['.', '.']) (out1.length + 2)
        else cleanLoop rooted fuel cs.tail out dotdot
      else
        -- real path element: add slash if needed, copy element
        let out1 :=
          if (rooted ∧ out.length ≠ 1) ∨ (¬ rooted ∧ out.length ≠ 0) then out ++ ['/'] else out
        cleanLoop rooted fuel (cs.dropWhile (fun x => x ≠ '/'))
          (out1 ++ c :: cs.takeWhile (fun x => x ≠ '/')) dotdot

/-- Go's `filepath.Clean`. -/
def Clean (path : GoString) : GoString :=
  match path with
  | [] => ['.']
  | c :: _ =>
    let rooted : Bool := c = '/'
    let out :=
      if rooted then cleanLoop true path.length path.tail ['/'] 1
      else cleanLoop false path.length path [] 0
    -- Turn empty string into "."
    if out.length = 0 then ['.'] else out

/-- Go's `strings.Join(elem, "/")`. -/
def joinSep : List GoString → GoString
  | [] => []
  | [e] => e
  | e :: es => e ++ '/' :: joinSep es

/-- Go's `filepath.Join`: empty leading elements are skipped, the rest is
joined with the separator and cleaned. -/
def Join : List GoString → GoString
  | [] => []
  | e :: es => if e ≠ [] then Clean (joinSep (e :: es)) else Join es

/-- Go's `filepath.Base`. -/
def Base (path : GoString) : GoString :=
  if path = [] then ['.']
  else
    -- Strip trailing slashes, then find the last element
    let stripped := path.rdropWhile (fun x => x = '/')
    let last := stripped.rtakeWhile (fun x => x ≠ '/')
    -- If empty now, it had only slashes.
    if last = [] then ['/'] else last

/-- Backward scan of `filepath.Ext` over the reversed path: `acc` is the
suffix already passed. -/
def extLoop : GoString → GoString → GoString
  | [], _ => []
  | c :: rest, acc =>
    if c = '/' then [] else if c = '.' then '.' :: acc else extLoop rest (c :: acc)

/-- Go's `filepath.Ext`: the suffix from the final dot of the final element. -/
def Ext (path : GoString) : GoString := extLoop path.reverse []

/-- Go's `filepath.Dir`: everything up to the final separator, cleaned. -/
def Dir (path : GoString) : GoString :=
  Clean (path.rdropWhile (fun x => x ≠ '/'))

/-! ## `filepath.Walk` and `getMP4Files` -/

/-- What kind of file-system object an entry is, as `Lstat` reports it. -/
inductive FileKind
  | regular
  | directory
  | symlink
  | other
  deriving DecidableEq, Repr

/-- Go's `os.FileInfo`, as far as the program looks at it. -/
structure FileInfo where
  name : GoString
  kind : FileKind
  deriving DecidableEq, Repr

/-- Go's `FileInfo.IsDir`. -/
def FileInfo.IsDir (info : FileInfo) : Bool := info.kind = FileKind.directory

/-- A file-system entry: its name in the parent directory, its kind, whether
`Lstat` on it succeeds, whether its names can be read (directories), and its
entries in the order `readDirNames` returns them. -/
inductive FsNode
  | node (name : GoString) (kind : FileKind) (lstatOk readOk : Bool) (children : List FsNode)

/-- Errors a walk function can hand back to `filepath.Walk`. -/
inductive WalkErr
  | skipDir
  | skipAll
  | lstatFailed (path : GoString)
  | readDirFailed (path : GoString)
  deriving DecidableEq, Repr

/-- Go's `filepath.WalkFunc`, threading the state the closure captures. -/
abbrev WalkFunc (σ : Type) := GoString → Option FileInfo → Option WalkErr → σ → σ × Option WalkErr

mutual
/-- Go's `filepath.walk`: visit `path` (whose `Lstat` gave `info`), then its entries. -/
def walk {σ : Type} (walkFn : WalkFunc σ) (path : GoString) (info : FileInfo) :
    FsNode → σ → σ × Option WalkErr
  | .node _ _ _ readOk children, st =>
    if ¬ info.IsDir then walkFn path (some info) none st
    else
      let err := if readOk then none else some (WalkErr.readDirFailed path)
      let r1 := walkFn path (some info) err st
      if err ≠ none ∨ r1.2 ≠ none then r1
      else walkNames walkFn path children r1.1
/-- The `for _, name := range names` loop of `filepath.walk`. -/
def walkNames {σ : Type} (walkFn : WalkFunc σ) (path : GoString) :
    List FsNode → σ → σ × Option WalkErr
  | [], st => (st, none)
  | .node name kind lstatOk readOk children :: rest, st =>
    let filename := Join [path, name]
    if ¬ lstatOk then
      let r := walkFn filename none (some (WalkErr.lstatFailed filename)) st
      if r.2 ≠ none ∧ r.2 ≠ some WalkErr.skipDir then r
      else walkNames walkFn path rest r.1
    else
      let fileInfo : FileInfo := ⟨name, kind⟩
      let r := walk walkFn filename fileInfo (.node name kind lstatOk readOk children) st
      if r.2 ≠ none ∧ (¬ fileInfo.IsDir ∨ r.2 ≠ some WalkErr.skipDir) then r
      else walkNames walkFn path rest r.1
end

/-- Go's `filepath.Walk`. -/
def Walk {σ : Type} (root : GoString) (tree : FsNode) (fn : WalkFunc σ) (st : σ) :
    σ × Option WalkErr :=
  match tree with
  | .node _ kind lstatOk _ _ =>
    let r :=
      if ¬ lstatOk then fn root none (some (WalkErr.lstatFailed root)) st
      else walk fn root ⟨Base root, kind⟩ tree st
    if r.2 = some WalkErr.skipDir ∨ r.2 = some WalkErr.skipAll then (r.1, none) else r

/-- The closure passed to `filepath.Walk` in `getMP4Files`; the state is the
captured `files` slice. -/
def mp4WalkFn : WalkFunc (List GoString) := fun path info err files =>
  match err, info with
  | some e, _ => (files, some e)
  | none, none => (files, none)
  | none, some info =>
    if ¬ info.IsDir ∧ HasSuffix info.name ".mp4".toList then (files ++ [path], none)
    else (files, none)

/-- The function `getMP4Files` of `main.go`, run on the tree rooted at the
working directory. -/
def getMP4Files (tree : FsNode) : List GoString × Option WalkErr :=
  Walk ".".toList tree mp4WalkFn []

/-! ## `encoding/json`: `json.Unmarshal` into `[]Item` -/

/-- The struct `Item` of `main.go`. -/
structure Item where
  Rownum : Int
  TypeName : GoString
  deriving DecidableEq, Repr, Inhabited

/-- A JSON value as the decoder walks it; a number keeps its literal text. -/
inductive JValue
  | null
  | bool (b : Bool)
  | number (lit : GoString)
  | string (s : GoString)
  | array (elems : List JValue)
  | object (members : List (GoString × JValue))

instance : Inhabited JValue := ⟨JValue.null⟩

/-- The JSON name of the field `Rownum` (its struct tag). -/
def rownumTag : GoString := "rownum".toList

/-- The JSON name of the field `TypeName` (its struct tag). -/
def typeNameTag : GoString := "typeName".toList

/-- The scanner's `isSpace`. -/
def isJSONSpace (c : Char) : Bool := c = ' ' || c = '\t' || c = '\r' || c = '\n'

/-- Drop JSON white space. -/
def skipSpace (s : GoString) : GoString := s.dropWhile isJSONSpace

/-- Decimal digit test of the scanner. -/
def isDigit (c : Char) : Bool := decide (48 ≤ c.toNat ∧ c.toNat ≤ 57)

/-- Value of a hexadecimal digit (`getu4`). -/
def hexVal (c : Char) : Option Nat :=
  let n := c.toNat
  if 48 ≤ n ∧ n ≤ 57 then some (n - 48)
  else if 97 ≤ n ∧ n ≤ 102 then some (n - 97 + 10)
  else if 65 ≤ n ∧ n ≤ 70 then some (n - 65 + 10)
  else none

/-- The decoder's `getu4` on the four characters after a backslash-u. -/
def getu4 (a b c d : Char) : Option Nat :=
  match hexVal a, hexVal b, hexVal c, hexVal d with
  | some x, some y, some z, some w => some (((x * 16 + y) * 16 + z) * 16 + w)
  | _, _, _, _ => none

/-- Unicode replacement character, written for an unpaired surrogate. -/
def replacementChar : Char := Char.ofNat 0xFFFD

/-- Body of a JSON string after its opening quote: scanner validity
(no control characters, known escapes only) and the decoder's `unquote` in one
pass.  Returns the decoded text and the input after the closing quote; every
step consumes input, so fuel equal to the input length is enough. -/
def parseStringBody : Nat → GoString → GoString → Option (GoString × GoString)
  | 0, _, _ => none
  | _ + 1, [], _ => none
  | fuel + 1, c :: rest, acc =>
    if c = '"' then some (acc.reverse, rest)
    else if c = '\\' then
      match rest with
      | [] => none
      | e :: rest1 =>
        if e = 'u' then
          match rest1 with
          | a :: b :: c1 :: d :: rest2 =>
            match getu4 a b c1 d with
            | none => none
            | some rr =>
              if 0xD800 ≤ rr ∧ rr < 0xE000 then
                -- surrogate: a valid pair needs a low surrogate escape right after
                match rest2 with
                | b0 :: u0 :: a2 :: b2 :: c2 :: d2 :: rest3 =>
                  match (if b0 = '\\' ∧ u0 = 'u' then getu4 a2 b2 c2 d2 else none) with
                  | some rr1 =>
                    if rr < 0xDC00 ∧ 0xDC00 ≤ rr1 ∧ rr1 < 0xE000 then
                      parseStringBody fuel rest3
                        (Char.ofNat ((rr - 0xD800) * 1024 + (rr1 - 0xDC00) + 0x10000) :: acc)
                    else parseStringBody fuel rest2 (replacementChar :: acc)
                  | none => parseStringBody fuel rest2 (replacementChar :: acc)
                | _ => parseStringBody fuel rest2 (replacementChar :: acc)
              else parseStringBody fuel rest2 (Char.ofNat rr :: acc)
          | _ => none
        else if e = '"' ∨ e = '\\' ∨ e = '/' then parseStringBody fuel rest1 (e :: acc)
        else if e = 'b' then parseStringBody fuel rest1 (Char.ofNat 8 :: acc)
        else if e = 'f' then parseStringBody fuel rest1 (Char.ofNat 12 :: acc)
        else if e = 'n' then parseStringBody fuel rest1 ('\n' :: acc)
        else if e = 'r' then parseStringBody fuel rest1 ('\r' :: acc)
        else if e = 't' then parseStringBody fuel rest1 ('\t' :: acc)
        else none
    else if c.toNat < 0x20 then none
    else parseStringBody fuel rest (c :: acc)

/-- A JSON number literal at the head of the input, by the scanner's grammar:
optional minus, `0` or a digit string without leading zero, optional fraction,
optional exponent.  Returns the literal and the remaining input. -/
def parseNumber (s : GoString) : Option (GoString × GoString) :=
  let (sign, s1) := match s with
    | '-' :: r => (['-'], r)
    | _ => ([], s)
  match s1 with
  | [] => none
  | d :: r =>
    if ¬ isDigit d then none
    else
      let intDigits := if d = '0' then [] else r.takeWhile isDigit
      let s2 := if d = '0' then r else r.dropWhile isDigit
      let intPart := sign ++ d :: intDigits
      -- fraction
      let fracRes : Option (GoString × GoString) :=
        match s2 with
        | '.' :: r2 =>
          let fd := r2.takeWhile isDigit
          if fd = [] then none else some ('.' :: fd, r2.dropWhile isDigit)
        | _ => some ([], s2)
      match fracRes with
      | none => none
      | some (frac, s3) =>
        match s3 with
        | e :: r3 =>
          if e = 'e' ∨ e = 'E' then
            let (esign, r4) := match r3 with
              | '+' :: r => (['+'], r)
              | '-' :: r => (['-'], r)
              | _ => ([], r3)
            let ed := r4.takeWhile isDigit
            if ed = [] then none
            else some (intPart ++ frac ++ e :: esign ++ ed, r4.dropWhile isDigit)
          else some (intPart ++ frac, s3)
        | [] => some (intPart ++ frac, s3)

/-- The scanner's nesting limit (`maxNestingDepth`). -/
def maxNestingDepth : Nat := 10000

mutual
/-- One JSON value at the head of the input (after optional white space);
`depth` counts the enclosing arrays and objects. -/
def parseValue : Nat → Nat → GoString → Option (JValue × GoString)
  | 0, _, _ => none
  | fuel + 1, depth, s =>
    match skipSpace s with
    | [] => none
    | c :: rest =>
      if c = '[' then
        if depth + 1 > maxNestingDepth then none
        else
          match skipSpace rest with
          | ']' :: rest1 => some (.array [], rest1)
          | _ =>
            match parseElems fuel (depth + 1) rest with
            | none => none
            | some (es, rest1) => some (.array es, rest1)
      else if c = '\x7b' then
        if depth + 1 > maxNestingDepth then none
        else
          match skipSpace rest with
          | '\x7d' :: rest1 => some (.object [], rest1)
          | _ =>
            match parseMembers fuel (depth + 1) rest with
            | none => none
            | some (ms, rest1) => some (.object ms, rest1)
      else if c = '"' then
        match parseStringBody rest.length rest [] with
        | none => none
        | some (str, rest1) => some (.string str, rest1)
      else if c = '-' ∨ isDigit c then
        match parseNumber (c :: rest) with
        | none => none
        | some (lit, rest1) => some (.number lit, rest1)
      else
        match c :: rest with
        | 't' :: 'r' :: 'u' :: 'e' :: rest1 => some (.bool true, rest1)
        | 'f' :: 'a' :: 'l' :: 's' :: 'e' :: rest1 => some (.bool false, rest1)
        | 'n' :: 'u' :: 'l' :: 'l' :: rest1 => some (.null, rest1)
        | _ => none
/-- The elements of a non-empty array, up to and including the closing bracket. -/
def parseElems : Nat → Nat → GoString → Option (List JValue × GoString)
  | 0, _, _ => none
  | fuel + 1, depth, s =>
    match parseValue fuel depth s with
    | none => none
    | some (v, rest) =>
      match skipSpace rest with
      | ',' :: rest1 =>
        match parseElems fuel depth rest1 with
        | none => none
        | some (vs, rest2) => some (v :: vs, rest2)
      | ']' :: rest1 => some ([v], rest1)
      | _ => none
/-- The members of a non-empty object, up to and including the closing brace. -/
def parseMembers : Nat → Nat → GoString → Option (List (GoString × JValue) × GoString)
  | 0, _, _ => none
  | fuel + 1, depth, s =>
    match skipSpace s with
    | '"' :: rest =>
      match parseStringBody rest.length rest [] with
      | none => none
      | some (key, rest1) =>
        match skipSpace rest1 with
        | ':' :: rest2 =>
          match parseValue fuel depth rest2 with
          | none => none
          | some (v, rest3) =>
            match skipSpace rest3 with
            | ',' :: rest4 =>
              match parseMembers fuel depth rest4 with
              | none => none
              | some (ms, rest5) => some ((key, v) :: ms, rest5)
            | '\x7d' :: rest4 => some ([(key, v)], rest4)
            | _ => none
        | _ => none
    | _ => none
end

/-- The well-formedness pass of `json.Unmarshal` (`checkValid`): exactly one
value, surrounded by optional white space.  Every nested call has consumed
input, so fuel of twice the length is enough. -/
def parseJSON (data : GoString) : Option JValue :=
  match parseValue (2 * data.length + 2) 0 data with
  | none => none
  | some (v, rest) => if skipSpace rest = [] then some v else none

/-- ASCII lower-casing, the only case folding that can reach the two field
names (neither contains `k` or `s`, the letters with non-ASCII fold partners). -/
def lowerASCII (c : Char) : Char :=
  if 65 ≤ c.toNat ∧ c.toNat ≤ 90 then Char.ofNat (c.toNat + 32) else c

/-- Whether an object key selects the struct field tagged `name`: exact
match, else match under case folding. -/
def keyMatches (key name : GoString) : Bool :=
  key = name || key.map lowerASCII = name.map lowerASCII

/-- Errors of `json.Unmarshal`. -/
inductive JSONError
  | syntaxErr
  | typeErr
  deriving DecidableEq, Repr

/-- Decoding into the field `Rownum int`: `some none` is a type error,
`some (some n)` stores `n`, `none` leaves the field (JSON null). -/
def decodeInt : JValue → Option (Option Int)
  | .null => none
  | .number lit =>
    match ParseInt lit with
    | .ok n => some (some n)
    | .error _ => some none
  | _ => some none

/-- Decoding into the field `TypeName string`, same convention. -/
def decodeString : JValue → Option (Option GoString)
  | .null => none
  | .string s => some (some s)
  | _ => some none

/-- The key loop of `decodeState.object` on an `Item`: each member whose key
selects a field is decoded into it, other members are skipped; `bad` records a
saved type error (decoding goes on after one). -/
def decodeMembers : List (GoString × JValue) → Item → Bool → Item × Bool
  | [], it, bad => (it, bad)
  | (key, v) :: ms, it, bad =>
    if keyMatches key rownumTag then
      match decodeInt v with
      | none => decodeMembers ms it bad
      | some none => decodeMembers ms it true
      | some (some n) => decodeMembers ms { it with Rownum := n } bad
    else if keyMatches key typeNameTag then
      match decodeString v with
      | none => decodeMembers ms it bad
      | some none => decodeMembers ms it true
      | some (some str) => decodeMembers ms { it with TypeName := str } bad
    else decodeMembers ms it bad

/-- Decoding one array element into a fresh (zero) `Item`. -/
def decodeItem : JValue → Item × Bool
  | .null => (⟨0, []⟩, false)
  | .object ms => decodeMembers ms ⟨0, []⟩ false
  | _ => (⟨0, []⟩, true)

/-- Decoding the top-level value into `items` (initially nil): the slice
and whether a type error was saved. -/
def decodeItems : JValue → List Item × Bool
  | .null => ([], false)
  | .array es => (es.map (fun e => (decodeItem e).1), es.any (fun e => (decodeItem e).2))
  | _ => ([], true)

/-- Go's `json.Unmarshal([]byte(jsonInput), &items)`. -/
def Unmarshal (data : GoString) : Except JSONError (List Item) :=
  match parseJSON data with
  | none => .error .syntaxErr
  | some v =>
    let r := decodeItems v
    if r.2 then .error .typeErr else .ok r.1

/-! ## `sort.Slice`: pattern-defeating quicksort over a `lessSwap`

The routines of `sort/zsortfunc.go` as `sort.Slice` runs them since Go 1.19
(ranges of at most 12 elements go to insertion sort).  The slice is a list;
where Go would panic on an index out of range, the embedding reads the zero
value and a swap writes nothing. -/

section SortSlice

variable {α : Type} [Inhabited α]

/-- The call `data.Less(i, j)`: the user's comparison on the current elements. -/
def lessAt (less : α → α → Bool) (data : List α) (i j : Nat) : Bool :=
  less (data.getD i default) (data.getD j default)

/-- The call `data.Swap(i, j)`. -/
def swapAt (data : List α) (i j : Nat) : List α :=
  if i < data.length ∧ j < data.length then
    (data.set i (data.getD j default)).set j (data.getD i default)
  else data

/-- Inner loop of `insertionSort_func`:
`for j := i; j > a && data.Less(j, j-1); j-- { data.Swap(j, j-1) }`. -/
def insertionInner (less : α → α → Bool) (a : Nat) : Nat → List α → List α
  | 0, data => data
  | j + 1, data =>
    if j + 1 > a ∧ lessAt less data (j + 1) j then insertionInner less a j (swapAt data (j + 1) j)
    else data

/-- Outer loop of `insertionSort_func`, from index `i` on. -/
def insertionOuter (less : α → α → Bool) (a b : Nat) : Nat → Nat → List α → List α
  | 0, _, data => data
  | fuel + 1, i, data =>
    if i < b then insertionOuter less a b fuel (i + 1) (insertionInner less a i data) else data

/-- Go's `insertionSort_func`: sorts `data[a:b]` using insertion sort. -/
def insertionSort_func (less : α → α → Bool) (data : List α) (a b : Nat) : List α :=
  insertionOuter less a b (b - a) (a + 1) data

/-- Go's `siftDown_func` on `data[lo:hi]`, `first` the offset of the heap
root; every turn of the loop moves `root` to a child, so `hi` turns are enough. -/
def siftDown_func (less : α → α → Bool) (hi first : Nat) : Nat → List α → Nat → List α
  | 0, data, _ => data
  | fuel + 1, data, root =>
    let child := 2 * root + 1
    if child ≥ hi then data
    else
      let child :=
        if child + 1 < hi ∧ lessAt less data (first + child) (first + child + 1) then child + 1
        else child
      if ¬ lessAt less data (first + root) (first + child) then data
      else siftDown_func less hi first fuel (swapAt data (first + root) (first + child)) child

/-- First loop of `heapSort_func`: `for i := (hi - 1) / 2; i >= 0; i--`,
`n` turns left, the next one at `i = n - 1`. -/
def heapBuild (less : α → α → Bool) (hi first : Nat) : Nat → List α → List α
  | 0, data => data
  | i + 1, data => heapBuild less hi first i (siftDown_func less hi first hi data i)

/-- Second loop of `heapSort_func`: `for i := hi - 1; i >= 0; i--`. -/
def heapPop (less : α → α → Bool) (first : Nat) : Nat → List α → List α
  | 0, data => data
  | i + 1, data => heapPop less first i (siftDown_func less i first i (swapAt data first (first + i)) 0)

/-- Go's `heapSort_func`. -/
def heapSort_func (less : α → α → Bool) (data : List α) (a b : Nat) : List α :=
  let first := a
  let hi := b - a
  heapPop less first hi (heapBuild less hi first ((hi - 1) / 2 + 1) data)

/-- Go's `bits.Len`: the number of bits needed to write `n`. -/
def bitsLen : Nat → Nat → Nat
  | 0, _ => 0
  | fuel + 1, n => if n = 0 then 0 else bitsLen fuel (n / 2) + 1

/-- Go's `nextPowerOfTwo`. -/
def nextPowerOfTwo (length : Nat) : Nat := 2 ^ bitsLen 64 length

/-- Go's `xorshift.Next` on the 64-bit state `r`. -/
def xorshiftNext (r : Nat) : Nat :=
  let r1 := r ^^^ ((r <<< 13) % 18446744073709551616)
  let r2 := r1 ^^^ (r1 >>> 7)
  r2 ^^^ ((r2 <<< 17) % 18446744073709551616)

/-- The three swaps of `breakPatterns_func`: the elements at `idx`, `idx + 1`
and `idx + 2` each change places with one picked by the generator. -/
def breakLoop (a length modulus idx : Nat) : Nat → Nat → Nat → List α → List α
  | 0, _, _, data => data
  | n + 1, i, random, data =>
    let random := xorshiftNext random
    let other := random &&& (modulus - 1)
    let other := if other ≥ length then other - length else other
    breakLoop a length modulus idx n (i + 1) random (swapAt data (idx + i) (a + other))

/-- Go's `breakPatterns_func`: scatter three elements around the middle. -/
def breakPatterns_func (data : List α) (a b : Nat) : List α :=
  let length := b - a
  if length ≥ 8 then
    breakLoop a length (nextPowerOfTwo length) (a + (length / 4) * 2 - 1) 3 0 length data
  else data

/-- Go's `sortedHint`. -/
inductive SortedHint
  | unknownHint
  | increasingHint
  | decreasingHint
  deriving DecidableEq, Repr

/-- Go's `order2_func`: the two indices in order of their elements, and the
swap counter. -/
def order2_func (less : α → α → Bool) (data : List α) (a b swaps : Nat) : Nat × Nat × Nat :=
  if lessAt less data b a then (b, a, swaps + 1) else (a, b, swaps)

/-- Go's `median_func`: index of the median of three, and the swap counter. -/
def median_func (less : α → α → Bool) (data : List α) (a b c swaps : Nat) : Nat × Nat :=
  let (a, b, swaps) := order2_func less data a b swaps
  let (b, _, swaps) := order2_func less data b c swaps
  let (_, b, swaps) := order2_func less data a b swaps
  (b, swaps)

/-- Go's `medianAdjacent_func`. -/
def medianAdjacent_func (less : α → α → Bool) (data : List α) (a swaps : Nat) : Nat × Nat :=
  median_func less data (a - 1) a (a + 1) swaps

/-- Go's `choosePivot_func`. -/
def choosePivot_func (less : α → α → Bool) (data : List α) (a b : Nat) : Nat × SortedHint :=
  let l := b - a
  let i := a + l / 4 * 1
  let j := a + l / 4 * 2
  let k := a + l / 4 * 3
  let (j, swaps) :=
    if l ≥ 8 then
      if l ≥ 50 then
        let (i, s1) := medianAdjacent_func less data i 0
        let (j, s2) := medianAdjacent_func less data j s1
        let (k, s3) := medianAdjacent_func less data k s2
        median_func less data i j k s3
      else median_func less data i j k 0
    else (j, 0)
  if swaps = 0 then (j, .increasingHint)
  else if swaps = 12 then (j, .decreasingHint)
  else (j, .unknownHint)

/-- Loop of `reverseRange_func`. -/
def reverseLoop : Nat → Nat → Nat → List α → List α
  | 0, _, _, data => data
  | fuel + 1, i, j, data =>
    if i < j then reverseLoop fuel (i + 1) (j - 1) (swapAt data i j) else data

/-- Go's `reverseRange_func`. -/
def reverseRange_func (data : List α) (a b : Nat) : List α :=
  reverseLoop (b - a) a (b - 1) data

/-- The scan `for i <= j && data.Less(i, a) { i++ }`. -/
def scanUp (less : α → α → Bool) (data : List α) (a j : Nat) : Nat → Nat → Nat
  | 0, i => i
  | fuel + 1, i => if i ≤ j ∧ lessAt less data i a then scanUp less data a j fuel (i + 1) else i

/-- The scan `for i <= j && !data.Less(j, a) { j-- }`; indices are kept one
higher (`j1 = j + 1`) so that the scan can run past the left end. -/
def scanDown (less : α → α → Bool) (data : List α) (a i : Nat) : Nat → Nat
  | 0 => 0
  | j + 1 => if i ≤ j ∧ ¬ lessAt less data j a then scanDown less data a i j else j + 1

/-- The `for` loop of `partition_func` after its first exchange; returns the
slice and `j + 1`. -/
def partitionLoop (less : α → α → Bool) (a : Nat) : Nat → List α → Nat → Nat → List α × Nat
  | 0, data, _, j1 => (data, j1)
  | fuel + 1, data, i, j1 =>
    let i := scanUp less data a (j1 - 1) j1 i
    let j1 := if j1 = 0 then 0 else scanDown less data a i j1
    if i + 1 > j1 then (data, j1)
    else partitionLoop less a fuel (swapAt data i (j1 - 1)) (i + 1) (j1 - 1)

/-- Go's `partition_func`: the slice, the pivot's final index, and whether
the range was already partitioned. -/
def partition_func (less : α → α → Bool) (data : List α) (a b pivot : Nat) :
    List α × Nat × Bool :=
  let data := swapAt data a pivot
  let i := scanUp less data a (b - 1) (b - a) (a + 1)
  let j1 := scanDown less data a i b
  if i + 1 > j1 then (swapAt data (j1 - 1) a, j1 - 1, true)
  else
    let r := partitionLoop less a (b - a) (swapAt data i (j1 - 1)) (i + 1) (j1 - 1)
    (swapAt r.1 (r.2 - 1) a, r.2 - 1, false)

/-- The scan `for i <= j && !data.Less(a, i) { i++ }` of `partitionEqual_func`. -/
def scanUpEq (less : α → α → Bool) (data : List α) (a j : Nat) : Nat → Nat → Nat
  | 0, i => i
  | fuel + 1, i => if i ≤ j ∧ ¬ lessAt less data a i then scanUpEq less data a j fuel (i + 1) else i

/-- The scan `for i <= j && data.Less(a, j) { j-- }` of `partitionEqual_func`,
indices kept one higher. -/
def scanDownEq (less : α → α → Bool) (data : List α) (a i : Nat) : Nat → Nat
  | 0 => 0
  | j + 1 => if i ≤ j ∧ lessAt less data a j then scanDownEq less data a i j else j + 1

/-- The `for` loop of `partitionEqual_func`; returns the slice and `i`. -/
def partitionEqualLoop (less : α → α → Bool) (a : Nat) : Nat → List α → Nat → Nat → List α × Nat
  | 0, data, i, _ => (data, i)
  | fuel + 1, data, i, j1 =>
    let i := scanUpEq less data a (j1 - 1) j1 i
    let j1 := if j1 = 0 then 0 else scanDownEq less data a i j1
    if i + 1 > j1 then (data, i)
    else partitionEqualLoop less a fuel (swapAt data i (j1 - 1)) (i + 1) (j1 - 1)

/-- Go's `partitionEqual_func`. -/
def partitionEqual_func (less : α → α → Bool) (data : List α) (a b pivot : Nat) : List α × Nat :=
  partitionEqualLoop less a (b - a + 1) (swapAt data a pivot) (a + 1) b

/-- The shift `for j := i - 1; j >= 1; j--` of `partialInsertionSort_func`. -/
def shiftLeft (less : α → α → Bool) : Nat → List α → List α
  | 0, data => data
  | j + 1, data =>
    if ¬ lessAt less data (j + 1) j then data else shiftLeft less j (swapAt data (j + 1) j)

/-- The shift `for j := i + 1; j < b; j++` of `partialInsertionSort_func`. -/
def shiftRight (less : α → α → Bool) (b : Nat) : Nat → Nat → List α → List α
  | 0, _, data => data
  | fuel + 1, j, data =>
    if j < b then
      if ¬ lessAt less data j (j - 1) then data
      else shiftRight less b fuel (j + 1) (swapAt data j (j - 1))
    else data

/-- The scan `for i < b && !data.Less(i, i-1) { i++ }`. -/
def scanSorted (less : α → α → Bool) (data : List α) (b : Nat) : Nat → Nat → Nat
  | 0, i => i
  | fuel + 1, i =>
    if i < b ∧ ¬ lessAt less data i (i - 1) then scanSorted less data b fuel (i + 1) else i

/-- The `maxSteps` loop of `partialInsertionSort_func`. -/
def partialInsertionLoop (less : α → α → Bool) (a b : Nat) : Nat → Nat → List α → List α × Bool
  | 0, _, data => (data, false)
  | steps + 1, i, data =>
    let i := scanSorted less data b (b - a) i
    if i = b then (data, true)
    else if b - a < 50 then (data, false)
    else
      let data := swapAt data i (i - 1)
      let data := if i - a ≥ 2 then shiftLeft less (i - 1) data else data
      let data := if b - i ≥ 2 then shiftRight less b (b - a) (i + 1) data else data
      partialInsertionLoop less a b steps i data

/-- Go's `partialInsertionSort_func`: partially sorts, reports whether the
range is sorted at the end. -/
def partialInsertionSort_func (less : α → α → Bool) (data : List α) (a b : Nat) : List α × Bool :=
  partialInsertionLoop less a b 5 (a + 1) data

/-- What one turn of the loop of `pdqsort_func` has in hand when it reaches
the partitioning step. -/
structure PdqTurn (α : Type) where
  data : List α
  limit : Nat
  pivot : Nat
  sorted : Bool

/-- One turn of the loop of `pdqsort_func`, from `breakPatterns` to the
partial insertion sort. -/
def pdqTurn (less : α → α → Bool) (data : List α) (a b limit : Nat)
    (wasBalanced wasPartitioned : Bool) : PdqTurn α :=
  -- If the last partitioning was imbalanced, we need to breakPatterns.
  let data := if ¬ wasBalanced then breakPatterns_func data a b else data
  let limit := if ¬ wasBalanced then limit - 1 else limit
  let ph := choosePivot_func less data a b
  let data := if ph.2 = .decreasingHint then reverseRange_func data a b else data
  let pivot := if ph.2 = .decreasingHint then (b - 1) - (ph.1 - a) else ph.1
  let hint := if ph.2 = .decreasingHint then SortedHint.increasingHint else ph.2
  -- The slice is likely already sorted.
  let pis :=
    if wasBalanced ∧ wasPartitioned ∧ hint = .increasingHint then
      partialInsertionSort_func less data a b
    else (data, false)
  ⟨pis.1, limit, pivot, pis.2⟩

/-- Go's `pdqsort_func`: the `for` loop with its two flags as parameters;
every turn and every nested call works on a strictly shorter range. -/
def pdqsort_func (less : α → α → Bool) :
    Nat → List α → Nat → Nat → Nat → Bool → Bool → List α
  | 0, data, _, _, _, _, _ => data
  | fuel + 1, data, a, b, limit, wasBalanced, wasPartitioned =>
    let length := b - a
    if length ≤ 12 then insertionSort_func less data a b
    -- Fall back to heapsort if too many bad choices were made.
    else if limit = 0 then heapSort_func less data a b
    else
      let t := pdqTurn less data a b limit wasBalanced wasPartitioned
      if t.sorted then t.data
      -- Probably the slice contains many duplicate elements
      else if a > 0 ∧ ¬ lessAt less t.data (a - 1) t.pivot then
        let pe := partitionEqual_func less t.data a b t.pivot
        pdqsort_func less fuel pe.1 pe.2 b t.limit wasBalanced wasPartitioned
      else
        let pr := partition_func less t.data a b t.pivot
        let mid := pr.2.1
        let leftLen := mid - a
        let rightLen := b - mid
        let balanceThreshold := length / 8
        if leftLen < rightLen then
          let data := pdqsort_func less fuel pr.1 a mid t.limit true true
          pdqsort_func less fuel data (mid + 1) b t.limit
            (decide (leftLen ≥ balanceThreshold)) pr.2.2
        else
          let data := pdqsort_func less fuel pr.1 (mid + 1) b t.limit true true
          pdqsort_func less fuel data a mid t.limit
            (decide (rightLen ≥ balanceThreshold)) pr.2.2

/-- Go's `sort.Slice(x, less)`. -/
def sortSlice (less : α → α → Bool) (x : List α) : List α :=
  let length := x.length
  let limit := bitsLen 64 length
  pdqsort_func less (length + 1) x 0 length limit true true

end SortSlice

/-! ### Vocabulary for the correctness of the sort -/

section SortSpec

variable {α : Type} [Inhabited α]

/-- The sort key of the element at index `i`. -/
def keyAt (key : α → Int) (data : List α) (i : Nat) : Int := key (data.getD i default)

/-- The keys of `data[a:b]` are in non-decreasing order. -/
def SortedOn (key : α → Int) (data : List α) (a b : Nat) : Prop :=
  ∀ i j, a ≤ i → i ≤ j → j < b → keyAt key data i ≤ keyAt key data j

/-- As far as keys show, `data2` is `data1` with the elements of `[a, b)`
rearranged among themselves and everything else in place. -/
def Rearranged (key : α → Int) (a b : Nat) (data1 data2 : List α) : Prop :=
  data2.length = data1.length ∧
  (∀ i, i < a ∨ b ≤ i → keyAt key data2 i = keyAt key data1 i) ∧
  (∀ i, a ≤ i → i < b → ∃ j, a ≤ j ∧ j < b ∧ keyAt key data2 i = keyAt key data1 j)

/-- The element just before `data[a:b]`, if there is one, is not above any
element of the range (the state in which `pdqsort_func` works on a range). -/
def BoundedBelow (key : α → Int) (data : List α) (a b : Nat) : Prop :=
  0 < a → ∀ i, a ≤ i → i < b → keyAt key data (a - 1) ≤ keyAt key data i

end SortSpec

/-! ## The operating system as seen by `main` -/

/-- What the program does to the outside world, in order. -/
inductive Event
  | mkdir (path : GoString)
  | exec (command : GoString) (args : List GoString)
  | createZip (path : GoString)
  | zipEntry (name : GoString)
  deriving DecidableEq, Repr

/-- How a run of `main` ends. -/
inductive Outcome
  | walkFatal
  | noFiles
  | selectionInvalid
  | mkdirFatal
  | parseError
  | execFatal
  | zipFatal
  | done
  deriving DecidableEq, Repr

/-- A run: the events in order and the way it ended. -/
structure Run where
  events : List Event
  outcome : Outcome
  deriving DecidableEq, Repr

/-- The answers of the operating system: the tree under the working
directory, whether `os.Stat` reports a path as not existing, whether
`os.Mkdir` succeeds, whether the `k`-th child process (counted from 0) run with
the given arguments exits successfully, and the outcomes of the file
operations of the archive writer. -/
structure Env where
  tree : FsNode
  statNotExist : GoString → Bool
  mkdirOk : GoString → Bool
  runOk : Nat → List GoString → Bool
  createOk : GoString → Bool
  openOk : GoString → Bool
  statOk : GoString → Bool
  createHeaderOk : GoString → Bool
  copyOk : GoString → Bool

/-- The transcoder binary named in `main`. -/
def ffmpeg : GoString := "./ffmpeg.exe".toList

/-- The function `executeCommand` of `main.go` as the `k`-th child process
of the run: the event it causes and whether `cmd.Run()` returned nil. -/
def executeCommand (env : Env) (k : Nat) (command : GoString) (args : List GoString) :
    Event × Bool :=
  (Event.exec command args, env.runOk k args)

/-- The function `addFileToZip` of `main.go`: the archive entry it creates
(if it gets that far) and whether it returned nil.  The entry is named by
`zip.FileInfoHeader`, that is by the base name of the opened file. -/
def addFileToZip (env : Env) (filename : GoString) : List Event × Bool :=
  if ¬ env.openOk filename then ([], false)
  else if ¬ env.statOk filename then ([], false)
  else
    let headerName := Base filename
    if ¬ env.createHeaderOk headerName then ([], false)
    else ([Event.zipEntry headerName], env.copyOk filename)

/-- The loop `for _, file := range files` of `zipFiles`. -/
def zipLoop (env : Env) : List GoString → List Event × Bool
  | [] => ([], true)
  | file :: rest =>
    let r := addFileToZip env file
    if ¬ r.2 then (r.1, false)
    else
      let r2 := zipLoop env rest
      (r.1 ++ r2.1, r2.2)

/-- The function `zipFiles` of `main.go`. -/
def zipFiles (env : Env) (zipFileName : GoString) (files : List GoString) : List Event × Bool :=
  if ¬ env.createOk zipFileName then ([], false)
  else
    let r := zipLoop env files
    (Event.createZip zipFileName :: r.1, r.2)

/-! ## `main` -/

/-- The comparison closure given to `sort.Slice` in `main`. -/
def lessRownum (x y : Item) : Bool := decide (x.Rownum < y.Rownum)

/-- Arguments of the extra (default) transcoder command. -/
def extraCommand (videoResource extraOutputFile : GoString) : List GoString :=
  ["-i".toList, videoResource, "-map".toList, "0:1".toList, "-b:a".toList, "129k".toList,
    "-f".toList, "mp3".toList, "-vn".toList, extraOutputFile]

/-- The stream number `audioTrackID := item.Rownum + 1`. -/
def audioTrackID (item : Item) : Int := addInt item.Rownum 1

/-- The path `outputFileName` built for one record. -/
def outputFileName (outputDir : GoString) (item : Item) : GoString :=
  Join [outputDir, item.TypeName ++ ".mp3".toList]

/-- Arguments of the transcoder command built for one record. -/
def trackCommand (videoResource outputDir : GoString) (item : Item) : List GoString :=
  ["-i".toList, videoResource, "-map".toList, "0:".toList ++ formatInt (audioTrackID item),
    "-b:a".toList, "129k".toList, "-f".toList, "mp3".toList, "-vn".toList,
    outputFileName outputDir item]

/-- The loop `for _, item := range items` of `main`; `k` is the number of
child processes run before.  Returns the events, and the names appended to
`mp3Files` unless a command failed (`log.Fatalf`). -/
def extractLoop (env : Env) (videoResource outputDir : GoString) :
    List Item → Nat → List Event × Option (List GoString)
  | [], _ => ([], some [])
  | item :: rest, k =>
    let r := executeCommand env k ffmpeg (trackCommand videoResource outputDir item)
    if ¬ r.2 then ([r.1], none)
    else
      let r2 := extractLoop env videoResource outputDir rest (k + 1)
      (r.1 :: r2.1, r2.2.map (fun names => outputFileName outputDir item :: names))

/-- The part of `main` after the JSON data has been parsed: sort, default
extraction, one extraction per record, archive. -/
def mainExtract (env : Env) (videoResource videoName : GoString) (items : List Item) : Run :=
  let outputDir := videoName
  let items := sortSlice lessRownum items
  let extraOutputFile := Join [outputDir, "bz.mp3".toList]
  let r0 := executeCommand env 0 ffmpeg (extraCommand videoResource extraOutputFile)
  if ¬ r0.2 then ⟨[r0.1], .execFatal⟩
  else
    let r := extractLoop env videoResource outputDir items 1
    match r.2 with
    | none => ⟨r0.1 :: r.1, .execFatal⟩
    | some names =>
      let mp3Files := extraOutputFile :: names
      let zipFileName := Join [outputDir, videoName ++ "_output.zip".toList]
      let z := zipFiles env zipFileName mp3Files
      ⟨r0.1 :: r.1 ++ z.1, if z.2 then .done else .zipFatal⟩

/-- The part of `main` after a source has been chosen: output directory,
JSON input, and the rest. -/
def mainPrepare (env : Env) (videoResource line2 : GoString) : Run :=
  let videoName := TrimSuffix (Base videoResource) (Ext videoResource)
  let outputDir := videoName
  let mk : List Event × Bool :=
    if env.statNotExist outputDir then ([Event.mkdir outputDir], env.mkdirOk outputDir)
    else ([], true)
  if ¬ mk.2 then ⟨mk.1, .mkdirFatal⟩
  else
    let jsonInput := ReplaceAll (TrimSpace line2) (Char.ofNat 39) '"'
    match Unmarshal jsonInput with
    | .error _ => ⟨mk.1, .parseError⟩
    | .ok items =>
      let r := mainExtract env videoResource videoName items
      ⟨mk.1 ++ r.events, r.outcome⟩

/-- The selection step of `main`: the chosen `videoResource`, or `none` when
the program answers that the selection is invalid. -/
def selectVideo (files : List GoString) (line1 : GoString) : Option GoString :=
  let input := TrimSpace line1
  match Atoi input with
  | .error _ => none
  | .ok index =>
    if index < 1 ∨ index > (files.length : Int) then none
    else some (files.getD (index - 1).toNat [])

/-- The part of `main` after the candidate list has been printed. -/
def mainSelect (env : Env) (files : List GoString) (line1 line2 : GoString) : Run :=
  match selectVideo files line1 with
  | none => ⟨[], .selectionInvalid⟩
  | some videoResource => mainPrepare env videoResource line2

/-- The function `main` of `main.go`, given the two lines typed by the user. -/
def main (env : Env) (line1 line2 : GoString) : Run :=
  let r := getMP4Files env.tree
  if r.2 ≠ none then ⟨[], .walkFatal⟩
  else if r.1.length = 0 then ⟨[], .noFiles⟩
  else mainSelect env r.1 line1 line2

/-! ## Vocabulary of the statements -/

/-- The arguments of a transcoder invocation, for an `exec` event. -/
def execArgs : Event → Option (List GoString)
  | .exec _ args => some args
  | _ => none

/-- The transcoder invocations of a run, in order. -/
def invocations (r : Run) : List (List GoString) := r.events.filterMap execArgs

/-- The names of the archive entries written by a run, in order. -/
def archiveEntries (r : Run) : List GoString :=
  r.events.filterMap (fun e => match e with
    | .zipEntry name => some name
    | _ => none)

/-- The commands `main` builds for a source and a parsed track list: the
default one, then one per record of the sorted list. -/
def allCommands (videoResource videoName : GoString) (items : List Item) : List (List GoString) :=
  extraCommand videoResource (Join [videoName, "bz.mp3".toList]) ::
    (sortSlice lessRownum items).map (trackCommand videoResource videoName)

mutual
/-- The entries below and including `path` in the order the traversal visits
them: an entry first, then (for a directory) its entries in name-list order. -/
def visitOrder (path : GoString) (info : FileInfo) : FsNode → List (GoString × FileInfo)
  | .node _ _ _ _ children =>
    (path, info) :: (if info.IsDir then visitNames path children else [])
/-- The entries of a directory's name list and everything below them. -/
def visitNames (path : GoString) : List FsNode → List (GoString × FileInfo)
  | [] => []
  | .node name kind lstatOk readOk children :: rest =>
    visitOrder (Join [path, name]) ⟨name, kind⟩ (.node name kind lstatOk readOk children)
      ++ visitNames path rest
end

/-- Every entry of the tree under the working directory, in traversal order. -/
def visited (tree : FsNode) : List (GoString × FileInfo) :=
  match tree with
  | .node _ kind _ _ _ => visitOrder ".".toList ⟨Base ".".toList, kind⟩ tree

/-- The entry is not a directory and its name ends in `.mp4`. -/
def isMP4Entry (e : GoString × FileInfo) : Bool :=
  !e.2.IsDir && HasSuffix e.2.name ".mp4".toList

/-- The entry is a regular file and its name ends in `.mp4`. -/
def isRegularMP4Entry (e : GoString × FileInfo) : Bool :=
  decide (e.2.kind = FileKind.regular) && HasSuffix e.2.name ".mp4".toList

/-- The character of a decimal digit. -/
def digitChar (d : Nat) : Char := Char.ofNat (d + 48)

/-- Value of a digit sequence, most significant digit first, on top of `n`. -/
def digitsValue (ds : List Nat) (n : Nat) : Nat := ds.foldl (fun acc d => acc * 10 + d) n

/-- The text `s` is a decimal integer literal denoting `i`: one or more
decimal digits, optionally preceded by one sign. -/
def DecimalDenotes (s : GoString) (i : Int) : Prop :=
  ∃ ds : List Nat, ds ≠ [] ∧ (∀ d ∈ ds, d < 10) ∧
    ((s = ds.map digitChar ∧ i = (digitsValue ds 0 : Nat)) ∨
     (s = '+' :: ds.map digitChar ∧ i = (digitsValue ds 0 : Nat)) ∨
     (s = '-' :: ds.map digitChar ∧ i = - (digitsValue ds 0 : Nat)))

/-- A JSON value that the field `rownum` takes without a type error: null
(the field is left alone) or a number written as a decimal integer that fits
`int`. -/
def rownumAccepts : JValue → Prop
  | .null => True
  | .number lit => ∃ i : Int, DecimalDenotes lit i ∧ minInt ≤ i ∧ i ≤ maxInt
  | _ => False

/-- A JSON value that the field `typeName` takes without a type error: null
or a string. -/
def typeNameAccepts : JValue → Prop
  | .null => True
  | .string _ => True
  | _ => False

/-- A JSON value that decodes into an `Item` without a type error: null, or
an object each of whose members named `rownum` or `typeName` has a value its
field takes.  No member is required to be there. -/
def recordAccepts : JValue → Prop
  | .null => True
  | .object ms =>
    ∀ kv ∈ ms, (keyMatches kv.1 rownumTag = true → rownumAccepts kv.2) ∧
      (keyMatches kv.1 typeNameTag = true → typeNameAccepts kv.2)
  | _ => False

/-- A JSON value that decodes into `[]Item` without a type error: null or an
array of acceptable records. -/
def listAccepts : JValue → Prop
  | .null => True
  | .array es => ∀ e ∈ es, recordAccepts e
  | _ => False

/-! ### The JSON grammar (RFC 8259), as text -/

/-- White space: spaces, horizontal tabs, line feeds and carriage returns. -/
def IsWs (w : GoString) : Prop := ∀ c ∈ w, c = ' ' ∨ c = '\t' ∨ c = '\r' ∨ c = '\n'

/-- A sequence of decimal digits. -/
def IsDigits (ds : GoString) : Prop := ∀ c ∈ ds, 48 ≤ c.toNat ∧ c.toNat ≤ 57

/-- The production `number = [ minus ] int [ frac ] [ exp ]`: `int` is a
single zero or starts with a non-zero digit, `frac` is a point and one or more
digits, `exp` is `e` or `E`, an optional sign and one or more digits. -/
def NumberLit (s : GoString) : Prop :=
  ∃ sign int frac exp : GoString, s = sign ++ int ++ frac ++ exp ∧
    (sign = [] ∨ sign = ['-']) ∧
    (int = ['0'] ∨ ∃ d ds, int = d :: ds ∧ d ≠ '0' ∧ IsDigits (d :: ds)) ∧
    (frac = [] ∨ ∃ ds, frac = '.' :: ds ∧ ds ≠ [] ∧ IsDigits ds) ∧
    (exp = [] ∨ ∃ e sg ds, exp = e :: sg ++ ds ∧ (e = 'e' ∨ e = 'E') ∧
      (sg = [] ∨ sg = ['+'] ∨ sg = ['-']) ∧ ds ≠ [] ∧ IsDigits ds)

/-- The character a two-character escape stands for. -/
def escapeChar (e : Char) : Option Char :=
  if e = '"' then some '"'
  else if e = '\\' then some '\\'
  else if e = '/' then some '/'
  else if e = 'b' then some (Char.ofNat 8)
  else if e = 'f' then some (Char.ofNat 12)
  else if e = 'n' then some '\n'
  else if e = 'r' then some '\r'
  else if e = 't' then some '\t'
  else none

/-- The text starts with the escape of a low surrogate. -/
def LowSurrogateAhead (raw : GoString) : Prop :=
  ∃ a b c d rr rest, raw = '\\' :: 'u' :: a :: b :: c :: d :: rest ∧ getu4 a b c d = some rr ∧
    0xDC00 ≤ rr ∧ rr < 0xE000

/-- The text between the quotes of a JSON string, and the string it stands
for: unescaped characters (no quote, backslash or control character),
two-character escapes, and four-digit escapes, where a high surrogate followed
by the escape of a low one stands for one character and any other surrogate
for the replacement character. -/
inductive StringBody : GoString → GoString → Prop
  | done : StringBody [] []
  | plain (c : Char) (raw dec : GoString) : c ≠ '"' → c ≠ '\\' → 0x20 ≤ c.toNat →
      StringBody raw dec → StringBody (c :: raw) (c :: dec)
  | escape (e x : Char) (raw dec : GoString) : escapeChar e = some x →
      StringBody raw dec → StringBody ('\\' :: e :: raw) (x :: dec)
  | unicode (a b c d : Char) (rr : Nat) (raw dec : GoString) : getu4 a b c d = some rr →
      ¬ (0xD800 ≤ rr ∧ rr < 0xE000) → StringBody raw dec →
      StringBody ('\\' :: 'u' :: a :: b :: c :: d :: raw) (Char.ofNat rr :: dec)
  | pair (a b c d a2 b2 c2 d2 : Char) (rr rr1 : Nat) (raw dec : GoString) :
      getu4 a b c d = some rr → 0xD800 ≤ rr → rr < 0xDC00 →
      getu4 a2 b2 c2 d2 = some rr1 → 0xDC00 ≤ rr1 → rr1 < 0xE000 → StringBody raw dec →
      StringBody ('\\' :: 'u' :: a :: b :: c :: d :: '\\' :: 'u' :: a2 :: b2 :: c2 :: d2 :: raw)
        (Char.ofNat ((rr - 0xD800) * 1024 + (rr1 - 0xDC00) + 0x10000) :: dec)
  | lone (a b c d : Char) (rr : Nat) (raw dec : GoString) : getu4 a b c d = some rr →
      0xD800 ≤ rr → rr < 0xE000 → ¬ (rr < 0xDC00 ∧ LowSurrogateAhead raw) →
      StringBody raw dec →
      StringBody ('\\' :: 'u' :: a :: b :: c :: d :: raw) (replacementChar :: dec)

/-- What a piece of JSON text stands for: a value, the elements of a
non-empty array, or the members of a non-empty object. -/
inductive Node
  | value (v : JValue)
  | elems (vs : List JValue)
  | members (ms : List (GoString × JValue))

/-- The grammar of JSON values: `Derives d t n` says that the text `t`,
written inside `d` enclosing arrays and objects, is a value (a literal name, a
number, a string, an array, an object), a comma-separated element list or a
comma-separated member list, standing for `n`.  White space may surround
every element, member name and member value; arrays and objects nest at most
`maxNestingDepth` deep. -/
inductive Derives : Nat → GoString → Node → Prop
  | litNull (d : Nat) : Derives d "null".toList (.value .null)
  | litTrue (d : Nat) : Derives d "true".toList (.value (.bool true))
  | litFalse (d : Nat) : Derives d "false".toList (.value (.bool false))
  | number (d : Nat) (s : GoString) : NumberLit s → Derives d s (.value (.number s))
  | string (d : Nat) (raw dec : GoString) : StringBody raw dec →
      Derives d ('"' :: raw ++ ['"']) (.value (.string dec))
  | emptyArray (d : Nat) (w : GoString) : d < maxNestingDepth → IsWs w →
      Derives d ('[' :: w ++ [']']) (.value (.array []))
  | array (d : Nat) (t : GoString) (vs : List JValue) : d < maxNestingDepth →
      Derives (d + 1) t (.elems vs) → Derives d ('[' :: t ++ [']']) (.value (.array vs))
  | emptyObject (d : Nat) (w : GoString) : d < maxNestingDepth → IsWs w →
      Derives d ('\x7b' :: w ++ ['\x7d']) (.value (.object []))
  | object (d : Nat) (t : GoString) (ms : List (GoString × JValue)) : d < maxNestingDepth →
      Derives (d + 1) t (.members ms) →
      Derives d ('\x7b' :: t ++ ['\x7d']) (.value (.object ms))
  | lastElem (d : Nat) (w1 t w2 : GoString) (v : JValue) : IsWs w1 → IsWs w2 →
      Derives d t (.value v) → Derives d (w1 ++ t ++ w2) (.elems [v])
  | consElem (d : Nat) (w1 t w2 more : GoString) (v : JValue) (vs : List JValue) :
      IsWs w1 → IsWs w2 → Derives d t (.value v) → Derives d more (.elems vs) →
      Derives d (w1 ++ t ++ w2 ++ ',' :: more) (.elems (v :: vs))
  | lastMember (d : Nat) (w1 raw w2 w3 t w4 key : GoString) (v : JValue) :
      IsWs w1 → IsWs w2 → IsWs w3 → IsWs w4 → StringBody raw key → Derives d t (.value v) →
      Derives d (w1 ++ '"' :: raw ++ '"' :: w2 ++ ':' :: w3 ++ t ++ w4) (.members [(key, v)])
  | consMember (d : Nat) (w1 raw w2 w3 t w4 more key : GoString) (v : JValue)
      (ms : List (GoString × JValue)) :
      IsWs w1 → IsWs w2 → IsWs w3 → IsWs w4 → StringBody raw key → Derives d t (.value v) →
      Derives d more (.members ms) →
      Derives d (w1 ++ '"' :: raw ++ '"' :: w2 ++ ':' :: w3 ++ t ++ w4 ++ ',' :: more)
        (.members ((key, v) :: ms))

/-- What may come right after a value in a JSON text: nothing, white space, a
comma, or a closing bracket or brace. -/
def ValueEnd (rest : GoString) : Prop :=
  ∀ c r, rest = c :: r →
    c = ' ' ∨ c = '\t' ∨ c = '\r' ∨ c = '\n' ∨ c = ',' ∨ c = ']' ∨ c = '\x7d'

/-- The text `data` is a JSON text standing for `v`: one value, with
optional white space around it. -/
def JSONText (data : GoString) (v : JValue) : Prop :=
  ∃ w1 t w2 : GoString, data = w1 ++ t ++ w2 ∧ IsWs w1 ∧ IsWs w2 ∧ Derives 0 t (.value v)

/-- The member's key selects one of the two fields of `Item`. -/
def knownField (kv : GoString × JValue) : Bool :=
  keyMatches kv.1 rownumTag || keyMatches kv.1 typeNameTag

/-- A plain file name: not empty, free of separators, and neither `.` nor `..`. -/
def PlainName (n : GoString) : Prop :=
  (∀ c ∈ n, c ≠ '/') ∧ n ≠ [] ∧ n ≠ ['.'] ∧ n ≠ ['.', '.']

/-- The stream selector of a command: its `-map` argument. -/
def streamSelector (args : List GoString) : GoString := args.getD 3 []

/-! ## Concrete inputs used in the statements -/

/-- An environment in which every operation succeeds, over a working
directory holding one video. -/
def okEnv : Env where
  tree := .node ".".toList .directory true true [.node "a.mp4".toList .regular true true []]
  statNotExist := fun _ => true
  mkdirOk := fun _ => true
  runOk := fun _ _ => true
  createOk := fun _ => true
  openOk := fun _ => true
  statOk := fun _ => true
  createHeaderOk := fun _ => true
  copyOk := fun _ => true

/-- The environment `okEnv`, except that the second child process fails. -/
def failSecondEnv : Env := { okEnv with runOk := fun k _ => k != 1 }

/-- The text of a list of two tracks, given out of order. -/
def twoTracksText : GoString :=
  "[\x7b\"rownum\":2,\"typeName\":\"en\"\x7d,\x7b\"rownum\":1,\"typeName\":\"fr\"\x7d]".toList

/-- The text of a list whose second record has the largest rownum. -/
def maxRownumText : GoString :=
  "[\x7b\"rownum\":0,\"typeName\":\"a\"\x7d,\x7b\"rownum\":9223372036854775807,\"typeName\":\"b\"\x7d]".toList

/-- The text of a list of one record with rownum 0. -/
def zeroRownumText : GoString := "[\x7b\"rownum\":0,\"typeName\":\"a\"\x7d]".toList

/-- The text of the thirteen records of `thirteenTracks`. -/
def thirteenText : GoString :=
  ("[\x7b\"rownum\":1,\"typeName\":\"a\"\x7d,\x7b\"rownum\":1,\"typeName\":\"b\"\x7d," ++
   "\x7b\"rownum\":1,\"typeName\":\"c\"\x7d,\x7b\"rownum\":1,\"typeName\":\"d\"\x7d," ++
   "\x7b\"rownum\":1,\"typeName\":\"e\"\x7d,\x7b\"rownum\":1,\"typeName\":\"f\"\x7d," ++
   "\x7b\"rownum\":1,\"typeName\":\"g\"\x7d,\x7b\"rownum\":1,\"typeName\":\"h\"\x7d," ++
   "\x7b\"rownum\":1,\"typeName\":\"i\"\x7d,\x7b\"rownum\":1,\"typeName\":\"j\"\x7d," ++
   "\x7b\"rownum\":1,\"typeName\":\"k\"\x7d,\x7b\"rownum\":1,\"typeName\":\"l\"\x7d," ++
   "\x7b\"rownum\":0,\"typeName\":\"m\"\x7d]").toList

/-- The text of a record that has no `typeName`, in the single-quote form the
user may type. -/
def missingLabelText : GoString := "[\x7b\u0027rownum\u0027:1\x7d]".toList

/-- A text that is not well-formed JSON (the key is not quoted). -/
def malformedText : GoString := "[\x7brownum: 1\x7d]".toList

/-- Two tracks, given out of order. -/
def twoTracks : List Item := [⟨2, "en".toList⟩, ⟨1, "fr".toList⟩]

/-- A track list whose second record has the largest rownum an `int` holds. -/
def maxRownumTracks : List Item := [⟨0, "a".toList⟩, ⟨9223372036854775807, "b".toList⟩]

/-- A track list of one record with rownum 0. -/
def zeroRownumTracks : List Item := [⟨0, "a".toList⟩]

/-- Thirteen records: twelve with rownum 1, then one with rownum 0. -/
def thirteenTracks : List Item :=
  [⟨1, "a".toList⟩, ⟨1, "b".toList⟩, ⟨1, "c".toList⟩, ⟨1, "d".toList⟩, ⟨1, "e".toList⟩,
   ⟨1, "f".toList⟩, ⟨1, "g".toList⟩, ⟨1, "h".toList⟩, ⟨1, "i".toList⟩, ⟨1, "j".toList⟩,
   ⟨1, "k".toList⟩, ⟨1, "l".toList⟩, ⟨0, "m".toList⟩]

/-- Fourteen records, all of rownum 0 except `g`, `m` and `n`, of rownum 1:
the first partition is unbalanced, so the sort goes through
`breakPatterns_func`. -/
def fourteenTracks : List Item :=
  [⟨0, "a".toList⟩, ⟨0, "b".toList⟩, ⟨0, "c".toList⟩, ⟨0, "d".toList⟩, ⟨0, "e".toList⟩,
   ⟨0, "f".toList⟩, ⟨1, "g".toList⟩, ⟨0, "h".toList⟩, ⟨0, "i".toList⟩, ⟨0, "j".toList⟩,
   ⟨0, "k".toList⟩, ⟨0, "l".toList⟩, ⟨1, "m".toList⟩, ⟨1, "n".toList⟩]

/-- Three records, two of them with the same rownum. -/
def tiedTracks : List Item := [⟨2, "x".toList⟩, ⟨1, "y".toList⟩, ⟨2, "z".toList⟩]

/-- The text of a track whose label has a directory part. -/
def nestedLabelText : GoString := "[\x7b\"rownum\":1,\"typeName\":\"a/b\"\x7d]".toList

/-- A track whose label has a directory part. -/
def nestedLabelTracks : List Item := [⟨1, "a/b".toList⟩]

/-- The text of a track whose label climbs out of the output directory. -/
def escapingText : GoString := "[\x7b\"rownum\":1,\"typeName\":\"../x\"\x7d]".toList

/-- A track whose label climbs out of the output directory. -/
def escapingLabel : Item := ⟨1, "../x".toList⟩

/-- A working directory holding a symbolic link named like a video. -/
def symlinkTree : FsNode :=
  .node ".".toList .directory true true [.node "l.mp4".toList .symlink true true []]

/-- A working directory with a video, a differently cased name, a
sub-directory named like a video, and a video inside it. -/
def mixedTree : FsNode :=
  .node ".".toList .directory true true
    [.node "a.MP4".toList .regular true true [],
     .node "b.mp4".toList .regular true true [],
     .node "x.mp4".toList .directory true true [.node "c.mp4".toList .regular true true []]]

/-! # Theorems -/

section SortPerm

variable {α : Type} [Inhabited α]

theorem swapAt_length (data : List α) (i j : Nat) : (swapAt data i j).length = data.length := by
  unfold swapAt; split <;> simp

theorem swapAt_perm [DecidableEq α] (data : List α) (i j : Nat) : (swapAt data i j).Perm data := by
  unfold swapAt
  split
  · rename_i h
    obtain ⟨hi, hj⟩ := h
    rw [List.perm_iff_count]
    intro x
    have hj2 : j < (data.set i (data.getD j default)).length := by simpa using hj
    rw [List.count_set _ _ _ _ hj2, List.count_set _ _ _ _ hi]
    simp only [List.getD_eq_getElem?_getD, List.getElem?_eq_getElem hi, List.getElem?_eq_getElem hj,
      Option.getD_some]
    have hci : 0 < List.count data[i] data := List.count_pos_iff.mpr (List.getElem_mem _)
    have hcj : 0 < List.count data[j] data := List.count_pos_iff.mpr (List.getElem_mem _)
    by_cases hij : i = j
    · subst hij
      simp only [List.getElem_set_self]
      by_cases hx : data[i] = x
      · subst hx; simp
      · simp [hx]
    · rw [List.getElem_set_ne hij]
      by_cases hx : data[i] = x <;> by_cases hy : data[j] = x
      · simp [hx, hy]; subst hx; omega
      · simp [hx, hy]; subst hx; omega
      · simp [hx, hy]
      · simp [hx, hy]
  · exact List.Perm.refl _

theorem insertionInner_perm [DecidableEq α] (less : α → α → Bool) (a j : Nat) (data : List α) :
    (insertionInner less a j data).Perm data := by
  induction j generalizing data with
  | zero => simp [insertionInner]
  | succ j ih =>
    simp only [insertionInner]
    split
    · exact (ih _).trans (swapAt_perm _ _ _)
    · exact List.Perm.refl _

theorem insertionOuter_perm [DecidableEq α] (less : α → α → Bool) (a b fuel i : Nat)
    (data : List α) : (insertionOuter less a b fuel i data).Perm data := by
  induction fuel generalizing data i with
  | zero => simp [insertionOuter]
  | succ fuel ih =>
    simp only [insertionOuter]
    split
    · exact (ih _ _).trans (insertionInner_perm _ _ _ _)
    · exact List.Perm.refl _

theorem insertionSort_perm [DecidableEq α] (less : α → α → Bool) (data : List α) (a b : Nat) :
    (insertionSort_func less data a b).Perm data :=
  insertionOuter_perm _ _ _ _ _ _

theorem siftDown_perm [DecidableEq α] (less : α → α → Bool) (hi first fuel : Nat)
    (data : List α) (root : Nat) : (siftDown_func less hi first fuel data root).Perm data := by
  induction fuel generalizing data root with
  | zero => simp [siftDown_func]
  | succ fuel ih =>
    simp only [siftDown_func]
    split_ifs <;> first | exact List.Perm.refl _ | exact (ih _ _).trans (swapAt_perm _ _ _)

theorem heapBuild_perm [DecidableEq α] (less : α → α → Bool) (hi first n : Nat)
    (data : List α) : (heapBuild less hi first n data).Perm data := by
  induction n generalizing data with
  | zero => simp [heapBuild]
  | succ n ih => exact (ih _).trans (siftDown_perm _ _ _ _ _ _)

theorem heapPop_perm [DecidableEq α] (less : α → α → Bool) (first n : Nat)
    (data : List α) : (heapPop less first n data).Perm data := by
  induction n generalizing data with
  | zero => simp [heapPop]
  | succ n ih => exact (ih _).trans ((siftDown_perm _ _ _ _ _ _).trans (swapAt_perm _ _ _))

theorem heapSort_perm [DecidableEq α] (less : α → α → Bool) (data : List α) (a b : Nat) :
    (heapSort_func less data a b).Perm data :=
  (heapPop_perm _ _ _ _).trans (heapBuild_perm _ _ _ _ _)

theorem breakLoop_perm [DecidableEq α] (a length modulus idx n i random : Nat) (data : List α) :
    (breakLoop a length modulus idx n i random data).Perm data := by
  induction n generalizing data i random with
  | zero => simp [breakLoop]
  | succ n ih => exact (ih _ _ _).trans (swapAt_perm _ _ _)

theorem breakPatterns_perm [DecidableEq α] (data : List α) (a b : Nat) :
    (breakPatterns_func data a b).Perm data := by
  simp only [breakPatterns_func]
  split_ifs <;> first | exact List.Perm.refl _ | exact breakLoop_perm _ _ _ _ _ _ _ _

theorem reverseLoop_perm [DecidableEq α] (fuel i j : Nat) (data : List α) :
    (reverseLoop fuel i j data).Perm data := by
  induction fuel generalizing data i j with
  | zero => simp [reverseLoop]
  | succ fuel ih =>
    simp only [reverseLoop]
    split
    · exact (ih _ _ _).trans (swapAt_perm _ _ _)
    · exact List.Perm.refl _

theorem reverseRange_perm [DecidableEq α] (data : List α) (a b : Nat) :
    (reverseRange_func data a b).Perm data :=
  reverseLoop_perm _ _ _ _

theorem partitionLoop_perm [DecidableEq α] (less : α → α → Bool) (a fuel : Nat) (data : List α)
    (i j1 : Nat) : (partitionLoop less a fuel data i j1).1.Perm data := by
  induction fuel generalizing data i j1 with
  | zero => simp [partitionLoop]
  | succ fuel ih =>
    simp only [partitionLoop]
    split_ifs <;> first | exact List.Perm.refl _ | exact (ih _ _ _).trans (swapAt_perm _ _ _)

theorem partition_perm [DecidableEq α] (less : α → α → Bool) (data : List α) (a b pivot : Nat) :
    (partition_func less data a b pivot).1.Perm data := by
  unfold partition_func
  simp only
  split
  · exact (swapAt_perm _ _ _).trans (swapAt_perm _ _ _)
  · exact (swapAt_perm _ _ _).trans ((partitionLoop_perm _ _ _ _ _ _).trans
      ((swapAt_perm _ _ _).trans (swapAt_perm _ _ _)))

theorem partitionEqualLoop_perm [DecidableEq α] (less : α → α → Bool) (a fuel : Nat)
    (data : List α) (i j1 : Nat) : (partitionEqualLoop less a fuel data i j1).1.Perm data := by
  induction fuel generalizing data i j1 with
  | zero => simp [partitionEqualLoop]
  | succ fuel ih =>
    simp only [partitionEqualLoop]
    split_ifs <;> first | exact List.Perm.refl _ | exact (ih _ _ _).trans (swapAt_perm _ _ _)

theorem partitionEqual_perm [DecidableEq α] (less : α → α → Bool) (data : List α)
    (a b pivot : Nat) : (partitionEqual_func less data a b pivot).1.Perm data :=
  (partitionEqualLoop_perm _ _ _ _ _ _).trans (swapAt_perm _ _ _)

theorem shiftLeft_perm [DecidableEq α] (less : α → α → Bool) (j : Nat) (data : List α) :
    (shiftLeft less j data).Perm data := by
  induction j generalizing data with
  | zero => simp [shiftLeft]
  | succ j ih =>
    simp only [shiftLeft]
    split
    · exact List.Perm.refl _
    · exact (ih _).trans (swapAt_perm _ _ _)

theorem shiftRight_perm [DecidableEq α] (less : α → α → Bool) (b fuel j : Nat) (data : List α) :
    (shiftRight less b fuel j data).Perm data := by
  induction fuel generalizing data j with
  | zero => simp [shiftRight]
  | succ fuel ih =>
    simp only [shiftRight]
    split
    · split
      · exact List.Perm.refl _
      · exact (ih _ _).trans (swapAt_perm _ _ _)
    · exact List.Perm.refl _

theorem partialInsertionLoop_perm [DecidableEq α] (less : α → α → Bool) (a b steps i : Nat)
    (data : List α) : (partialInsertionLoop less a b steps i data).1.Perm data := by
  induction steps generalizing data i with
  | zero => simp [partialInsertionLoop]
  | succ steps ih =>
    simp only [partialInsertionLoop]
    split
    · exact List.Perm.refl _
    · split
      · exact List.Perm.refl _
      · refine (ih _ _).trans ?_
        have h1 : ∀ d : List α, (if b - scanSorted less data b (b - a) i ≥ 2 then
            shiftRight less b (b - a) (scanSorted less data b (b - a) i + 1) d else d).Perm d := by
          intro d; split
          · exact shiftRight_perm _ _ _ _ _
          · exact List.Perm.refl _
        have h2 : ∀ d : List α, (if scanSorted less data b (b - a) i - a ≥ 2 then
            shiftLeft less (scanSorted less data b (b - a) i - 1) d else d).Perm d := by
          intro d; split
          · exact shiftLeft_perm _ _ _
          · exact List.Perm.refl _
        exact (h1 _).trans ((h2 _).trans (swapAt_perm _ _ _))

theorem partialInsertionSort_perm [DecidableEq α] (less : α → α → Bool) (data : List α)
    (a b : Nat) : (partialInsertionSort_func less data a b).1.Perm data :=
  partialInsertionLoop_perm _ _ _ _ _ _

theorem pdqTurn_perm [DecidableEq α] (less : α → α → Bool) (data : List α)
    (a b limit : Nat) (wb wp : Bool) : (pdqTurn less data a b limit wb wp).data.Perm data := by
  have hbp : ∀ d : List α, (if ¬ wb = true then breakPatterns_func d a b else d).Perm d := by
    intro d; split
    · exact breakPatterns_perm _ _ _
    · exact List.Perm.refl _
  have hrev : ∀ (c : Prop) [Decidable c] (d : List α),
      (if c then reverseRange_func d a b else d).Perm d := by
    intro c _ d; split
    · exact reverseRange_perm _ _ _
    · exact List.Perm.refl _
  have hpis : ∀ (c : Prop) [Decidable c] (d : List α),
      (if c then partialInsertionSort_func less d a b else (d, false)).1.Perm d := by
    intro c _ d; split
    · exact partialInsertionSort_perm _ _ _ _
    · exact List.Perm.refl _
  exact (hpis _ _).trans ((hrev _ _).trans (hbp data))

theorem pdqsort_perm [DecidableEq α] (less : α → α → Bool) (fuel : Nat) (data : List α)
    (a b limit : Nat) (wb wp : Bool) : (pdqsort_func less fuel data a b limit wb wp).Perm data := by
  induction fuel generalizing data a b limit wb wp with
  | zero => simp [pdqsort_func]
  | succ fuel ih =>
    simp only [pdqsort_func]
    have hpre := pdqTurn_perm less data a b limit wb wp
    split_ifs
    · exact insertionSort_perm _ _ _ _
    · exact heapSort_perm _ _ _ _
    · exact hpre
    · exact (ih _ _ _ _ _ _).trans ((partitionEqual_perm _ _ _ _ _).trans hpre)
    · exact (ih _ _ _ _ _ _).trans ((ih _ _ _ _ _ _).trans
        ((partition_perm _ _ _ _ _).trans hpre))
    · exact (ih _ _ _ _ _ _).trans ((ih _ _ _ _ _ _).trans
        ((partition_perm _ _ _ _ _).trans hpre))

theorem sortSlice_perm [DecidableEq α] (less : α → α → Bool) (x : List α) :
    (sortSlice less x).Perm x :=
  pdqsort_perm _ _ _ _ _ _ _ _

end SortPerm

/-! ## Insertion sort keeps ties in order -/

section Stable

variable {α : Type} [Inhabited α]

theorem swapAt_adjacent (l1 l2 : List α) (x y : α) :
    swapAt (l1 ++ x :: y :: l2) (l1.length + 1) l1.length = l1 ++ y :: x :: l2 := by
  unfold swapAt
  have h1 : l1.length + 1 < (l1 ++ x :: y :: l2).length := by simp
  have h2 : l1.length < (l1 ++ x :: y :: l2).length := by simp
  rw [if_pos ⟨h1, h2⟩]
  have e1 : (l1 ++ x :: y :: l2).getD (l1.length + 1) default = y := by
    rw [List.getD_append_right _ _ _ _ (by omega)]
    simp
  have e2 : (l1 ++ x :: y :: l2).getD l1.length default = x := by
    rw [List.getD_append_right _ _ _ _ (by omega)]
    simp
  rw [e1, e2, List.set_append_right _ _ (by omega), List.set_append_right _ _ (by simp)]
  simp

theorem split_adjacent (data : List α) (j : Nat) (h : j + 1 < data.length) :
    ∃ l1 l2, data = l1 ++ data.getD j default :: data.getD (j + 1) default :: l2 ∧
      l1.length = j := by
  refine ⟨data.take j, data.drop (j + 2), ?_, by simp; omega⟩
  have hj : j < data.length := by omega
  simp only [List.getD_eq_getElem?_getD, List.getElem?_eq_getElem hj, List.getElem?_eq_getElem h,
    Option.getD_some]
  conv_lhs => rw [← List.take_append_drop j data]
  congr 1
  rw [List.drop_eq_getElem_cons hj, List.drop_eq_getElem_cons h]

theorem swapAt_adjacent_filter (less : α → α → Bool) (p : α → Bool)
    (hp : ∀ x y, less x y = true → ¬ (p x = true ∧ p y = true)) (data : List α) (j : Nat)
    (hless : lessAt less data (j + 1) j = true) :
    (swapAt data (j + 1) j).filter p = data.filter p := by
  by_cases h : j + 1 < data.length
  · obtain ⟨l1, l2, hd, hl⟩ := split_adjacent data j h
    unfold lessAt at hless
    have hxy := hp _ _ hless
    generalize data.getD j default = x at hd hxy
    generalize data.getD (j + 1) default = y at hd hxy
    subst hd
    subst hl
    rw [swapAt_adjacent]
    simp only [List.filter_append, List.filter_cons]
    cases hx : p x <;> cases hy : p y <;> simp_all
  · unfold swapAt
    rw [if_neg (by omega)]

theorem insertionInner_filter (less : α → α → Bool) (p : α → Bool)
    (hp : ∀ x y, less x y = true → ¬ (p x = true ∧ p y = true)) (a j : Nat) (data : List α) :
    (insertionInner less a j data).filter p = data.filter p := by
  induction j generalizing data with
  | zero => simp [insertionInner]
  | succ j ih =>
    simp only [insertionInner]
    split_ifs with h
    · rw [ih, swapAt_adjacent_filter less p hp data j h.2]
    · rfl

theorem insertionOuter_filter (less : α → α → Bool) (p : α → Bool)
    (hp : ∀ x y, less x y = true → ¬ (p x = true ∧ p y = true)) (a b fuel i : Nat)
    (data : List α) : (insertionOuter less a b fuel i data).filter p = data.filter p := by
  induction fuel generalizing data i with
  | zero => simp [insertionOuter]
  | succ fuel ih =>
    simp only [insertionOuter]
    split_ifs
    · rw [ih, insertionInner_filter less p hp]
    · rfl

theorem sortSlice_short (less : α → α → Bool) (x : List α) (h : x.length ≤ 12) :
    sortSlice less x = insertionSort_func less x 0 x.length := by
  simp [sortSlice, pdqsort_func, h]

theorem sortSlice_short_filter (less : α → α → Bool) (p : α → Bool)
    (hp : ∀ x y, less x y = true → ¬ (p x = true ∧ p y = true)) (x : List α)
    (h : x.length ≤ 12) : (sortSlice less x).filter p = x.filter p := by
  rw [sortSlice_short less x h]
  exact insertionOuter_filter less p hp _ _ _ _ _

end Stable

/-! ## `sort.Slice` sorts -/

section SortCorrect

variable {α : Type} [Inhabited α] (key : α → Int) (less : α → α → Bool)

theorem lessAt_iff (hless : ∀ x y, less x y = decide (key x < key y)) (data : List α) (i j : Nat) :
    lessAt less data i j = true ↔ keyAt key data i < keyAt key data j := by
  simp [lessAt, keyAt, hless]

theorem keyAt_swapAt (data : List α) (i j k : Nat) (hi : i < data.length) (hj : j < data.length) :
    keyAt key (swapAt data i j) k =
      if k = j then keyAt key data i else if k = i then keyAt key data j else keyAt key data k := by
  unfold swapAt keyAt
  rw [if_pos ⟨hi, hj⟩]
  simp only [List.getD_eq_getElem?_getD, List.getElem?_set]
  by_cases h1 : k = j
  · subst h1
    simp [hi, hj]
  · by_cases h2 : k = i
    · subst h2
      simp [h1, hi, Ne.symm h1]
    · simp [h1, h2, Ne.symm h1, Ne.symm h2]

theorem keyAt_swapAt_left (data : List α) (i j : Nat) (hi : i < data.length)
    (hj : j < data.length) : keyAt key (swapAt data i j) i = keyAt key data j := by
  rw [keyAt_swapAt key data i j i hi hj]
  by_cases h : i = j
  · rw [if_pos h, h]
  · rw [if_neg h, if_pos rfl]

theorem keyAt_swapAt_right (data : List α) (i j : Nat) (hi : i < data.length)
    (hj : j < data.length) : keyAt key (swapAt data i j) j = keyAt key data i := by
  rw [keyAt_swapAt key data i j j hi hj, if_pos rfl]

theorem keyAt_swapAt_other (data : List α) (i j k : Nat) (hi : i < data.length)
    (hj : j < data.length) (hki : k ≠ i) (hkj : k ≠ j) :
    keyAt key (swapAt data i j) k = keyAt key data k := by
  rw [keyAt_swapAt key data i j k hi hj, if_neg hkj, if_neg hki]

theorem Rearranged.refl (a b : Nat) (data : List α) : Rearranged key a b data data :=
  ⟨rfl, fun _ _ => rfl, fun i h1 h2 => ⟨i, h1, h2, rfl⟩⟩

theorem Rearranged.trans {a b : Nat} {d1 d2 d3 : List α} (h12 : Rearranged key a b d1 d2)
    (h23 : Rearranged key a b d2 d3) : Rearranged key a b d1 d3 := by
  refine ⟨h23.1.trans h12.1, fun i hi => (h23.2.1 i hi).trans (h12.2.1 i hi), ?_⟩
  intro i h1 h2
  obtain ⟨j, hj1, hj2, hj⟩ := h23.2.2 i h1 h2
  obtain ⟨k, hk1, hk2, hk⟩ := h12.2.2 j hj1 hj2
  exact ⟨k, hk1, hk2, hj.trans hk⟩

theorem Rearranged.mono {a b a2 b2 : Nat} {d1 d2 : List α} (h : Rearranged key a b d1 d2)
    (ha : a2 ≤ a) (hb : b ≤ b2) : Rearranged key a2 b2 d1 d2 := by
  refine ⟨h.1, fun i hi => h.2.1 i (by omega), ?_⟩
  intro i h1 h2
  by_cases hin : a ≤ i ∧ i < b
  · obtain ⟨j, hj1, hj2, hj⟩ := h.2.2 i hin.1 hin.2
    exact ⟨j, by omega, by omega, hj⟩
  · exact ⟨i, h1, h2, h.2.1 i (by omega)⟩

theorem Rearranged.swapAt (a b : Nat) (data : List α) (i j : Nat) (hai : a ≤ i) (hib : i < b)
    (haj : a ≤ j) (hjb : j < b) (hb : b ≤ data.length) :
    Rearranged key a b data (swapAt data i j) := by
  have hi : i < data.length := by omega
  have hj : j < data.length := by omega
  refine ⟨swapAt_length data i j, ?_, ?_⟩
  · intro k hk
    rw [keyAt_swapAt key data i j k hi hj, if_neg (by omega), if_neg (by omega)]
  · intro k h1 h2
    rw [keyAt_swapAt key data i j k hi hj]
    split_ifs
    · exact ⟨i, hai, hib, rfl⟩
    · exact ⟨j, haj, hjb, rfl⟩
    · exact ⟨k, h1, h2, rfl⟩

theorem Rearranged.bounded {a b : Nat} {d1 d2 : List α} (h : Rearranged key a b d1 d2)
    (hb : BoundedBelow key d1 a b) : BoundedBelow key d2 a b := by
  intro ha i h1 h2
  obtain ⟨j, hj1, hj2, hj⟩ := h.2.2 i h1 h2
  rw [hj, h.2.1 (a - 1) (by omega)]
  exact hb ha j hj1 hj2

theorem SortedOn.of_rearranged_outside {a b lo hi : Nat} {d1 d2 : List α}
    (h : Rearranged key a b d1 d2) (hs : SortedOn key d1 lo hi) (hdisj : hi ≤ a ∨ b ≤ lo) :
    SortedOn key d2 lo hi := by
  intro i j h1 h2 h3
  rw [h.2.1 i (by omega), h.2.1 j (by omega)]
  exact hs i j h1 h2 h3

/-- Inner loop of insertion sort: the element at `j` sinks into the sorted
prefix `[a, j)`; `(j, e]` is the part it has already passed. -/
theorem insertionInner_spec (hless : ∀ x y, less x y = decide (key x < key y)) (a e : Nat)
    (j : Nat) (data : List α) (haj : a ≤ j) (hje : j ≤ e) (he : e < data.length)
    (h1 : SortedOn key data a j) (h2 : SortedOn key data j (e + 1))
    (h3 : ∀ i k, a ≤ i → i < j → j < k → k ≤ e → keyAt key data i ≤ keyAt key data k) :
    Rearranged key a (e + 1) data (insertionInner less a j data) ∧
      SortedOn key (insertionInner less a j data) a (e + 1) := by
  induction j generalizing data with
  | zero =>
    simp only [insertionInner]
    refine ⟨Rearranged.refl key _ _ _, ?_⟩
    have : a = 0 := by omega
    subst this
    exact h2
  | succ j ih =>
    simp only [insertionInner]
    split_ifs with hc
    · obtain ⟨hja, hlt⟩ := hc
      rw [lessAt_iff key less hless] at hlt
      have hR := Rearranged.swapAt key a (e + 1) data (j + 1) j (by omega) (by omega) (by omega)
        (by omega) (by omega)
      have hk := keyAt_swapAt key data (j + 1) j
      have hih := ih (swapAt data (j + 1) j) (by omega) (by omega)
        (by rw [swapAt_length]; exact he)
        (by
          intro p q hp hpq hq
          rw [hk p (by omega) (by omega), hk q (by omega) (by omega), if_neg (by omega),
            if_neg (by omega), if_neg (by omega), if_neg (by omega)]
          exact h1 p q hp hpq (by omega))
        (by
          intro p q hp hpq hq
          rw [hk p (by omega) (by omega), hk q (by omega) (by omega)]
          by_cases hpj : p = j
          · by_cases hqj : q = j
            · simp [hpj, hqj]
            · by_cases hqj1 : q = j + 1
              · simp only [hpj, hqj1, if_true, if_neg (show ¬ j + 1 = j by omega)]
                omega
              · rw [if_pos hpj, if_neg hqj, if_neg hqj1]
                have := h2 (j + 1) q (by omega) (by omega) hq
                omega
          · by_cases hpj1 : p = j + 1
            · by_cases hqj1 : q = j + 1
              · simp [hpj1, hqj1]
              · rw [if_neg hpj, if_pos hpj1, if_neg (by omega), if_neg hqj1]
                exact h3 j q (by omega) (by omega) (by omega) (by omega)
            · rw [if_neg hpj, if_neg hpj1, if_neg (by omega), if_neg (by omega)]
              exact h2 p q (by omega) hpq hq)
        (by
          intro p q hp hpj hjq hq
          rw [hk p (by omega) (by omega), hk q (by omega) (by omega), if_neg (by omega),
            if_neg (by omega)]
          by_cases hqj1 : q = j + 1
          · rw [if_neg (by omega), if_pos hqj1]
            exact h1 p j hp (by omega) (by omega)
          · rw [if_neg (by omega), if_neg hqj1]
            exact h3 p q hp (by omega) (by omega) hq)
      exact ⟨hR.trans key hih.1, hih.2⟩
    · refine ⟨Rearranged.refl key _ _ _, ?_⟩
      rw [lessAt_iff key less hless] at hc
      intro p q hp hpq hq
      by_cases hqj : q < j + 1
      · exact h1 p q hp hpq hqj
      · by_cases hpj : j + 1 ≤ p
        · exact h2 p q hpj hpq hq
        · have ha' : a < j + 1 := by omega
          have hnl : ¬ keyAt key data (j + 1) < keyAt key data j := fun h => hc ⟨ha', h⟩
          have e1 := h1 p j hp (by omega) (by omega)
          have e2 := h2 (j + 1) q (by omega) (by omega) hq
          omega

theorem insertionOuter_spec (hless : ∀ x y, less x y = decide (key x < key y)) (a b : Nat)
    (fuel i : Nat) (data : List α) (hai : a ≤ i) (hib : i ≤ b) (hb : b ≤ data.length)
    (hfuel : b - i ≤ fuel) (hs : SortedOn key data a i) :
    Rearranged key a b data (insertionOuter less a b fuel i data) ∧
      SortedOn key (insertionOuter less a b fuel i data) a b := by
  induction fuel generalizing i data with
  | zero =>
    simp only [insertionOuter]
    have : i = b := by omega
    subst this
    exact ⟨Rearranged.refl key _ _ _, hs⟩
  | succ fuel ih =>
    simp only [insertionOuter]
    split_ifs with hc
    · have hin := insertionInner_spec key less hless a i i data hai (Nat.le_refl _) (by omega) hs
        (by intro p q hp hpq hq
            have : p = q := by omega
            subst this
            exact Int.le_refl _)
        (by intro p q _ _ h1 h2; omega)
      have hrec := ih (i + 1) (insertionInner less a i data) (by omega) (by omega)
        (by rw [hin.1.1]; exact hb) (by omega) hin.2
      exact ⟨((hin.1).mono key (Nat.le_refl _) (by omega)).trans key hrec.1, hrec.2⟩
    · have : i = b := by omega
      subst this
      exact ⟨Rearranged.refl key _ _ _, hs⟩

/-- `insertionSort_func` sorts `data[a:b]` and touches nothing else. -/
theorem insertionSort_spec (hless : ∀ x y, less x y = decide (key x < key y)) (data : List α)
    (a b : Nat) (hb : b ≤ data.length) :
    Rearranged key a b data (insertionSort_func less data a b) ∧
      SortedOn key (insertionSort_func less data a b) a b := by
  unfold insertionSort_func
  by_cases hab : a < b
  · exact insertionOuter_spec key less hless a b (b - a) (a + 1) data (by omega) (by omega) hb
      (by omega)
      (by intro p q hp hpq hq
          have : p = q := by omega
          subst this
          exact Int.le_refl _)
  · have : b - a = 0 := by omega
    rw [this]
    simp only [insertionOuter]
    exact ⟨Rearranged.refl key _ _ _, fun p q hp hpq hq => by omega⟩

end SortCorrect

section SortPartition

variable {α : Type} [Inhabited α] (key : α → Int) (less : α → α → Bool)

theorem scanUp_spec (hless : ∀ x y, less x y = decide (key x < key y)) (data : List α)
    (a j fuel i : Nat) (hij : i ≤ j + 1) (hfuel : j + 1 - i ≤ fuel) :
    i ≤ scanUp less data a j fuel i ∧ scanUp less data a j fuel i ≤ j + 1 ∧
    (∀ k, i ≤ k → k < scanUp less data a j fuel i → keyAt key data k < keyAt key data a) ∧
    (scanUp less data a j fuel i ≤ j →
      ¬ keyAt key data (scanUp less data a j fuel i) < keyAt key data a) := by
  induction fuel generalizing i with
  | zero =>
    simp only [scanUp]
    exact ⟨Nat.le_refl _, hij, fun k h1 h2 => by omega, fun h => by omega⟩
  | succ fuel ih =>
    simp only [scanUp]
    split_ifs with hc
    · obtain ⟨h1, h2⟩ := hc
      rw [lessAt_iff key less hless] at h2
      obtain ⟨r1, r2, r3, r4⟩ := ih (i + 1) (by omega) (by omega)
      refine ⟨by omega, r2, ?_, r4⟩
      intro k hk1 hk2
      by_cases hki : k = i
      · subst hki; exact h2
      · exact r3 k (by omega) hk2
    · refine ⟨Nat.le_refl _, hij, fun k h1 h2 => by omega, ?_⟩
      intro h hlt
      exact hc ⟨h, (lessAt_iff key less hless data i a).mpr hlt⟩

theorem scanDown_spec (hless : ∀ x y, less x y = decide (key x < key y)) (data : List α)
    (a i j1 : Nat) (hij : i ≤ j1) :
    i ≤ scanDown less data a i j1 ∧ scanDown less data a i j1 ≤ j1 ∧
    (∀ k, scanDown less data a i j1 ≤ k → k < j1 → ¬ keyAt key data k < keyAt key data a) ∧
    (i < scanDown less data a i j1 →
      keyAt key data (scanDown less data a i j1 - 1) < keyAt key data a) := by
  induction j1 with
  | zero =>
    simp only [scanDown]
    exact ⟨hij, Nat.le_refl _, fun k h1 h2 => by omega, fun h => by omega⟩
  | succ j ih =>
    simp only [scanDown]
    split_ifs with hc
    · obtain ⟨h1, h2⟩ := hc
      rw [lessAt_iff key less hless] at h2
      obtain ⟨r1, r2, r3, r4⟩ := ih h1
      refine ⟨r1, by omega, ?_, r4⟩
      intro k hk1 hk2
      by_cases hkj : k = j
      · subst hkj; exact h2
      · exact r3 k hk1 (by omega)
    · refine ⟨hij, Nat.le_refl _, fun k h1 h2 => by omega, ?_⟩
      intro h
      simp only [Nat.add_sub_cancel]
      rw [lessAt_iff key less hless] at hc
      by_contra hn
      exact hc ⟨by omega, hn⟩

/-- The loop of `partition_func`: everything left of `i` is below the pivot
`data[a]`, everything from `j1` on is not; at the end the two meet. -/
theorem partitionLoop_spec (hless : ∀ x y, less x y = decide (key x < key y)) (a b : Nat)
    (fuel : Nat) (data : List α) (i j1 : Nat) (hb : b ≤ data.length)
    (hai : a + 1 ≤ i) (hij : i ≤ j1) (hjb : j1 ≤ b) (hfuel : j1 - i ≤ fuel)
    (hL : ∀ k, a + 1 ≤ k → k < i → keyAt key data k < keyAt key data a)
    (hR : ∀ k, j1 ≤ k → k < b → ¬ keyAt key data k < keyAt key data a) :
    Rearranged key (a + 1) b data (partitionLoop less a fuel data i j1).1 ∧
    a + 1 ≤ (partitionLoop less a fuel data i j1).2 ∧ (partitionLoop less a fuel data i j1).2 ≤ b ∧
    (∀ k, a + 1 ≤ k → k < (partitionLoop less a fuel data i j1).2 →
      keyAt key (partitionLoop less a fuel data i j1).1 k < keyAt key data a) ∧
    (∀ k, (partitionLoop less a fuel data i j1).2 ≤ k → k < b →
      ¬ keyAt key (partitionLoop less a fuel data i j1).1 k < keyAt key data a) := by
  induction fuel generalizing data i j1 with
  | zero =>
    simp only [partitionLoop]
    have : i = j1 := by omega
    subst this
    exact ⟨Rearranged.refl key _ _ _, hai, hjb, hL, hR⟩
  | succ fuel ih =>
    simp only [partitionLoop]
    have hj0 : j1 ≠ 0 := by omega
    simp only [hj0, if_false]
    obtain ⟨u1, u2, u3, u4⟩ := scanUp_spec key less hless data a (j1 - 1) j1 i (by omega) (by omega)
    generalize scanUp less data a (j1 - 1) j1 i = i2 at u1 u2 u3 u4 ⊢
    obtain ⟨d1, d2, d3, d4⟩ := scanDown_spec key less hless data a i2 j1 (by omega)
    generalize scanDown less data a i2 j1 = j2 at d1 d2 d3 d4 ⊢
    have hL2 : ∀ k, a + 1 ≤ k → k < i2 → keyAt key data k < keyAt key data a := by
      intro k h1 h2
      by_cases hk : k < i
      · exact hL k h1 hk
      · exact u3 k (by omega) h2
    have hR2 : ∀ k, j2 ≤ k → k < b → ¬ keyAt key data k < keyAt key data a := by
      intro k h1 h2
      by_cases hk : k < j1
      · exact d3 k h1 hk
      · exact hR k (by omega) h2
    split_ifs with hc
    · have : i2 = j2 := by omega
      subst this
      exact ⟨Rearranged.refl key _ _ _, by omega, by omega, hL2, hR2⟩
    · have hlt : i2 < j2 := by omega
      have e1 := u4 (by omega)
      have e2 := d4 hlt
      have hne : i2 ≠ j2 - 1 := by
        intro h; rw [h] at e1; exact e1 e2
      have hk := keyAt_swapAt key data i2 (j2 - 1)
      have hka : keyAt key (swapAt data i2 (j2 - 1)) a = keyAt key data a := by
        rw [hk a (by omega) (by omega), if_neg (by omega), if_neg (by omega)]
      have hR0 := Rearranged.swapAt key (a + 1) b data i2 (j2 - 1) (by omega) (by omega)
        (by omega) (by omega) hb
      have hrec := ih (swapAt data i2 (j2 - 1)) (i2 + 1) (j2 - 1)
        (by rw [swapAt_length]; exact hb) (by omega) (by omega) (by omega) (by omega)
        (by
          intro k h1 h2
          rw [hka, hk k (by omega) (by omega), if_neg (by omega)]
          split_ifs with h3
          · exact e2
          · exact hL2 k h1 (by omega))
        (by
          intro k h1 h2
          rw [hka, hk k (by omega) (by omega)]
          split_ifs with h3 h4
          · exact e1
          · omega
          · exact hR2 k (by omega) h2)
      rw [hka] at hrec
      exact ⟨hR0.trans key hrec.1, hrec.2⟩

/-- The last exchange of `partition_func` puts the pivot between the two parts. -/
theorem partition_finish (a b : Nat) (data : List α) (j : Nat) (hb : b ≤ data.length)
    (haj : a + 1 ≤ j) (hjb : j ≤ b)
    (hL : ∀ k, a + 1 ≤ k → k < j → keyAt key data k < keyAt key data a)
    (hR : ∀ k, j ≤ k → k < b → ¬ keyAt key data k < keyAt key data a) :
    Rearranged key a b data (swapAt data (j - 1) a) ∧
    (∀ k, a ≤ k → k < j - 1 →
      keyAt key (swapAt data (j - 1) a) k < keyAt key (swapAt data (j - 1) a) (j - 1)) ∧
    (∀ k, j - 1 < k → k < b →
      keyAt key (swapAt data (j - 1) a) (j - 1) ≤ keyAt key (swapAt data (j - 1) a) k) := by
  have hk := keyAt_swapAt key data (j - 1) a
  have hmid : keyAt key (swapAt data (j - 1) a) (j - 1) = keyAt key data a := by
    rw [hk (j - 1) (by omega) (by omega)]
    by_cases h : j - 1 = a
    · rw [if_pos h, h]
    · rw [if_neg h, if_pos rfl]
  refine ⟨Rearranged.swapAt key a b data (j - 1) a (by omega) (by omega) (by omega) (by omega) hb,
    ?_, ?_⟩
  · intro k h1 h2
    rw [hmid, hk k (by omega) (by omega)]
    split_ifs with h3 h4
    · exact hL (j - 1) (by omega) (by omega)
    · omega
    · exact hL k (by omega) (by omega)
  · intro k h1 h2
    rw [hmid, hk k (by omega) (by omega), if_neg (by omega), if_neg (by omega)]
    have := hR k (by omega) h2
    omega

/-- `partition_func` rearranges `data[a:b]` around the pivot: smaller
elements before the returned index, the others after it. -/
theorem partition_spec (hless : ∀ x y, less x y = decide (key x < key y)) (data : List α)
    (a b pivot : Nat) (hap : a ≤ pivot) (hpb : pivot < b) (hb : b ≤ data.length) :
    Rearranged key a b data (partition_func less data a b pivot).1 ∧
    a ≤ (partition_func less data a b pivot).2.1 ∧ (partition_func less data a b pivot).2.1 < b ∧
    (∀ k, a ≤ k → k < (partition_func less data a b pivot).2.1 →
      keyAt key (partition_func less data a b pivot).1 k <
        keyAt key (partition_func less data a b pivot).1 (partition_func less data a b pivot).2.1) ∧
    (∀ k, (partition_func less data a b pivot).2.1 < k → k < b →
      keyAt key (partition_func less data a b pivot).1 (partition_func less data a b pivot).2.1 ≤
        keyAt key (partition_func less data a b pivot).1 k) := by
  simp only [partition_func]
  have hR0 := Rearranged.swapAt key a b data a pivot (Nat.le_refl _) (by omega) hap hpb hb
  have hb0 : b ≤ (swapAt data a pivot).length := by rw [swapAt_length]; exact hb
  generalize swapAt data a pivot = data0 at hR0 hb0 ⊢
  obtain ⟨u1, u2, u3, u4⟩ := scanUp_spec key less hless data0 a (b - 1) (b - a) (a + 1) (by omega)
    (by omega)
  generalize scanUp less data0 a (b - 1) (b - a) (a + 1) = i2 at u1 u2 u3 u4 ⊢
  obtain ⟨d1, d2, d3, d4⟩ := scanDown_spec key less hless data0 a i2 b (by omega)
  generalize scanDown less data0 a i2 b = j2 at d1 d2 d3 d4 ⊢
  split_ifs with hc
  · have : i2 = j2 := by omega
    subst this
    obtain ⟨f1, f2, f3⟩ := partition_finish key a b data0 i2 hb0 (by omega) (by omega)
      (fun k h1 h2 => u3 k h1 h2) (fun k h1 h2 => d3 k h1 h2)
    dsimp only
    exact ⟨hR0.trans key f1, by omega, by omega, f2, f3⟩
  · have hlt : i2 < j2 := by omega
    have e1 := u4 (by omega)
    have e2 := d4 hlt
    have hne : i2 ≠ j2 - 1 := by
      intro h; rw [h] at e1; exact e1 e2
    have hk := keyAt_swapAt key data0 i2 (j2 - 1)
    have hka : keyAt key (swapAt data0 i2 (j2 - 1)) a = keyAt key data0 a := by
      rw [hk a (by omega) (by omega), if_neg (by omega), if_neg (by omega)]
    have hR1 := Rearranged.swapAt key (a + 1) b data0 i2 (j2 - 1) (by omega) (by omega)
      (by omega) (by omega) hb0
    have hb1 : b ≤ (swapAt data0 i2 (j2 - 1)).length := by rw [swapAt_length]; exact hb0
    obtain ⟨l1, l2, l3, l4, l5⟩ := partitionLoop_spec key less hless a b (b - a)
      (swapAt data0 i2 (j2 - 1)) (i2 + 1) (j2 - 1) hb1 (by omega) (by omega) (by omega) (by omega)
      (by
        intro k h1 h2
        rw [hka, hk k (by omega) (by omega), if_neg (by omega)]
        split_ifs with h3
        · exact e2
        · exact u3 k h1 (by omega))
      (by
        intro k h1 h2
        rw [hka, hk k (by omega) (by omega)]
        split_ifs with h3 h4
        · exact e1
        · omega
        · exact d3 k (by omega) h2)
    generalize partitionLoop less a (b - a) (swapAt data0 i2 (j2 - 1)) (i2 + 1) (j2 - 1) = r
      at l1 l2 l3 l4 l5 ⊢
    have hra : keyAt key r.1 a = keyAt key data0 a := by
      rw [l1.2.1 a (by omega), hka]
    have hbr : b ≤ r.1.length := by rw [l1.1]; exact hb1
    obtain ⟨f1, f2, f3⟩ := partition_finish key a b r.1 r.2 hbr l2 l3
      (fun k h1 h2 => by rw [hra, ← hka]; exact l4 k h1 h2)
      (fun k h1 h2 => by rw [hra, ← hka]; exact l5 k h1 h2)
    dsimp only
    exact ⟨hR0.trans key (((hR1.trans key l1).mono key (by omega) (Nat.le_refl _)).trans key f1),
      by omega, by omega, f2, f3⟩

end SortPartition

section SortPartitionEqual

variable {α : Type} [Inhabited α] (key : α → Int) (less : α → α → Bool)

theorem scanUpEq_spec (hless : ∀ x y, less x y = decide (key x < key y)) (data : List α)
    (a j fuel i : Nat) (hij : i ≤ j + 1) (hfuel : j + 1 - i ≤ fuel) :
    i ≤ scanUpEq less data a j fuel i ∧ scanUpEq less data a j fuel i ≤ j + 1 ∧
    (∀ k, i ≤ k → k < scanUpEq less data a j fuel i → ¬ keyAt key data a < keyAt key data k) ∧
    (scanUpEq less data a j fuel i ≤ j →
      keyAt key data a < keyAt key data (scanUpEq less data a j fuel i)) := by
  induction fuel generalizing i with
  | zero =>
    simp only [scanUpEq]
    exact ⟨Nat.le_refl _, hij, fun k h1 h2 => by omega, fun h => by omega⟩
  | succ fuel ih =>
    simp only [scanUpEq]
    split_ifs with hc
    · obtain ⟨h1, h2⟩ := hc
      rw [lessAt_iff key less hless] at h2
      obtain ⟨r1, r2, r3, r4⟩ := ih (i + 1) (by omega) (by omega)
      refine ⟨by omega, r2, ?_, r4⟩
      intro k hk1 hk2
      by_cases hki : k = i
      · subst hki; exact h2
      · exact r3 k (by omega) hk2
    · refine ⟨Nat.le_refl _, hij, fun k h1 h2 => by omega, ?_⟩
      intro h
      rw [lessAt_iff key less hless] at hc
      by_contra hn
      exact hc ⟨h, hn⟩

theorem scanDownEq_spec (hless : ∀ x y, less x y = decide (key x < key y)) (data : List α)
    (a i j1 : Nat) (hij : i ≤ j1) :
    i ≤ scanDownEq less data a i j1 ∧ scanDownEq less data a i j1 ≤ j1 ∧
    (∀ k, scanDownEq less data a i j1 ≤ k → k < j1 → keyAt key data a < keyAt key data k) ∧
    (i < scanDownEq less data a i j1 →
      ¬ keyAt key data a < keyAt key data (scanDownEq less data a i j1 - 1)) := by
  induction j1 with
  | zero =>
    simp only [scanDownEq]
    exact ⟨hij, Nat.le_refl _, fun k h1 h2 => by omega, fun h => by omega⟩
  | succ j ih =>
    simp only [scanDownEq]
    split_ifs with hc
    · obtain ⟨h1, h2⟩ := hc
      rw [lessAt_iff key less hless] at h2
      obtain ⟨r1, r2, r3, r4⟩ := ih h1
      refine ⟨r1, by omega, ?_, r4⟩
      intro k hk1 hk2
      by_cases hkj : k = j
      · subst hkj; exact h2
      · exact r3 k hk1 (by omega)
    · refine ⟨hij, Nat.le_refl _, fun k h1 h2 => by omega, ?_⟩
      intro h hlt
      simp only [Nat.add_sub_cancel] at hlt
      exact hc ⟨by omega, (lessAt_iff key less hless data a j).mpr hlt⟩

theorem partitionEqualLoop_spec (hless : ∀ x y, less x y = decide (key x < key y)) (a b : Nat)
    (fuel : Nat) (data : List α) (i j1 : Nat) (hb : b ≤ data.length)
    (hai : a + 1 ≤ i) (hij : i ≤ j1) (hjb : j1 ≤ b) (hfuel : j1 - i ≤ fuel)
    (hL : ∀ k, a + 1 ≤ k → k < i → ¬ keyAt key data a < keyAt key data k)
    (hR : ∀ k, j1 ≤ k → k < b → keyAt key data a < keyAt key data k) :
    Rearranged key (a + 1) b data (partitionEqualLoop less a fuel data i j1).1 ∧
    a + 1 ≤ (partitionEqualLoop less a fuel data i j1).2 ∧
    (partitionEqualLoop less a fuel data i j1).2 ≤ b ∧
    (∀ k, a + 1 ≤ k → k < (partitionEqualLoop less a fuel data i j1).2 →
      ¬ keyAt key data a < keyAt key (partitionEqualLoop less a fuel data i j1).1 k) ∧
    (∀ k, (partitionEqualLoop less a fuel data i j1).2 ≤ k → k < b →
      keyAt key data a < keyAt key (partitionEqualLoop less a fuel data i j1).1 k) := by
  induction fuel generalizing data i j1 with
  | zero =>
    simp only [partitionEqualLoop]
    have : i = j1 := by omega
    subst this
    exact ⟨Rearranged.refl key _ _ _, hai, hjb, hL, hR⟩
  | succ fuel ih =>
    simp only [partitionEqualLoop]
    have hj0 : j1 ≠ 0 := by omega
    simp only [hj0, if_false]
    obtain ⟨u1, u2, u3, u4⟩ := scanUpEq_spec key less hless data a (j1 - 1) j1 i (by omega)
      (by omega)
    generalize scanUpEq less data a (j1 - 1) j1 i = i2 at u1 u2 u3 u4 ⊢
    obtain ⟨d1, d2, d3, d4⟩ := scanDownEq_spec key less hless data a i2 j1 (by omega)
    generalize scanDownEq less data a i2 j1 = j2 at d1 d2 d3 d4 ⊢
    have hL2 : ∀ k, a + 1 ≤ k → k < i2 → ¬ keyAt key data a < keyAt key data k := by
      intro k h1 h2
      by_cases hk : k < i
      · exact hL k h1 hk
      · exact u3 k (by omega) h2
    have hR2 : ∀ k, j2 ≤ k → k < b → keyAt key data a < keyAt key data k := by
      intro k h1 h2
      by_cases hk : k < j1
      · exact d3 k h1 hk
      · exact hR k (by omega) h2
    split_ifs with hc
    · have : i2 = j2 := by omega
      subst this
      exact ⟨Rearranged.refl key _ _ _, by omega, by omega, hL2, hR2⟩
    · have hlt : i2 < j2 := by omega
      have e1 := u4 (by omega)
      have e2 := d4 hlt
      have hne : i2 ≠ j2 - 1 := by
        intro h; rw [h] at e1; exact e2 e1
      have hk := keyAt_swapAt key data i2 (j2 - 1)
      have hka : keyAt key (swapAt data i2 (j2 - 1)) a = keyAt key data a := by
        rw [hk a (by omega) (by omega), if_neg (by omega), if_neg (by omega)]
      have hR0 := Rearranged.swapAt key (a + 1) b data i2 (j2 - 1) (by omega) (by omega)
        (by omega) (by omega) hb
      have hrec := ih (swapAt data i2 (j2 - 1)) (i2 + 1) (j2 - 1)
        (by rw [swapAt_length]; exact hb) (by omega) (by omega) (by omega) (by omega)
        (by
          intro k h1 h2
          rw [hka, hk k (by omega) (by omega), if_neg (by omega)]
          split_ifs with h3
          · exact e2
          · exact hL2 k h1 (by omega))
        (by
          intro k h1 h2
          rw [hka, hk k (by omega) (by omega)]
          split_ifs with h3 h4
          · exact e1
          · omega
          · exact hR2 k (by omega) h2)
      rw [hka] at hrec
      exact ⟨hR0.trans key hrec.1, hrec.2⟩

/-- `partitionEqual_func` moves the elements not above the pivot to the
front of `data[a:b]` and returns where the others begin. -/
theorem partitionEqual_spec (hless : ∀ x y, less x y = decide (key x < key y)) (data : List α)
    (a b pivot : Nat) (hap : a ≤ pivot) (hpb : pivot < b) (hb : b ≤ data.length) :
    Rearranged key a b data (partitionEqual_func less data a b pivot).1 ∧
    a + 1 ≤ (partitionEqual_func less data a b pivot).2 ∧
    (partitionEqual_func less data a b pivot).2 ≤ b ∧
    (∀ k, a ≤ k → k < (partitionEqual_func less data a b pivot).2 →
      keyAt key (partitionEqual_func less data a b pivot).1 k ≤ keyAt key data pivot) ∧
    (∀ k, (partitionEqual_func less data a b pivot).2 ≤ k → k < b →
      keyAt key data pivot < keyAt key (partitionEqual_func less data a b pivot).1 k) := by
  simp only [partitionEqual_func]
  have hR0 := Rearranged.swapAt key a b data a pivot (Nat.le_refl _) (by omega) hap hpb hb
  have hb0 : b ≤ (swapAt data a pivot).length := by rw [swapAt_length]; exact hb
  have hp : keyAt key (swapAt data a pivot) a = keyAt key data pivot := by
    rw [keyAt_swapAt key data a pivot a (by omega) (by omega)]
    by_cases h : a = pivot
    · rw [if_pos h, h]
    · rw [if_neg h, if_pos rfl]
  generalize swapAt data a pivot = data0 at hR0 hb0 hp ⊢
  obtain ⟨l1, l2, l3, l4, l5⟩ := partitionEqualLoop_spec key less hless a b (b - a + 1) data0
    (a + 1) b hb0 (Nat.le_refl _) (by omega) (Nat.le_refl _) (by omega)
    (fun k h1 h2 => by omega) (fun k h1 h2 => by omega)
  generalize partitionEqualLoop less a (b - a + 1) data0 (a + 1) b = r at l1 l2 l3 l4 l5 ⊢
  rw [hp] at l4 l5
  refine ⟨hR0.trans key (l1.mono key (by omega) (Nat.le_refl _)), l2, l3, ?_, l5⟩
  intro k h1 h2
  by_cases hka : k = a
  · subst hka
    rw [l1.2.1 k (by omega), hp]
  · have := l4 k (by omega) h2
    omega

end SortPartitionEqual

section SortTurn

variable {α : Type} [Inhabited α] (key : α → Int) (less : α → α → Bool)

theorem order2_mem (data : List α) (a b s : Nat) :
    ((order2_func less data a b s).1 = a ∧ (order2_func less data a b s).2.1 = b) ∨
    ((order2_func less data a b s).1 = b ∧ (order2_func less data a b s).2.1 = a) := by
  unfold order2_func
  split_ifs
  · exact Or.inr ⟨rfl, rfl⟩
  · exact Or.inl ⟨rfl, rfl⟩

theorem median_mem (data : List α) (a b c s : Nat) :
    (median_func less data a b c s).1 = a ∨ (median_func less data a b c s).1 = b ∨
      (median_func less data a b c s).1 = c := by
  simp only [median_func]
  have o1 := order2_mem less data a b s
  generalize order2_func less data a b s = r1 at o1 ⊢
  have o2 := order2_mem less data r1.2.1 c r1.2.2
  generalize order2_func less data r1.2.1 c r1.2.2 = r2 at o2 ⊢
  have o3 := order2_mem less data r1.1 r2.1 r2.2.2
  generalize order2_func less data r1.1 r2.1 r2.2.2 = r3 at o3 ⊢
  rcases o1 with ⟨h1, h2⟩ | ⟨h1, h2⟩ <;> rcases o2 with ⟨h3, h4⟩ | ⟨h3, h4⟩ <;>
    rcases o3 with ⟨h5, h6⟩ | ⟨h5, h6⟩ <;> simp_all

theorem medianAdjacent_mem (data : List α) (a s : Nat) :
    (medianAdjacent_func less data a s).1 = a - 1 ∨ (medianAdjacent_func less data a s).1 = a ∨
      (medianAdjacent_func less data a s).1 = a + 1 :=
  median_mem less data (a - 1) a (a + 1) s

/-- `choosePivot_func` picks an index of the range. -/
theorem choosePivot_range (data : List α) (a b : Nat) (hl : 8 ≤ b - a) :
    a ≤ (choosePivot_func less data a b).1 ∧ (choosePivot_func less data a b).1 < b := by
  have hfst : ∀ (j s : Nat), (if s = 0 then (j, SortedHint.increasingHint)
      else if s = 12 then (j, SortedHint.decreasingHint) else (j, SortedHint.unknownHint)).1 = j := by
    intro j s; split_ifs <;> rfl
  simp only [choosePivot_func, hfst, hl, ge_iff_le, if_true]
  have hq : 2 ≤ (b - a) / 4 := by omega
  have hq2 : (b - a) / 4 * 4 ≤ b - a := Nat.div_mul_le_self _ _
  split_ifs with h50
  · have hq3 : 12 ≤ (b - a) / 4 := by omega
    have m1 := medianAdjacent_mem less data (a + (b - a) / 4 * 1) 0
    generalize medianAdjacent_func less data (a + (b - a) / 4 * 1) 0 = r1 at m1 ⊢
    have m2 := medianAdjacent_mem less data (a + (b - a) / 4 * 2) r1.2
    generalize medianAdjacent_func less data (a + (b - a) / 4 * 2) r1.2 = r2 at m2 ⊢
    have m3 := medianAdjacent_mem less data (a + (b - a) / 4 * 3) r2.2
    generalize medianAdjacent_func less data (a + (b - a) / 4 * 3) r2.2 = r3 at m3 ⊢
    have m4 := median_mem less data r1.1 r2.1 r3.1 r3.2
    generalize median_func less data r1.1 r2.1 r3.1 r3.2 = r4 at m4 ⊢
    omega
  · have m4 := median_mem less data (a + (b - a) / 4 * 1) (a + (b - a) / 4 * 2)
      (a + (b - a) / 4 * 3) 0
    generalize median_func less data (a + (b - a) / 4 * 1) (a + (b - a) / 4 * 2)
      (a + (b - a) / 4 * 3) 0 = r4 at m4 ⊢
    omega

theorem reverseLoop_rearranged (a b fuel i j : Nat) (data : List α) (hai : a ≤ i) (hjb : j < b)
    (hb : b ≤ data.length) : Rearranged key a b data (reverseLoop fuel i j data) := by
  induction fuel generalizing i j data with
  | zero => exact Rearranged.refl key _ _ _
  | succ fuel ih =>
    simp only [reverseLoop]
    split_ifs with h
    · exact (Rearranged.swapAt key a b data i j hai (by omega) (by omega) hjb hb).trans key
        (ih (i + 1) (j - 1) _ (by omega) (by omega) (by rw [swapAt_length]; exact hb))
    · exact Rearranged.refl key _ _ _

theorem reverseRange_rearranged (data : List α) (a b : Nat) (hab : a < b) (hb : b ≤ data.length) :
    Rearranged key a b data (reverseRange_func data a b) :=
  reverseLoop_rearranged key a b _ a (b - 1) data (Nat.le_refl _) (by omega) hb

theorem bitsLen_pow (fuel n : Nat) (hn : 1 ≤ n) : 2 ^ bitsLen fuel n ≤ 2 * n := by
  induction fuel generalizing n with
  | zero => simp only [bitsLen, Nat.pow_zero]; omega
  | succ fuel ih =>
    simp only [bitsLen]
    rw [if_neg (by omega), Nat.pow_succ]
    by_cases h1 : n / 2 = 0
    · have : bitsLen fuel (n / 2) = 0 := by
        rw [h1]; cases fuel <;> simp [bitsLen]
      rw [this]; omega
    · have := ih (n / 2) (by omega)
      omega

theorem breakLoop_rearranged (a b length modulus idx n i random : Nat) (data : List α)
    (hb : b ≤ data.length) (hlen : length = b - a) (hmod : modulus ≤ 2 * length)
    (hmod1 : 1 ≤ modulus)
    (hidx : a ≤ idx) (hidx2 : idx + 2 < b) (hin : i + n ≤ 3) :
    Rearranged key a b data (breakLoop a length modulus idx n i random data) := by
  induction n generalizing i random data with
  | zero => exact Rearranged.refl key _ _ _
  | succ n ih =>
    simp only [breakLoop]
    have hand : xorshiftNext random &&& (modulus - 1) ≤ modulus - 1 := Nat.and_le_right
    generalize xorshiftNext random &&& (modulus - 1) = other at hand ⊢
    have hother : (if other ≥ length then other - length else other) < length := by
      split_ifs <;> omega
    generalize (if other ≥ length then other - length else other) = other2 at hother ⊢
    exact (Rearranged.swapAt key a b data (idx + i) (a + other2) (by omega) (by omega)
      (by omega) (by omega) hb).trans key
      (ih (i + 1) _ _ (by rw [swapAt_length]; exact hb) (by omega))

theorem breakPatterns_rearranged (data : List α) (a b : Nat) (hb : b ≤ data.length) :
    Rearranged key a b data (breakPatterns_func data a b) := by
  simp only [breakPatterns_func]
  split_ifs with h
  · have hq : 2 ≤ (b - a) / 4 := by omega
    have hq2 : (b - a) / 4 * 4 ≤ b - a := Nat.div_mul_le_self _ _
    exact breakLoop_rearranged key a b (b - a) _ _ 3 0 _ data hb rfl
      (bitsLen_pow 64 (b - a) (by omega)) (Nat.one_le_two_pow) (by omega) (by omega) (by omega)
  · exact Rearranged.refl key _ _ _

end SortTurn

section SortPartial

variable {α : Type} [Inhabited α] (key : α → Int) (less : α → α → Bool)

theorem scanSorted_spec (hless : ∀ x y, less x y = decide (key x < key y)) (data : List α)
    (a b fuel i : Nat) (hai : a + 1 ≤ i) (hib : i ≤ b) (hfuel : b - i ≤ fuel)
    (hs : SortedOn key data a i) :
    i ≤ scanSorted less data b fuel i ∧ scanSorted less data b fuel i ≤ b ∧
    SortedOn key data a (scanSorted less data b fuel i) ∧
    (scanSorted less data b fuel i < b →
      keyAt key data (scanSorted less data b fuel i) <
        keyAt key data (scanSorted less data b fuel i - 1)) := by
  induction fuel generalizing i with
  | zero =>
    simp only [scanSorted]
    exact ⟨Nat.le_refl _, hib, hs, fun h => by omega⟩
  | succ fuel ih =>
    simp only [scanSorted]
    split_ifs with hc
    · obtain ⟨h1, h2⟩ := hc
      rw [lessAt_iff key less hless] at h2
      have hs' : SortedOn key data a (i + 1) := by
        intro p q hp hpq hq
        by_cases hqi : q < i
        · exact hs p q hp hpq hqi
        · have hq' : q = i := by omega
          subst hq'
          by_cases hpi : p = q
          · subst hpi; exact Int.le_refl _
          · have := hs p (q - 1) hp (by omega) (by omega)
            omega
      obtain ⟨r1, r2, r3, r4⟩ := ih (i + 1) (by omega) (by omega) (by omega) hs'
      exact ⟨by omega, r2, r3, r4⟩
    · refine ⟨Nat.le_refl _, hib, hs, ?_⟩
      intro h
      rw [lessAt_iff key less hless] at hc
      by_contra hn
      exact hc ⟨h, hn⟩

/-- With nothing smaller just before the range, the left shift of
`partialInsertionSort_func` stops inside the range, like the inner loop of
insertion sort. -/
theorem shiftLeft_eq_insertionInner (hless : ∀ x y, less x y = decide (key x < key y))
    (a b j : Nat) (data : List α) (haj : a ≤ j) (hjb : j < b) (hb : b ≤ data.length)
    (hbound : BoundedBelow key data a b) :
    shiftLeft less j data = insertionInner less a j data := by
  induction j generalizing data with
  | zero => simp [shiftLeft, insertionInner]
  | succ j ih =>
    simp only [shiftLeft, insertionInner]
    by_cases hlt : lessAt less data (j + 1) j = true
    · by_cases hja : j + 1 > a
      · rw [if_neg (by simp [hlt]), if_pos ⟨hja, hlt⟩]
        exact ih _ (by omega) (by omega) (by rw [swapAt_length]; exact hb)
          ((Rearranged.swapAt key a b data (j + 1) j (by omega) hjb (by omega) (by omega)
            hb).bounded key hbound)
      · exfalso
        rw [lessAt_iff key less hless] at hlt
        have ha : a = j + 1 := by omega
        have := hbound (by omega) (j + 1) (by omega) hjb
        rw [ha] at this
        simp only [Nat.add_sub_cancel] at this
        omega
    · rw [if_pos hlt, if_neg (fun h => hlt h.2)]

theorem shiftRight_rearranged (lo b fuel j : Nat) (data : List α) (hlo : lo + 1 ≤ j)
    (hb : b ≤ data.length) : Rearranged key lo b data (shiftRight less b fuel j data) := by
  induction fuel generalizing j data with
  | zero => exact Rearranged.refl key _ _ _
  | succ fuel ih =>
    simp only [shiftRight]
    split_ifs with h1 h2
    · exact (Rearranged.swapAt key lo b data j (j - 1) (by omega) h1 (by omega) (by omega)
        hb).trans key (ih (j + 1) _ (by omega) (by rw [swapAt_length]; exact hb))
    · exact Rearranged.refl key _ _ _
    · exact Rearranged.refl key _ _ _

theorem partialInsertionLoop_spec (hless : ∀ x y, less x y = decide (key x < key y))
    (a b steps i : Nat) (data : List α) (hai : a + 1 ≤ i) (hib : i ≤ b) (hb : b ≤ data.length)
    (hs : SortedOn key data a i) (hbound : BoundedBelow key data a b) :
    Rearranged key a b data (partialInsertionLoop less a b steps i data).1 ∧
    ((partialInsertionLoop less a b steps i data).2 = true →
      SortedOn key (partialInsertionLoop less a b steps i data).1 a b) := by
  induction steps generalizing i data with
  | zero =>
    simp only [partialInsertionLoop]
    exact ⟨Rearranged.refl key _ _ _, fun h => by simp at h⟩
  | succ steps ih =>
    simp only [partialInsertionLoop]
    obtain ⟨s1, s2, s3, s4⟩ := scanSorted_spec key less hless data a b (b - a) i hai hib
      (by omega) hs
    generalize scanSorted less data b (b - a) i = i2 at s1 s2 s3 s4 ⊢
    by_cases h1 : i2 = b
    · rw [if_pos h1]
      subst h1
      exact ⟨Rearranged.refl key _ _ _, fun _ => s3⟩
    by_cases h2 : b - a < 50
    · rw [if_neg h1, if_pos h2]
      exact ⟨Rearranged.refl key _ _ _, fun h => by simp at h⟩
    · rw [if_neg h1, if_neg h2]
      have hi2 : i2 < b := by omega
      have hR1 := Rearranged.swapAt key a b data i2 (i2 - 1) (by omega) hi2 (by omega) (by omega) hb
      have hb1 : b ≤ (swapAt data i2 (i2 - 1)).length := by rw [swapAt_length]; exact hb
      have hk := keyAt_swapAt key data i2 (i2 - 1)
      have hs1 : SortedOn key (swapAt data i2 (i2 - 1)) a (i2 - 1) := by
        intro p q hp hpq hq
        rw [hk p (by omega) (by omega), hk q (by omega) (by omega), if_neg (by omega),
          if_neg (by omega), if_neg (by omega), if_neg (by omega)]
        exact s3 p q hp hpq (by omega)
      have hbound1 := hR1.bounded key hbound
      generalize swapAt data i2 (i2 - 1) = data1 at hR1 hb1 hs1 hbound1 ⊢
      -- the smaller one goes left
      have hleft : Rearranged key a i2 data1
            (if i2 - a ≥ 2 then shiftLeft less (i2 - 1) data1 else data1) ∧
          SortedOn key (if i2 - a ≥ 2 then shiftLeft less (i2 - 1) data1 else data1) a i2 := by
        split_ifs with hc
        · rw [shiftLeft_eq_insertionInner key less hless a b (i2 - 1) data1 (by omega) (by omega)
            hb1 hbound1]
          have := insertionInner_spec key less hless a (i2 - 1) (i2 - 1) data1 (by omega)
            (Nat.le_refl _) (by omega) hs1
            (by intro p q hp hpq hq
                have : p = q := by omega
                subst this
                exact Int.le_refl _)
            (by intro p q _ _ h1 h2; omega)
          have e : i2 - 1 + 1 = i2 := by omega
          rw [e] at this
          exact this
        · refine ⟨Rearranged.refl key _ _ _, ?_⟩
          intro p q hp hpq hq
          have : p = q := by omega
          subst this
          exact Int.le_refl _
      generalize (if i2 - a ≥ 2 then shiftLeft less (i2 - 1) data1 else data1) = data2 at hleft ⊢
      have hb2 : b ≤ data2.length := by rw [hleft.1.1]; exact hb1
      -- the greater one goes right
      have hright : Rearranged key i2 b data2
          (if b - i2 ≥ 2 then shiftRight less b (b - a) (i2 + 1) data2 else data2) := by
        split_ifs
        · exact shiftRight_rearranged key less i2 b _ _ data2 (by omega) hb2
        · exact Rearranged.refl key _ _ _
      generalize (if b - i2 ≥ 2 then shiftRight less b (b - a) (i2 + 1) data2 else data2) = data3
        at hright ⊢
      have hR3 : Rearranged key a b data data3 :=
        hR1.trans key (((hleft.1).mono key (Nat.le_refl _) (by omega)).trans key
          (hright.mono key (by omega) (Nat.le_refl _)))
      have hrec := ih i2 data3 (by omega) (by omega) (by rw [hR3.1]; exact hb)
        (SortedOn.of_rearranged_outside key hright hleft.2 (Or.inl (Nat.le_refl _)))
        (hR3.bounded key hbound)
      exact ⟨hR3.trans key hrec.1, hrec.2⟩

/-- One turn of the loop of `pdqsort_func` up to the partitioning step:
the range is only rearranged, the pivot chosen lies in it, and a turn that
reports the range sorted leaves it sorted. -/
theorem pdqTurn_spec (hless : ∀ x y, less x y = decide (key x < key y)) (data : List α)
    (a b limit : Nat) (wb wp : Bool) (hl : 8 ≤ b - a) (hb : b ≤ data.length)
    (hbound : BoundedBelow key data a b) :
    Rearranged key a b data (pdqTurn less data a b limit wb wp).data ∧
    a ≤ (pdqTurn less data a b limit wb wp).pivot ∧ (pdqTurn less data a b limit wb wp).pivot < b ∧
    ((pdqTurn less data a b limit wb wp).sorted = true →
      SortedOn key (pdqTurn less data a b limit wb wp).data a b) := by
  simp only [pdqTurn, partialInsertionSort_func]
  have hR1 : Rearranged key a b data (if ¬ wb = true then breakPatterns_func data a b else data) := by
    split
    · exact breakPatterns_rearranged key data a b hb
    · exact Rearranged.refl key _ _ _
  generalize (if ¬ wb = true then breakPatterns_func data a b else data) = data1 at hR1 ⊢
  have hb1 : b ≤ data1.length := by rw [hR1.1]; exact hb
  have hp := choosePivot_range less data1 a b hl
  generalize choosePivot_func less data1 a b = ph at hp ⊢
  have hR2 : Rearranged key a b data1
      (if ph.2 = SortedHint.decreasingHint then reverseRange_func data1 a b else data1) := by
    split
    · exact reverseRange_rearranged key data1 a b (by omega) hb1
    · exact Rearranged.refl key _ _ _
  generalize (if ph.2 = SortedHint.decreasingHint then reverseRange_func data1 a b else data1)
    = data2 at hR2 ⊢
  have hb2 : b ≤ data2.length := by rw [hR2.1]; exact hb1
  have hbound2 : BoundedBelow key data2 a b := (hR1.trans key hR2).bounded key hbound
  have hpiv : a ≤ (if ph.2 = SortedHint.decreasingHint then b - 1 - (ph.1 - a) else ph.1) ∧
      (if ph.2 = SortedHint.decreasingHint then b - 1 - (ph.1 - a) else ph.1) < b := by
    split <;> omega
  generalize (if ph.2 = SortedHint.decreasingHint then b - 1 - (ph.1 - a) else ph.1) = piv
    at hpiv ⊢
  generalize (if ph.2 = SortedHint.decreasingHint then SortedHint.increasingHint else ph.2) = hint
  have hpis := partialInsertionLoop_spec key less hless a b 5 (a + 1) data2 (Nat.le_refl _)
    (by omega) hb2
    (by intro p q hp hpq hq
        have : p = q := by omega
        subst this
        exact Int.le_refl _) hbound2
  by_cases hc : wb = true ∧ wp = true ∧ hint = SortedHint.increasingHint
  · rw [if_pos hc]
    exact ⟨(hR1.trans key hR2).trans key hpis.1, hpiv.1, hpiv.2, hpis.2⟩
  · rw [if_neg hc]
    exact ⟨hR1.trans key hR2, hpiv.1, hpiv.2, fun h => by simp at h⟩

end SortPartial

section SortHeap

variable {α : Type} [Inhabited α] (key : α → Int) (less : α → α → Bool)

/-- `siftDown_func` restores the heap order below `lo` when only `root`
may be smaller than its children (`hA`: every other node dominates its
children; `hB`: the parent of `root` dominates the children of `root`). -/
theorem siftDown_spec (hless : ∀ x y, less x y = decide (key x < key y)) (hi first lo : Nat)
    (fuel : Nat) (data : List α) (root : Nat) (hlen : first + hi ≤ data.length)
    (hlo : lo ≤ root) (hfuel : hi - root ≤ fuel)
    (hA : ∀ k c, lo ≤ k → k ≠ root → (c = 2 * k + 1 ∨ c = 2 * k + 2) → c < hi →
      keyAt key data (first + c) ≤ keyAt key data (first + k))
    (hB : ∀ k c, lo ≤ k → (root = 2 * k + 1 ∨ root = 2 * k + 2) →
      (c = 2 * root + 1 ∨ c = 2 * root + 2) → c < hi →
      keyAt key data (first + c) ≤ keyAt key data (first + k)) :
    Rearranged key first (first + hi) data (siftDown_func less hi first fuel data root) ∧
    (∀ k c, lo ≤ k → (c = 2 * k + 1 ∨ c = 2 * k + 2) → c < hi →
      keyAt key (siftDown_func less hi first fuel data root) (first + c) ≤
        keyAt key (siftDown_func less hi first fuel data root) (first + k)) := by
  induction fuel generalizing data root with
  | zero =>
    simp only [siftDown_func]
    refine ⟨Rearranged.refl key _ _ _, ?_⟩
    intro k c hk hc hch
    by_cases hkr : k = root
    · omega
    · exact hA k c hk hkr hc hch
  | succ fuel ih =>
    simp only [siftDown_func]
    by_cases h0 : 2 * root + 1 ≥ hi
    · rw [if_pos h0]
      refine ⟨Rearranged.refl key _ _ _, ?_⟩
      intro k c hk hc hch
      by_cases hkr : k = root
      · omega
      · exact hA k c hk hkr hc hch
    · rw [if_neg h0]
      -- the larger child
      have hbig : ∃ cs, cs = (if 2 * root + 1 + 1 < hi ∧
            lessAt less data (first + (2 * root + 1)) (first + (2 * root + 1) + 1) = true
          then 2 * root + 1 + 1 else 2 * root + 1) ∧
          (cs = 2 * root + 1 ∨ cs = 2 * root + 2) ∧ cs < hi ∧
          (∀ c, (c = 2 * root + 1 ∨ c = 2 * root + 2) → c < hi →
            keyAt key data (first + c) ≤ keyAt key data (first + cs)) := by
        refine ⟨_, rfl, ?_⟩
        split_ifs with hc
        · obtain ⟨h1, h2⟩ := hc
          rw [lessAt_iff key less hless] at h2
          refine ⟨Or.inr rfl, h1, ?_⟩
          rintro c (rfl | rfl) hch
          · exact Int.le_of_lt h2
          · exact Int.le_refl _
        · refine ⟨Or.inl rfl, by omega, ?_⟩
          rintro c (rfl | rfl) hch
          · exact Int.le_refl _
          · rw [lessAt_iff key less hless] at hc
            have : ¬ keyAt key data (first + (2 * root + 1)) <
                keyAt key data (first + (2 * root + 1) + 1) := fun h => hc ⟨by omega, h⟩
            have e : first + (2 * root + 2) = first + (2 * root + 1) + 1 := by omega
            rw [e]
            omega
      obtain ⟨cs, hcs, hcs1, hcs2, hcs3⟩ := hbig
      rw [← hcs]
      by_cases hl : lessAt less data (first + root) (first + cs) = true
      · rw [if_neg (by simp [hl])]
        rw [lessAt_iff key less hless] at hl
        have hir : first + root < data.length := by omega
        have hic : first + cs < data.length := by omega
        have kl := keyAt_swapAt_left key data (first + root) (first + cs) hir hic
        have kr := keyAt_swapAt_right key data (first + root) (first + cs) hir hic
        have ko := keyAt_swapAt_other key data (first + root) (first + cs)
        have hR := Rearranged.swapAt key first (first + hi) data (first + root) (first + cs)
          (by omega) (by omega) (by omega) (by omega) hlen
        have hrec := ih (swapAt data (first + root) (first + cs)) cs
          (by rw [swapAt_length]; exact hlen) (by omega) (by omega)
          (by
            intro k c hk1 hk2 hc hch
            by_cases hkr : k = root
            · subst hkr
              rw [kl]
              by_cases hccs : c = cs
              · subst hccs
                rw [kr]
                exact Int.le_of_lt hl
              · rw [ko (first + c) hir hic (by omega) (by omega)]
                exact hcs3 c hc hch
            · rw [ko (first + k) hir hic (by omega) (by omega)]
              by_cases hcr : c = root
              · subst hcr
                rw [kl]
                exact hB k cs hk1 hc hcs1 hcs2
              · rw [ko (first + c) hir hic (by omega) (by omega)]
                exact hA k c hk1 hkr hc hch)
          (by
            intro k c hk1 hk2 hc hch
            have hkr : k = root := by omega
            subst hkr
            rw [kl, ko (first + c) hir hic (by omega) (by omega)]
            exact hA cs c (by omega) (by omega) hc hch)
        exact ⟨hR.trans key hrec.1, hrec.2⟩
      · rw [if_pos (by simpa using hl)]
        rw [lessAt_iff key less hless] at hl
        refine ⟨Rearranged.refl key _ _ _, ?_⟩
        intro k c hk hc hch
        by_cases hkr : k = root
        · subst hkr
          have := hcs3 c hc hch
          omega
        · exact hA k c hk hkr hc hch

theorem heapBuild_spec (hless : ∀ x y, less x y = decide (key x < key y)) (hi first : Nat)
    (n : Nat) (data : List α) (hlen : first + hi ≤ data.length)
    (hheap : ∀ k c, n ≤ k → (c = 2 * k + 1 ∨ c = 2 * k + 2) → c < hi →
      keyAt key data (first + c) ≤ keyAt key data (first + k)) :
    Rearranged key first (first + hi) data (heapBuild less hi first n data) ∧
    (∀ k c, (c = 2 * k + 1 ∨ c = 2 * k + 2) → c < hi →
      keyAt key (heapBuild less hi first n data) (first + c) ≤
        keyAt key (heapBuild less hi first n data) (first + k)) := by
  induction n generalizing data with
  | zero =>
    simp only [heapBuild]
    exact ⟨Rearranged.refl key _ _ _, fun k c hc hch => hheap k c (Nat.zero_le _) hc hch⟩
  | succ i ih =>
    simp only [heapBuild]
    obtain ⟨s1, s2⟩ := siftDown_spec key less hless hi first i hi data i hlen (Nat.le_refl _)
      (by omega)
      (fun k c hk hki hc hch => hheap k c (by omega) hc hch)
      (fun k c hk hr _ _ => by omega)
    obtain ⟨r1, r2⟩ := ih (siftDown_func less hi first hi data i) (by rw [s1.1]; exact hlen) s2
    exact ⟨s1.trans key r1, r2⟩

/-- In a heap the root is not below any other element. -/
theorem heap_root_max (data : List α) (first n : Nat)
    (hheap : ∀ k c, (c = 2 * k + 1 ∨ c = 2 * k + 2) → c < n →
      keyAt key data (first + c) ≤ keyAt key data (first + k)) (k : Nat) (hk : k < n) :
    keyAt key data (first + k) ≤ keyAt key data (first + 0) := by
  induction k using Nat.strong_induction_on with
  | _ k ih =>
    by_cases h0 : k = 0
    · subst h0; exact Int.le_refl _
    · have h1 := hheap ((k - 1) / 2) k (by omega) hk
      have h2 := ih ((k - 1) / 2) (by omega) (by omega)
      omega

theorem heapPop_spec (hless : ∀ x y, less x y = decide (key x < key y)) (hi first : Nat)
    (n : Nat) (data : List α) (hn : n ≤ hi) (hlen : first + hi ≤ data.length)
    (hheap : ∀ k c, (c = 2 * k + 1 ∨ c = 2 * k + 2) → c < n →
      keyAt key data (first + c) ≤ keyAt key data (first + k))
    (hs : SortedOn key data (first + n) (first + hi))
    (hcross : ∀ k m, k < n → n ≤ m → m < hi →
      keyAt key data (first + k) ≤ keyAt key data (first + m)) :
    Rearranged key first (first + hi) data (heapPop less first n data) ∧
      SortedOn key (heapPop less first n data) first (first + hi) := by
  induction n generalizing data with
  | zero =>
    simp only [heapPop]
    exact ⟨Rearranged.refl key _ _ _, by simpa using hs⟩
  | succ i ih =>
    simp only [heapPop]
    have hmax := heap_root_max key data first (i + 1) hheap
    have h0 : first < data.length := by omega
    have hi' : first + i < data.length := by omega
    have kl := keyAt_swapAt_left key data first (first + i) h0 hi'
    have kr := keyAt_swapAt_right key data first (first + i) h0 hi'
    have ko := keyAt_swapAt_other key data first (first + i)
    have hR1 := Rearranged.swapAt key first (first + (i + 1)) data first (first + i)
      (Nat.le_refl _) (by omega) (by omega) (by omega) (by omega)
    have hlen1 : first + hi ≤ (swapAt data first (first + i)).length := by
      rw [swapAt_length]; exact hlen
    obtain ⟨s1, s2⟩ := siftDown_spec key less hless i first 0 i (swapAt data first (first + i)) 0
      (by omega) (Nat.le_refl _) (by omega)
      (by
        intro k c _ hk0 hc hch
        rw [ko (first + c) h0 hi' (by omega) (by omega),
          ko (first + k) h0 hi' (by omega) (by omega)]
        exact hheap k c hc (by omega))
      (fun k c _ hr _ _ => by omega)
    generalize siftDown_func less i first i (swapAt data first (first + i)) 0 = data2 at s1 s2 ⊢
    -- keys of the shrunken heap come from the old heap
    have hfrom : ∀ k, k < i → ∃ j, j ≤ i ∧
        keyAt key data2 (first + k) = keyAt key data (first + j) := by
      intro k hk
      obtain ⟨j, hj1, hj2, hj⟩ := s1.2.2 (first + k) (by omega) (by omega)
      rw [hj]
      by_cases hjf : j = first
      · subst hjf
        exact ⟨i, Nat.le_refl _, kl⟩
      · refine ⟨j - first, by omega, ?_⟩
        rw [ko j h0 hi' hjf (by omega)]
        congr 1
        omega
    have hout : ∀ m, i ≤ m → keyAt key data2 (first + m) =
        keyAt key (swapAt data first (first + i)) (first + m) :=
      fun m hm => s1.2.1 (first + m) (Or.inr (by omega))
    have hrec := ih data2 (by omega) (by rw [s1.1]; exact hlen1)
      (fun k c hc hch => s2 k c (Nat.zero_le _) hc hch)
      (by
        intro p q hp hpq hq
        obtain ⟨p', rfl⟩ : ∃ p', p = first + p' := ⟨p - first, by omega⟩
        obtain ⟨q', rfl⟩ : ∃ q', q = first + q' := ⟨q - first, by omega⟩
        rw [hout p' (by omega), hout q' (by omega)]
        by_cases hpi : p' = i
        · subst hpi
          rw [kr]
          by_cases hqi : q' = p'
          · subst hqi; rw [kr]
          · rw [ko (first + q') h0 hi' (by omega) (by omega)]
            exact hcross 0 q' (by omega) (by omega) (by omega)
        · rw [ko (first + p') h0 hi' (by omega) (by omega),
            ko (first + q') h0 hi' (by omega) (by omega)]
          exact hs (first + p') (first + q') (by omega) hpq hq)
      (by
        intro k m hk hm hmh
        obtain ⟨j, hj1, hj⟩ := hfrom k hk
        rw [hj, hout m hm]
        by_cases hmi : m = i
        · subst hmi
          rw [kr]
          exact hmax j (by omega)
        · rw [ko (first + m) h0 hi' (by omega) (by omega)]
          exact hcross j m (by omega) (by omega) hmh)
    exact ⟨((hR1.mono key (Nat.le_refl _) (by omega)).trans key
      (s1.mono key (Nat.le_refl _) (by omega))).trans key hrec.1, hrec.2⟩

/-- `heapSort_func` sorts `data[a:b]` and touches nothing else. -/
theorem heapSort_spec (hless : ∀ x y, less x y = decide (key x < key y)) (data : List α)
    (a b : Nat) (hab : a ≤ b) (hb : b ≤ data.length) :
    Rearranged key a b data (heapSort_func less data a b) ∧
      SortedOn key (heapSort_func less data a b) a b := by
  simp only [heapSort_func]
  have e : a + (b - a) = b := by omega
  obtain ⟨b1, b2⟩ := heapBuild_spec key less hless (b - a) a ((b - a - 1) / 2 + 1) data
    (by omega) (fun k c hk hc hch => by omega)
  generalize heapBuild less (b - a) a ((b - a - 1) / 2 + 1) data = data1 at b1 b2 ⊢
  obtain ⟨p1, p2⟩ := heapPop_spec key less hless (b - a) a (b - a) data1 (Nat.le_refl _)
    (by rw [b1.1]; omega) b2 (fun p q hp hpq hq => by omega) (fun k m hk hm hmh => by omega)
  rw [e] at b1 p1 p2
  exact ⟨b1.trans key p1, p2⟩

end SortHeap

section SortMain

variable {α : Type} [Inhabited α] (key : α → Int) (less : α → α → Bool)

/-- Two sorted parts around a pivot that separates them make a sorted range. -/
theorem sortedOn_around (a b mid : Nat) (d0 d2 : List α)
    (hlow : ∀ k, a ≤ k → k < mid → keyAt key d0 k < keyAt key d0 mid)
    (hhigh : ∀ k, mid < k → k < b → keyAt key d0 mid ≤ keyAt key d0 k)
    (hL : ∀ i, a ≤ i → i < mid → ∃ j, a ≤ j ∧ j < mid ∧ keyAt key d2 i = keyAt key d0 j)
    (hM : keyAt key d2 mid = keyAt key d0 mid)
    (hR : ∀ i, mid + 1 ≤ i → i < b → ∃ j, mid + 1 ≤ j ∧ j < b ∧ keyAt key d2 i = keyAt key d0 j)
    (hsL : SortedOn key d2 a mid) (hsR : SortedOn key d2 (mid + 1) b) : SortedOn key d2 a b := by
  have low2 : ∀ i, a ≤ i → i < mid → keyAt key d2 i < keyAt key d0 mid := by
    intro i h1 h2
    obtain ⟨j, hj1, hj2, hj⟩ := hL i h1 h2
    rw [hj]; exact hlow j hj1 hj2
  have high2 : ∀ i, mid + 1 ≤ i → i < b → keyAt key d0 mid ≤ keyAt key d2 i := by
    intro i h1 h2
    obtain ⟨j, hj1, hj2, hj⟩ := hR i h1 h2
    rw [hj]; exact hhigh j (by omega) hj2
  intro p q hp hpq hq
  by_cases hq1 : q < mid
  · exact hsL p q hp hpq hq1
  · by_cases hp1 : mid + 1 ≤ p
    · exact hsR p q hp1 hpq hq
    · by_cases hpm : p = mid
      · by_cases hqm : q = mid
        · rw [hpm, hqm]
        · rw [hpm, hM]; exact high2 q (by omega) hq
      · have e1 := low2 p hp (by omega)
        by_cases hqm : q = mid
        · rw [hqm, hM]; omega
        · have e2 := high2 q (by omega) hq
          omega

/-- `pdqsort_func` sorts `data[a:b]` and touches nothing else, provided the
element before the range is not above any element of the range. -/
theorem pdqsort_spec (hless : ∀ x y, less x y = decide (key x < key y)) (fuel : Nat)
    (data : List α) (a b limit : Nat) (wb wp : Bool) (hab : a ≤ b) (hb : b ≤ data.length)
    (hfuel : b - a < fuel) (hbound : BoundedBelow key data a b) :
    Rearranged key a b data (pdqsort_func less fuel data a b limit wb wp) ∧
      SortedOn key (pdqsort_func less fuel data a b limit wb wp) a b := by
  induction fuel generalizing data a b limit wb wp with
  | zero => omega
  | succ fuel ih =>
    simp only [pdqsort_func]
    by_cases h12 : b - a ≤ 12
    · rw [if_pos h12]
      exact insertionSort_spec key less hless data a b hb
    rw [if_neg h12]
    by_cases hlim : limit = 0
    · rw [if_pos hlim]
      exact heapSort_spec key less hless data a b hab hb
    rw [if_neg hlim]
    obtain ⟨t1, t2, t3, t4⟩ := pdqTurn_spec key less hless data a b limit wb wp (by omega) hb hbound
    generalize pdqTurn less data a b limit wb wp = t at t1 t2 t3 t4 ⊢
    have hbt : b ≤ t.data.length := by rw [t1.1]; exact hb
    have hboundt : BoundedBelow key t.data a b := t1.bounded key hbound
    by_cases hsorted : t.sorted = true
    · rw [if_pos hsorted]
      exact ⟨t1, t4 hsorted⟩
    rw [if_neg hsorted]
    by_cases heq : a > 0 ∧ ¬ lessAt less t.data (a - 1) t.pivot = true
    · rw [if_pos heq]
      obtain ⟨ha0, hnl⟩ := heq
      rw [lessAt_iff key less hless] at hnl
      obtain ⟨e1, e2, e3, e4, e5⟩ := partitionEqual_spec key less hless t.data a b t.pivot t2 t3 hbt
      generalize partitionEqual_func less t.data a b t.pivot = pe at e1 e2 e3 e4 e5 ⊢
      have hbpe : b ≤ pe.1.length := by rw [e1.1]; exact hbt
      have hP : keyAt key t.data t.pivot = keyAt key t.data (a - 1) := by
        have := hboundt ha0 t.pivot t2 t3
        omega
      have hboundpe : BoundedBelow key pe.1 a b := e1.bounded key hboundt
      have hfront : ∀ k, a ≤ k → k < pe.2 → keyAt key pe.1 k = keyAt key t.data t.pivot := by
        intro k h1 h2
        have u1 := e4 k h1 h2
        have u2 := hboundpe ha0 k h1 (by omega)
        rw [e1.2.1 (a - 1) (Or.inl (by omega))] at u2
        omega
      obtain ⟨r1, r2⟩ := ih pe.1 pe.2 b t.limit wb wp e3 hbpe (by omega)
        (by
          intro _ i h1 h2
          rw [hfront (pe.2 - 1) (by omega) (by omega)]
          exact Int.le_of_lt (e5 i h1 h2))
      generalize pdqsort_func less fuel pe.1 pe.2 b t.limit wb wp = r at r1 r2 ⊢
      refine ⟨(t1.trans key e1).trans key (r1.mono key (by omega) (Nat.le_refl _)), ?_⟩
      have hback : ∀ i, pe.2 ≤ i → i < b → keyAt key t.data t.pivot < keyAt key r i := by
        intro i h1 h2
        obtain ⟨j, hj1, hj2, hj⟩ := r1.2.2 i h1 h2
        rw [hj]; exact e5 j hj1 hj2
      have hfront2 : ∀ k, a ≤ k → k < pe.2 → keyAt key r k = keyAt key t.data t.pivot := by
        intro k h1 h2
        rw [r1.2.1 k (Or.inl h2)]; exact hfront k h1 h2
      intro p q hp hpq hq
      by_cases hq1 : q < pe.2
      · rw [hfront2 p hp (by omega), hfront2 q (by omega) hq1]
      · by_cases hp1 : pe.2 ≤ p
        · exact r2 p q hp1 hpq hq
        · rw [hfront2 p hp (by omega)]
          exact Int.le_of_lt (hback q (by omega) hq)
    rw [if_neg heq]
    obtain ⟨p1, p2, p3, p4, p5⟩ := partition_spec key less hless t.data a b t.pivot t2 t3 hbt
    generalize partition_func less t.data a b t.pivot = pr at p1 p2 p3 p4 p5 ⊢
    have hbpr : b ≤ pr.1.length := by rw [p1.1]; exact hbt
    have hboundpr : BoundedBelow key pr.1 a b := p1.bounded key hboundt
    have hR0 := t1.trans key p1
    by_cases hside : pr.2.1 - a < b - pr.2.1
    · rw [if_pos hside]
      obtain ⟨l1, l2⟩ := ih pr.1 a pr.2.1 t.limit true true p2 (by omega) (by omega)
        (fun h0 i h1 h2 => hboundpr h0 i h1 (by omega))
      generalize pdqsort_func less fuel pr.1 a pr.2.1 t.limit true true = d1 at l1 l2 ⊢
      have hb1 : b ≤ d1.length := by rw [l1.1]; exact hbpr
      obtain ⟨r1, r2⟩ := ih d1 (pr.2.1 + 1) b t.limit (decide (pr.2.1 - a ≥ (b - a) / 8)) pr.2.2
        (by omega) hb1 (by omega)
        (by
          intro _ i h1 h2
          rw [l1.2.1 i (Or.inr (by omega)), l1.2.1 (pr.2.1 + 1 - 1) (Or.inr (by omega))]
          simp only [Nat.add_sub_cancel]
          exact p5 i (by omega) h2)
      generalize pdqsort_func less fuel d1 (pr.2.1 + 1) b t.limit
        (decide (pr.2.1 - a ≥ (b - a) / 8)) pr.2.2 = d2 at r1 r2 ⊢
      refine ⟨hR0.trans key ((l1.mono key (Nat.le_refl _) (by omega)).trans key
        (r1.mono key (by omega) (Nat.le_refl _))), ?_⟩
      refine sortedOn_around key a b pr.2.1 pr.1 d2 p4 p5 ?_ ?_ ?_
        (SortedOn.of_rearranged_outside key r1 l2 (Or.inl (by omega))) r2
      · intro i h1 h2
        obtain ⟨j, hj1, hj2, hj⟩ := l1.2.2 i h1 h2
        exact ⟨j, hj1, hj2, by rw [r1.2.1 i (Or.inl (by omega)), hj]⟩
      · rw [r1.2.1 pr.2.1 (Or.inl (by omega)), l1.2.1 pr.2.1 (Or.inr (Nat.le_refl _))]
      · intro i h1 h2
        obtain ⟨j, hj1, hj2, hj⟩ := r1.2.2 i h1 h2
        exact ⟨j, hj1, hj2, by rw [hj, l1.2.1 j (Or.inr (by omega))]⟩
    · rw [if_neg hside]
      obtain ⟨r1, r2⟩ := ih pr.1 (pr.2.1 + 1) b t.limit true true (by omega) hbpr (by omega)
        (by
          intro _ i h1 h2
          simp only [Nat.add_sub_cancel]
          exact p5 i (by omega) h2)
      generalize pdqsort_func less fuel pr.1 (pr.2.1 + 1) b t.limit true true = d1 at r1 r2 ⊢
      have hb1 : b ≤ d1.length := by rw [r1.1]; exact hbpr
      obtain ⟨l1, l2⟩ := ih d1 a pr.2.1 t.limit (decide (b - pr.2.1 ≥ (b - a) / 8)) pr.2.2 p2
        (by omega) (by omega)
        (by
          intro h0 i h1 h2
          rw [r1.2.1 i (Or.inl (by omega)), r1.2.1 (a - 1) (Or.inl (by omega))]
          exact hboundpr h0 i h1 (by omega))
      generalize pdqsort_func less fuel d1 a pr.2.1 t.limit
        (decide (b - pr.2.1 ≥ (b - a) / 8)) pr.2.2 = d2 at l1 l2 ⊢
      refine ⟨hR0.trans key ((r1.mono key (by omega) (Nat.le_refl _)).trans key
        (l1.mono key (Nat.le_refl _) (by omega))), ?_⟩
      refine sortedOn_around key a b pr.2.1 pr.1 d2 p4 p5 ?_ ?_ ?_ l2
        (SortedOn.of_rearranged_outside key l1 r2 (Or.inr (by omega)))
      · intro i h1 h2
        obtain ⟨j, hj1, hj2, hj⟩ := l1.2.2 i h1 h2
        exact ⟨j, hj1, hj2, by rw [hj, r1.2.1 j (Or.inl (by omega))]⟩
      · rw [l1.2.1 pr.2.1 (Or.inr (Nat.le_refl _)), r1.2.1 pr.2.1 (Or.inl (by omega))]
      · intro i h1 h2
        obtain ⟨j, hj1, hj2, hj⟩ := r1.2.2 i h1 h2
        exact ⟨j, hj1, hj2, by rw [l1.2.1 i (Or.inr (by omega)), hj]⟩

/-- `sort.Slice` leaves the slice in non-decreasing key order, for any
comparison that compares a key. -/
theorem sortSlice_sorted (hless : ∀ x y, less x y = decide (key x < key y)) (x : List α) :
    ((sortSlice less x).map key).Sorted (· ≤ ·) := by
  obtain ⟨h1, h2⟩ := pdqsort_spec key less hless (x.length + 1) x 0 x.length
    (bitsLen 64 x.length) true true (Nat.zero_le _) (Nat.le_refl _) (by omega)
    (fun h => by omega)
  have hlen : (sortSlice less x).length = x.length := h1.1
  rw [List.Sorted, List.pairwise_iff_getElem]
  intro i j hi hj hij
  simp only [List.getElem_map]
  have := h2 i j (Nat.zero_le _) (Nat.le_of_lt hij) (by simpa [hlen] using hj)
  simp only [keyAt, List.getD_eq_getElem?_getD] at this
  rw [List.getElem?_eq_getElem (by simpa using hi), List.getElem?_eq_getElem (by simpa using hj)]
    at this
  simpa [sortSlice] using this

end SortMain

/-! ## The extraction loop -/

theorem extractLoop_ok (env : Env) (v d : GoString) (items : List Item) (k : Nat)
    (h : ∀ i it, items[i]? = some it → env.runOk (k + i) (trackCommand v d it) = true) :
    extractLoop env v d items k =
      (items.map (fun it => Event.exec ffmpeg (trackCommand v d it)),
        some (items.map (outputFileName d))) := by
  induction items generalizing k with
  | nil => rfl
  | cons it rest ih =>
    have h0 := h 0 it (by simp)
    have hrest := ih (k + 1) (fun i x hi => by
      have := h (i + 1) x (by simpa using hi)
      simpa [Nat.add_assoc, Nat.add_comm 1 i] using this)
    simp only [Nat.add_zero] at h0
    simp [extractLoop, executeCommand, h0, hrest]

theorem extractLoop_fail (env : Env) (v d : GoString) (items : List Item) (k j : Nat)
    (bad : Item) (hj : items[j]? = some bad)
    (hok : ∀ i it, i < j → items[i]? = some it → env.runOk (k + i) (trackCommand v d it) = true)
    (hbad : env.runOk (k + j) (trackCommand v d bad) = false) :
    extractLoop env v d items k =
      ((items.take (j + 1)).map (fun it => Event.exec ffmpeg (trackCommand v d it)), none) := by
  induction items generalizing k j with
  | nil => simp at hj
  | cons it rest ih =>
    cases j with
    | zero =>
      simp only [List.getElem?_cons_zero, Option.some.injEq] at hj
      subst hj
      simp only [Nat.add_zero] at hbad
      simp [extractLoop, executeCommand, hbad]
    | succ j =>
      have h0 := hok 0 it (by omega) (by simp)
      simp only [Nat.add_zero] at h0
      have hrest := ih (k + 1) j (by simpa using hj)
        (fun i x hi hx => by
          have := hok (i + 1) x (by omega) (by simpa using hx)
          simpa [Nat.add_assoc, Nat.add_comm 1 i] using this)
        (by simpa [Nat.add_assoc, Nat.add_comm 1 j] using hbad)
      simp [extractLoop, executeCommand, h0, hrest]

theorem zipLoop_entries (env : Env) (files : List GoString) :
    ∀ e ∈ (zipLoop env files).1, ∃ name, e = Event.zipEntry name := by
  induction files with
  | nil => simp [zipLoop]
  | cons f rest ih =>
    simp only [zipLoop, addFileToZip]
    split_ifs <;> simp_all

theorem zipLoop_ok (env : Env) (files : List GoString)
    (hopen : ∀ f ∈ files, env.openOk f = true) (hstat : ∀ f ∈ files, env.statOk f = true)
    (hhdr : ∀ f ∈ files, env.createHeaderOk (Base f) = true)
    (hcopy : ∀ f ∈ files, env.copyOk f = true) :
    zipLoop env files = (files.map (fun f => Event.zipEntry (Base f)), true) := by
  induction files with
  | nil => rfl
  | cons f rest ih =>
    have ih' := ih (fun g hg => hopen g (List.mem_cons_of_mem _ hg))
      (fun g hg => hstat g (List.mem_cons_of_mem _ hg))
      (fun g hg => hhdr g (List.mem_cons_of_mem _ hg))
      (fun g hg => hcopy g (List.mem_cons_of_mem _ hg))
    simp [zipLoop, addFileToZip, hopen f (List.mem_cons_self _ _), hstat f (List.mem_cons_self _ _),
      hhdr f (List.mem_cons_self _ _), hcopy f (List.mem_cons_self _ _), ih']

/-! ## `strconv.Atoi` reads exactly the decimal integer literals in range -/

theorem digitVal_eq_some (c : Char) (d : Nat) :
    digitVal c = some d ↔ d < 10 ∧ c = digitChar d := by
  unfold digitVal digitChar
  constructor
  · intro h
    split at h
    · rename_i hc
      simp only [Option.some.injEq] at h
      refine ⟨by omega, ?_⟩
      have : d + 48 = c.toNat := by omega
      rw [this, Char.ofNat_toNat]
    · simp at h
  · rintro ⟨hd, rfl⟩
    interval_cases d <;> decide

theorem digitVal_digitChar (d : Nat) (hd : d < 10) : digitVal (digitChar d) = some d :=
  (digitVal_eq_some _ _).mpr ⟨hd, rfl⟩

theorem atoiFastLoop_eq_some (s : GoString) (n m : Nat) :
    atoiFastLoop s n = some m ↔
      ∃ ds : List Nat, (∀ d ∈ ds, d < 10) ∧ s = ds.map digitChar ∧ m = digitsValue ds n := by
  induction s generalizing n with
  | nil =>
    simp only [atoiFastLoop, Option.some.injEq]
    constructor
    · rintro rfl; exact ⟨[], by simp, rfl, rfl⟩
    · rintro ⟨ds, _, hs, hm⟩
      have : ds = [] := by simpa using hs.symm
      subst this; simpa [digitsValue] using hm.symm
  | cons c cs ih =>
    simp only [atoiFastLoop]
    constructor
    · intro h
      cases hc : digitVal c with
      | none => simp [hc] at h
      | some d =>
        simp only [hc] at h
        obtain ⟨ds, hds, hs, hm⟩ := (ih _).mp h
        obtain ⟨hd, rfl⟩ := (digitVal_eq_some _ _).mp hc
        refine ⟨d :: ds, ?_, ?_, ?_⟩
        · intro x hx
          rcases List.mem_cons.mp hx with rfl | hx
          · exact hd
          · exact hds x hx
        · simp [hs]
        · simpa [digitsValue] using hm
    · rintro ⟨ds, hds, hs, hm⟩
      cases ds with
      | nil => simp at hs
      | cons d ds =>
        simp only [List.map_cons, List.cons.injEq] at hs
        obtain ⟨rfl, rfl⟩ := hs
        rw [digitVal_digitChar d (hds d (List.mem_cons_self _ _))]
        exact (ih _).mpr ⟨ds, fun x hx => hds x (List.mem_cons_of_mem _ hx), rfl,
          by simpa [digitsValue] using hm⟩

theorem digitsValue_ge (ds : List Nat) (n : Nat) : n ≤ digitsValue ds n := by
  induction ds generalizing n with
  | nil => simp [digitsValue]
  | cons d ds ih =>
    have := ih (n * 10 + d)
    simp only [digitsValue, List.foldl_cons] at this ⊢
    omega

theorem digitsValue_lt (ds : List Nat) (n : Nat) (hds : ∀ d ∈ ds, d < 10) :
    digitsValue ds n < (n + 1) * 10 ^ ds.length := by
  induction ds generalizing n with
  | nil => simp [digitsValue]
  | cons d ds ih =>
    have hd := hds d (List.mem_cons_self _ _)
    have := ih (n * 10 + d) (fun x hx => hds x (List.mem_cons_of_mem _ hx))
    simp only [digitsValue, List.foldl_cons, List.length_cons] at this ⊢
    calc List.foldl (fun acc d => acc * 10 + d) (n * 10 + d) ds
        < (n * 10 + d + 1) * 10 ^ ds.length := this
      _ ≤ ((n + 1) * 10) * 10 ^ ds.length := Nat.mul_le_mul_right _ (by omega)
      _ = (n + 1) * 10 ^ (ds.length + 1) := by rw [Nat.pow_succ]; ring

theorem atoiFastLoop_ge (s : GoString) (n m : Nat) (h : atoiFastLoop s n = some m) : n ≤ m := by
  obtain ⟨ds, _, _, rfl⟩ := (atoiFastLoop_eq_some s n m).mp h
  exact digitsValue_ge ds n

theorem parseUintLoop_eq_ok (s : GoString) (n m : Nat) (hn : n < 18446744073709551616) :
    parseUintLoop s n = .ok m ↔ atoiFastLoop s n = some m ∧ m < 18446744073709551616 := by
  induction s generalizing n with
  | nil =>
    simp only [parseUintLoop, atoiFastLoop, Except.ok.injEq, Option.some.injEq]
    constructor
    · rintro rfl; exact ⟨rfl, hn⟩
    · rintro ⟨rfl, _⟩; rfl
  | cons c cs ih =>
    simp only [parseUintLoop, atoiFastLoop]
    cases hc : digitVal c with
    | none => simp
    | some d =>
      obtain ⟨hd, -⟩ := (digitVal_eq_some _ _).mp hc
      simp only
      split_ifs with h1 h2
      · constructor
        · intro h; cases h
        · rintro ⟨h, hm⟩
          have := atoiFastLoop_ge _ _ _ h
          omega
      · constructor
        · intro h; cases h
        · rintro ⟨h, hm⟩
          have := atoiFastLoop_ge _ _ _ h
          omega
      · exact ih _ (by omega)

theorem ParseUint_eq_ok (s : GoString) (m : Nat) :
    ParseUint s = .ok m ↔ s ≠ [] ∧ atoiFastLoop s 0 = some m ∧ m < 18446744073709551616 := by
  unfold ParseUint
  split_ifs with hs
  · subst hs
    constructor
    · intro h; cases h
    · rintro ⟨h, _⟩; exact absurd rfl h
  · rw [parseUintLoop_eq_ok _ _ _ (by omega)]
    simp [hs]

theorem digitChar_ne_sign (d : Nat) (hd : d < 10) : digitChar d ≠ '+' ∧ digitChar d ≠ '-' := by
  unfold digitChar
  interval_cases d <;> decide

theorem digits_nonempty_iff (s : GoString) (P : Nat → Prop) :
    (∃ ds : List Nat, ds ≠ [] ∧ (∀ d ∈ ds, d < 10) ∧ s = ds.map digitChar ∧ P (digitsValue ds 0)) ↔
      s ≠ [] ∧ ∃ n, atoiFastLoop s 0 = some n ∧ P n := by
  constructor
  · rintro ⟨ds, hne, hds, rfl, hP⟩
    exact ⟨by simpa using hne, _, (atoiFastLoop_eq_some _ _ _).mpr ⟨ds, hds, rfl, rfl⟩, hP⟩
  · rintro ⟨hne, n, hn, hP⟩
    obtain ⟨ds, hds, rfl, rfl⟩ := (atoiFastLoop_eq_some _ _ _).mp hn
    exact ⟨ds, by simpa using hne, hds, rfl, hP⟩

theorem DecimalDenotes_plus (cs : GoString) (i : Int) :
    DecimalDenotes ('+' :: cs) i ↔ cs ≠ [] ∧ ∃ n, atoiFastLoop cs 0 = some n ∧ i = (n : Int) := by
  rw [← digits_nonempty_iff cs (fun n => i = (n : Int))]
  unfold DecimalDenotes
  constructor
  · rintro ⟨ds, hne, hds, h⟩
    rcases h with ⟨h, _⟩ | ⟨h, hi⟩ | ⟨h, _⟩
    · exfalso
      cases ds with
      | nil => exact hne rfl
      | cons d ds =>
        simp only [List.map_cons, List.cons.injEq] at h
        exact (digitChar_ne_sign d (hds d (List.mem_cons_self _ _))).1 h.1.symm
    · simp only [List.cons.injEq, true_and] at h
      exact ⟨ds, hne, hds, h, hi⟩
    · simp only [List.cons.injEq] at h
      exact absurd h.1 (by decide)
  · rintro ⟨ds, hne, hds, h, hi⟩
    exact ⟨ds, hne, hds, Or.inr (Or.inl ⟨by rw [h], hi⟩)⟩

theorem DecimalDenotes_minus (cs : GoString) (i : Int) :
    DecimalDenotes ('-' :: cs) i ↔ cs ≠ [] ∧ ∃ n, atoiFastLoop cs 0 = some n ∧ i = - (n : Int) := by
  rw [← digits_nonempty_iff cs (fun n => i = - (n : Int))]
  unfold DecimalDenotes
  constructor
  · rintro ⟨ds, hne, hds, h⟩
    rcases h with ⟨h, _⟩ | ⟨h, _⟩ | ⟨h, hi⟩
    · exfalso
      cases ds with
      | nil => exact hne rfl
      | cons d ds =>
        simp only [List.map_cons, List.cons.injEq] at h
        exact (digitChar_ne_sign d (hds d (List.mem_cons_self _ _))).2 h.1.symm
    · simp only [List.cons.injEq] at h
      exact absurd h.1 (by decide)
    · simp only [List.cons.injEq, true_and] at h
      exact ⟨ds, hne, hds, h, hi⟩
  · rintro ⟨ds, hne, hds, h, hi⟩
    exact ⟨ds, hne, hds, Or.inr (Or.inr ⟨by rw [h], hi⟩)⟩

theorem DecimalDenotes_unsigned (c : Char) (cs : GoString) (i : Int) (hp : c ≠ '+')
    (hm : c ≠ '-') :
    DecimalDenotes (c :: cs) i ↔
      c :: cs ≠ [] ∧ ∃ n, atoiFastLoop (c :: cs) 0 = some n ∧ i = (n : Int) := by
  rw [← digits_nonempty_iff (c :: cs) (fun n => i = (n : Int))]
  unfold DecimalDenotes
  constructor
  · rintro ⟨ds, hne, hds, h⟩
    rcases h with ⟨h, hi⟩ | ⟨h, _⟩ | ⟨h, _⟩
    · exact ⟨ds, hne, hds, h, hi⟩
    · simp only [List.cons.injEq] at h
      exact absurd h.1 hp
    · simp only [List.cons.injEq] at h
      exact absurd h.1 hm
  · rintro ⟨ds, hne, hds, h, hi⟩
    exact ⟨ds, hne, hds, Or.inl ⟨h, hi⟩⟩

/-- The range check of `ParseInt` on the magnitude read by `ParseUint`. -/
theorem parseInt_core (neg : Prop) [Decidable neg] (body : GoString) (i : Int) :
    (match ParseUint body with
      | .error e => (Except.error e : Except NumError Int)
      | .ok un =>
        if ¬ neg ∧ un ≥ 9223372036854775808 then .error .rangeErr
        else if neg ∧ un > 9223372036854775808 then .error .rangeErr
        else .ok (if neg then - (un : Int) else (un : Int))) = .ok i ↔
      (body ≠ [] ∧ ∃ n, atoiFastLoop body 0 = some n ∧ i = (if neg then - (n : Int) else (n : Int)))
        ∧ minInt ≤ i ∧ i ≤ maxInt := by
  cases hu : ParseUint body with
  | error e =>
    simp only
    constructor
    · intro h; cases h
    · rintro ⟨⟨hne, n, hn, hi⟩, hlo, hhi⟩
      exfalso
      have : ParseUint body = .ok n := (ParseUint_eq_ok _ _).mpr ⟨hne, hn, by
        simp only [minInt, maxInt] at hlo hhi
        split_ifs at hi <;> omega⟩
      rw [hu] at this; cases this
  | ok un =>
    obtain ⟨hne, hun, hlt⟩ := (ParseUint_eq_ok _ _).mp hu
    simp only [hne, ne_eq, not_false_eq_true, hun, Option.some.injEq, true_and, minInt, maxInt]
    by_cases hneg : neg
    · simp only [hneg, not_true_eq_false, false_and, if_false, true_and, if_true]
      split_ifs with h1
      · constructor
        · intro h; cases h
        · rintro ⟨⟨n, rfl, hi⟩, hlo, hhi⟩; omega
      · simp only [Except.ok.injEq]
        constructor
        · rintro rfl; exact ⟨⟨un, rfl, rfl⟩, by omega, by omega⟩
        · rintro ⟨⟨n, rfl, hi⟩, _⟩; exact hi.symm
    · simp only [hneg, not_false_eq_true, true_and, false_and, if_false]
      split_ifs with h1
      · constructor
        · intro h; cases h
        · rintro ⟨⟨n, rfl, hi⟩, hlo, hhi⟩; omega
      · simp only [Except.ok.injEq]
        constructor
        · rintro rfl; exact ⟨⟨un, rfl, rfl⟩, by omega, by omega⟩
        · rintro ⟨⟨n, rfl, hi⟩, _⟩; exact hi.symm

theorem ParseInt_eq_ok (s : GoString) (i : Int) :
    ParseInt s = .ok i ↔ DecimalDenotes s i ∧ minInt ≤ i ∧ i ≤ maxInt := by
  cases s with
  | nil =>
    simp only [ParseInt, DecimalDenotes]
    constructor
    · intro h; cases h
    · rintro ⟨⟨ds, hne, _, h⟩, _⟩
      rcases h with ⟨h, _⟩ | ⟨h, _⟩ | ⟨h, _⟩
      · exact absurd (by simpa using h.symm) hne
      · cases h
      · cases h
  | cons c cs =>
    simp only [ParseInt]
    rw [parseInt_core]
    by_cases hplus : c = '+'
    · subst hplus
      rw [DecimalDenotes_plus]
      simp [show ¬ ('+' = '-') by decide]
    · by_cases hminus : c = '-'
      · subst hminus
        rw [DecimalDenotes_minus]
        simp
      · rw [DecimalDenotes_unsigned c cs i hplus hminus]
        simp [hplus, hminus]

theorem atoiFastLoop_lt (s : GoString) (n : Nat) (h : atoiFastLoop s 0 = some n) :
    n < 10 ^ s.length := by
  obtain ⟨ds, hds, rfl, rfl⟩ := (atoiFastLoop_eq_some s 0 n).mp h
  simpa using digitsValue_lt ds 0 hds

/-- The fast path of `Atoi` agrees with `ParseInt`. -/
theorem Atoi_eq_ParseInt (s : GoString) (i : Int) : Atoi s = .ok i ↔ ParseInt s = .ok i := by
  unfold Atoi
  split_ifs with hlen
  · cases s with
    | nil => simp at hlen
    | cons c cs =>
      simp only [ParseInt]
      rw [parseInt_core]
      have hor : (c = '-' ∨ c = '+') ↔ (c = '+' ∨ c = '-') := Or.comm
      simp only [hor]
      generalize hb : (if c = '+' ∨ c = '-' then cs else c :: cs) = body
      have hbl : body.length ≤ 18 := by
        rw [← hb]
        simp only [List.length_cons] at hlen
        split_ifs
        · omega
        · simp only [List.length_cons]; omega
      cases body with
      | nil => simp
      | cons b bs =>
        simp only [List.length_cons, Nat.lt_one_iff, Nat.add_one_ne_zero, if_false, ne_eq,
          reduceCtorEq, not_false_eq_true, true_and]
        cases hf : atoiFastLoop (b :: bs) 0 with
        | none => simp
        | some n =>
          have hn := atoiFastLoop_lt _ n hf
          have h18 : n < 10 ^ 18 := lt_of_lt_of_le hn (Nat.pow_le_pow_right (by omega) hbl)
          simp only [Except.ok.injEq, Option.some.injEq, exists_eq_left', minInt, maxInt]
          constructor
          · rintro rfl
            refine ⟨rfl, ?_, ?_⟩ <;> split_ifs <;> omega
          · rintro ⟨h, _⟩; exact h.symm
  · exact Iff.rfl

/-- `strconv.Atoi` accepts exactly the decimal integer literals whose value
fits the 64-bit `int`, and returns that value. -/
theorem Atoi_eq_ok (s : GoString) (i : Int) :
    Atoi s = .ok i ↔ DecimalDenotes s i ∧ minInt ≤ i ∧ i ≤ maxInt :=
  (Atoi_eq_ParseInt s i).trans (ParseInt_eq_ok s i)

/-! ## Decoding the track list -/

theorem keyMatches_iff (key name : GoString) :
    keyMatches key name = true ↔ key.map lowerASCII = name.map lowerASCII := by
  unfold keyMatches
  simp only [Bool.or_eq_true, decide_eq_true_eq]
  constructor
  · rintro (h | h)
    · rw [h]
    · exact h
  · intro h; exact Or.inr h

theorem keyMatches_fields_disjoint (key : GoString)
    (h1 : keyMatches key rownumTag = true) (h2 : keyMatches key typeNameTag = true) :
    False := by
  rw [keyMatches_iff] at h1 h2
  rw [h1] at h2
  exact absurd h2 (by decide)

theorem decodeInt_accepts (v : JValue) : decodeInt v ≠ some none ↔ rownumAccepts v := by
  cases v with
  | number lit =>
    simp only [decodeInt, rownumAccepts]
    cases hp : ParseInt lit with
    | error e =>
      simp only [ne_eq, not_true_eq_false, false_iff, not_exists]
      intro i hi
      have := (ParseInt_eq_ok lit i).mpr hi
      rw [hp] at this; cases this
    | ok n =>
      simp only [ne_eq, Option.some.injEq, reduceCtorEq, not_false_eq_true, true_iff]
      exact ⟨n, (ParseInt_eq_ok lit n).mp hp⟩
  | _ => simp [decodeInt, rownumAccepts]

theorem decodeString_accepts (v : JValue) : decodeString v ≠ some none ↔ typeNameAccepts v := by
  cases v <;> simp [decodeString, typeNameAccepts]

theorem decodeMembers_bad (ms : List (GoString × JValue)) (it : Item) (bad : Bool) :
    (decodeMembers ms it bad).2 = false ↔
      bad = false ∧ ∀ kv ∈ ms, (keyMatches kv.1 rownumTag = true → rownumAccepts kv.2) ∧
        (keyMatches kv.1 typeNameTag = true → typeNameAccepts kv.2) := by
  induction ms generalizing it bad with
  | nil => simp [decodeMembers]
  | cons kv ms ih =>
    obtain ⟨key, v⟩ := kv
    simp only [decodeMembers, List.mem_cons, forall_eq_or_imp]
    by_cases h1 : keyMatches key rownumTag = true
    · have h2 : ¬ keyMatches key typeNameTag = true :=
        fun h2 => keyMatches_fields_disjoint key h1 h2
      simp only [h1, if_true, h2, false_implies, and_true, true_implies]
      rw [← decodeInt_accepts]
      cases hd : decodeInt v with
      | none => simp only [ih]; simp
      | some r =>
        cases r with
        | none => simp only [ih]; simp
        | some n => simp only [ih]; simp
    · by_cases h2 : keyMatches key typeNameTag = true
      · simp only [h1, if_false, h2, if_true, false_implies, true_and, true_implies,
          Bool.false_eq_true]
        rw [← decodeString_accepts]
        cases hd : decodeString v with
        | none => simp only [ih]; simp
        | some r =>
          cases r with
          | none => simp only [ih]; simp
          | some n => simp only [ih]; simp
      · simp only [h1, h2, if_false, false_implies, and_self, true_and, Bool.false_eq_true]
        exact ih _ _

theorem decodeItem_bad (v : JValue) : (decodeItem v).2 = false ↔ recordAccepts v := by
  cases v with
  | object ms => simp [decodeItem, recordAccepts, decodeMembers_bad]
  | _ => simp [decodeItem, recordAccepts]

theorem decodeItems_bad (v : JValue) : (decodeItems v).2 = false ↔ listAccepts v := by
  cases v with
  | array es =>
    simp only [decodeItems, listAccepts, List.any_eq_false]
    constructor
    · intro h e he
      exact (decodeItem_bad e).mp (by simpa using h e he)
    · intro h e he
      simpa using (decodeItem_bad e).mpr (h e he)
  | _ => simp [decodeItems, listAccepts]

theorem decodeMembers_unknown (ms : List (GoString × JValue)) (it : Item) (bad : Bool) :
    decodeMembers (ms.filter knownField) it bad = decodeMembers ms it bad := by
  induction ms generalizing it bad with
  | nil => rfl
  | cons kv ms ih =>
    obtain ⟨key, v⟩ := kv
    by_cases h1 : keyMatches key rownumTag = true
    · have hk : knownField (key, v) = true := by simp [knownField, h1]
      rw [List.filter_cons_of_pos hk]
      simp only [decodeMembers, h1, if_true]
      cases decodeInt v with
      | none => exact ih _ _
      | some r => cases r <;> exact ih _ _
    · by_cases h2 : keyMatches key typeNameTag = true
      · have hk : knownField (key, v) = true := by simp [knownField, h2]
        rw [List.filter_cons_of_pos hk]
        simp only [decodeMembers, h1, if_false, h2, if_true, Bool.false_eq_true]
        cases decodeString v with
        | none => exact ih _ _
        | some r => cases r <;> exact ih _ _
      · have hk : ¬ knownField (key, v) = true := by simp [knownField, h1, h2]
        rw [List.filter_cons_of_neg hk]
        simp only [decodeMembers, h1, h2, if_false, Bool.false_eq_true]
        exact ih _ _

theorem decodeMembers_missing (ms : List (GoString × JValue)) (it : Item) (bad : Bool) :
    ((∀ kv ∈ ms, keyMatches kv.1 rownumTag = false) →
      (decodeMembers ms it bad).1.Rownum = it.Rownum) ∧
    ((∀ kv ∈ ms, keyMatches kv.1 typeNameTag = false) →
      (decodeMembers ms it bad).1.TypeName = it.TypeName) := by
  induction ms generalizing it bad with
  | nil => simp [decodeMembers]
  | cons kv ms ih =>
    obtain ⟨key, v⟩ := kv
    simp only [List.mem_cons, forall_eq_or_imp, decodeMembers]
    constructor
    · rintro ⟨h1, hrest⟩
      simp only [h1, Bool.false_eq_true, if_false]
      split_ifs
      · cases decodeString v with
        | none => exact (ih _ _).1 hrest
        | some r => cases r <;> exact (ih _ _).1 hrest
      · exact (ih _ _).1 hrest
    · rintro ⟨h2, hrest⟩
      simp only [h2, Bool.false_eq_true, if_false]
      split_ifs
      · cases decodeInt v with
        | none => exact (ih _ _).2 hrest
        | some r => cases r <;> exact (ih _ _).2 hrest
      · exact (ih _ _).2 hrest

/-! ## Stream numbers and their decimal form -/

theorem digitsValue_append (ds : List Nat) (d n : Nat) :
    digitsValue (ds ++ [d]) n = digitsValue ds n * 10 + d := by
  simp [digitsValue, List.foldl_append]

theorem formatBits_digits (fuel u : Nat) (acc : GoString) (hu : u < 10 ^ (fuel + 1)) :
    ∃ ds : List Nat, ds ≠ [] ∧ (∀ d ∈ ds, d < 10) ∧
      formatBits (fuel + 1) u acc = ds.map digitChar ++ acc ∧ digitsValue ds 0 = u := by
  induction fuel generalizing u acc with
  | zero =>
    have : u < 10 := by simpa using hu
    refine ⟨[u], by simp, by simpa using this, ?_, by simp [digitsValue]⟩
    simp [formatBits, digitChar, Nat.not_le.mpr this]
  | succ fuel ih =>
    by_cases h10 : u ≥ 10
    · have hq : u / 10 < 10 ^ (fuel + 1) := by
        rw [Nat.div_lt_iff_lt_mul (by omega)]
        calc u < 10 ^ (fuel + 1 + 1) := hu
          _ = 10 ^ (fuel + 1) * 10 := by rw [Nat.pow_succ]
      obtain ⟨ds, hne, hds, hf, hv⟩ := ih (u / 10) (Char.ofNat (u % 10 + 48) :: acc) hq
      refine ⟨ds ++ [u % 10], by simp, ?_, ?_, ?_⟩
      · intro d hd
        rcases List.mem_append.mp hd with h | h
        · exact hds d h
        · have : d = u % 10 := by simpa using h
          omega
      · rw [formatBits, if_pos h10, hf]
        simp [digitChar]
      · rw [digitsValue_append, hv]; omega
    · have : u < 10 := by omega
      refine ⟨[u], by simp, by simpa using this, ?_, by simp [digitsValue]⟩
      simp [formatBits, digitChar, h10]

theorem digits_map_injective (ds1 ds2 : List Nat) (h1 : ∀ d ∈ ds1, d < 10)
    (h2 : ∀ d ∈ ds2, d < 10) (h : ds1.map digitChar = ds2.map digitChar) :
    digitsValue ds1 0 = digitsValue ds2 0 := by
  have e1 := (atoiFastLoop_eq_some (ds1.map digitChar) 0 (digitsValue ds1 0)).mpr ⟨ds1, h1, rfl, rfl⟩
  have e2 := (atoiFastLoop_eq_some (ds2.map digitChar) 0 (digitsValue ds2 0)).mpr ⟨ds2, h2, rfl, rfl⟩
  rw [h, e2] at e1
  exact (Option.some.inj e1).symm

/-- The decimal form printed for a stream number determines it. -/
theorem formatInt_injective (i j : Int) (hi : minInt ≤ i ∧ i ≤ maxInt) (hj : minInt ≤ j ∧ j ≤ maxInt)
    (h : formatInt i = formatInt j) : i = j := by
  simp only [minInt, maxInt] at hi hj
  have bi : i.natAbs < 10 ^ (19 + 1) := by norm_num; omega
  have bj : j.natAbs < 10 ^ (19 + 1) := by norm_num; omega
  obtain ⟨d1, n1, hd1, f1, v1⟩ := formatBits_digits 19 i.natAbs [] bi
  obtain ⟨d2, n2, hd2, f2, v2⟩ := formatBits_digits 19 j.natAbs [] bj
  simp only [List.append_nil] at f1 f2
  unfold formatInt at h
  rw [f1, f2] at h
  have hsign : ∀ (ds : List Nat) (t : GoString), ds ≠ [] → (∀ d ∈ ds, d < 10) →
      '-' :: t ≠ ds.map digitChar := by
    intro ds t hne hds heq
    cases ds with
    | nil => exact hne rfl
    | cons d ds =>
      simp only [List.map_cons, List.cons.injEq] at heq
      exact (digitChar_ne_sign d (hds d (List.mem_cons_self _ _))).2 heq.1.symm
  split_ifs at h with h1 h2 h2
  · simp only [List.cons.injEq, true_and] at h
    have := digits_map_injective d1 d2 hd1 hd2 h
    omega
  · exact absurd h (hsign d2 _ n2 hd2)
  · exact absurd h.symm (hsign d1 _ n1 hd1)
  · have := digits_map_injective d1 d2 hd1 hd2 h
    omega

theorem audioTrackID_eq (it : Item) (h : minInt ≤ it.Rownum ∧ it.Rownum ≤ maxInt) :
    audioTrackID it = if it.Rownum = maxInt then minInt else it.Rownum + 1 := by
  simp only [audioTrackID, addInt, wrapInt, minInt, maxInt] at h ⊢
  split_ifs <;> omega

theorem audioTrackID_range (it : Item) (h : minInt ≤ it.Rownum ∧ it.Rownum ≤ maxInt) :
    minInt ≤ audioTrackID it ∧ audioTrackID it ≤ maxInt := by
  rw [audioTrackID_eq it h]
  simp only [minInt, maxInt] at h ⊢
  split_ifs <;> omega

/-! ## Parsed rownums fit `int` -/

theorem decodeMembers_range (ms : List (GoString × JValue)) (it : Item) (bad : Bool)
    (h : minInt ≤ it.Rownum ∧ it.Rownum ≤ maxInt) :
    minInt ≤ (decodeMembers ms it bad).1.Rownum ∧ (decodeMembers ms it bad).1.Rownum ≤ maxInt := by
  induction ms generalizing it bad with
  | nil => simpa [decodeMembers] using h
  | cons kv ms ih =>
    obtain ⟨key, v⟩ := kv
    simp only [decodeMembers]
    split_ifs
    · cases hd : decodeInt v with
      | none => exact ih _ _ h
      | some r =>
        cases r with
        | none => exact ih _ _ h
        | some n =>
          refine ih _ _ ?_
          cases v with
          | number lit =>
            simp only [decodeInt] at hd
            cases hp : ParseInt lit with
            | error e => simp [hp] at hd
            | ok m =>
              simp only [hp, Option.some.injEq] at hd
              subst hd
              exact ((ParseInt_eq_ok lit m).mp hp).2
          | _ => simp [decodeInt] at hd
    · cases decodeString v with
      | none => exact ih _ _ h
      | some r => cases r <;> exact ih _ _ h
    · exact ih _ _ h

theorem Unmarshal_range (data : GoString) (items : List Item) (h : Unmarshal data = .ok items) :
    ∀ it ∈ items, minInt ≤ it.Rownum ∧ it.Rownum ≤ maxInt := by
  unfold Unmarshal at h
  cases hp : parseJSON data with
  | none => simp [hp] at h
  | some v =>
    simp only [hp] at h
    split_ifs at h
    simp only [Except.ok.injEq] at h
    subst h
    have hz : minInt ≤ (0 : Int) ∧ (0 : Int) ≤ maxInt := by simp [minInt, maxInt]
    cases v with
    | array es =>
      intro it hit
      simp only [decodeItems, List.mem_map] at hit
      obtain ⟨e, -, rfl⟩ := hit
      cases e with
      | object ms => exact decodeMembers_range ms _ _ hz
      | _ => exact hz
    | _ => simp [decodeItems]

/-! ## The JSON parser against the grammar -/

theorem isJSONSpace_iff (c : Char) :
    isJSONSpace c = true ↔ (c = ' ' ∨ c = '\t' ∨ c = '\r' ∨ c = '\n') := by
  simp [isJSONSpace, or_assoc]

theorem isDigit_iff (c : Char) : isDigit c = true ↔ (48 ≤ c.toNat ∧ c.toNat ≤ 57) := by
  simp [isDigit]

theorem skipSpace_spec (s : GoString) : ∃ w, s = w ++ skipSpace s ∧ IsWs w := by
  refine ⟨s.takeWhile isJSONSpace, (List.takeWhile_append_dropWhile _ _).symm, ?_⟩
  intro c hc
  exact (isJSONSpace_iff c).mp (List.mem_takeWhile_imp hc)

theorem skipSpace_append (w rest : GoString) (hw : IsWs w) :
    skipSpace (w ++ rest) = skipSpace rest := by
  unfold skipSpace
  exact List.dropWhile_append_of_pos (fun c hc => (isJSONSpace_iff c).mpr (hw c hc))

theorem skipSpace_cons (c : Char) (rest : GoString) (hc : isJSONSpace c = false) :
    skipSpace (c :: rest) = c :: rest := by
  unfold skipSpace
  rw [List.dropWhile_cons_of_neg (by simp [hc])]

theorem skipSpace_ws (w : GoString) (hw : IsWs w) : skipSpace w = [] := by
  have := skipSpace_append w [] hw
  simpa [skipSpace] using this

theorem isWs_of_skipSpace_nil (s : GoString) (h : skipSpace s = []) : IsWs s := by
  obtain ⟨w, hs, hw⟩ := skipSpace_spec s
  rw [h, List.append_nil] at hs
  rw [hs]; exact hw

theorem isWs_nil : IsWs [] := by intro c hc; cases hc

theorem isWs_append {w1 w2 : GoString} (h1 : IsWs w1) (h2 : IsWs w2) : IsWs (w1 ++ w2) := by
  intro c hc
  rcases List.mem_append.mp hc with h | h
  · exact h1 c h
  · exact h2 c h

theorem isDigits_takeWhile (s : GoString) : IsDigits (s.takeWhile isDigit) := by
  intro c hc
  exact (isDigit_iff c).mp (List.mem_takeWhile_imp hc)

theorem parseNumber_sound (s lit rest : GoString) (h : parseNumber s = some (lit, rest)) :
    s = lit ++ rest ∧ NumberLit lit := by
  unfold parseNumber at h
  split at h
  rename_i sign s1 heq
  have hsign : (sign = [] ∨ sign = ['-']) ∧ s = sign ++ s1 := by
    split at heq <;> (cases heq; simp)
  clear heq
  obtain ⟨hsg, rfl⟩ := hsign
  cases s1 with
  | nil => simp at h
  | cons d r =>
    by_cases hd : isDigit d = true
    · simp only [hd, not_true_eq_false, if_false] at h
      split at h
      · simp at h
      · rename_i frac s3 hfr
        generalize hid : (if d = '0' then [] else List.takeWhile isDigit r) = intDigits at h
        generalize hs2 : (if d = '0' then r else List.dropWhile isDigit r) = s2 at hfr
        have hint : r = intDigits ++ s2 ∧
            (d :: intDigits = ['0'] ∨ (d ≠ '0' ∧ IsDigits (d :: intDigits))) := by
          by_cases h0 : d = '0'
          · simp only [h0, if_true] at hid hs2
            subst hid hs2
            simp [h0]
          · simp only [h0, if_false] at hid hs2
            subst hid hs2
            refine ⟨(List.takeWhile_append_dropWhile _ _).symm, Or.inr ⟨h0, ?_⟩⟩
            intro c hc
            rcases List.mem_cons.mp hc with rfl | hc
            · exact (isDigit_iff _).mp hd
            · exact isDigits_takeWhile r c hc
        have hfrac : s2 = frac ++ s3 ∧
            (frac = [] ∨ ∃ ds, frac = '.' :: ds ∧ ds ≠ [] ∧ IsDigits ds) := by
          split at hfr
          · split_ifs at hfr with he
            simp only [Option.some.injEq, Prod.mk.injEq] at hfr
            obtain ⟨rfl, rfl⟩ := hfr
            exact ⟨by simp, Or.inr ⟨_, rfl, he, isDigits_takeWhile _⟩⟩
          · simp only [Option.some.injEq, Prod.mk.injEq] at hfr
            obtain ⟨rfl, rfl⟩ := hfr
            simp
        clear hfr hid hs2
        have hexp : ∃ exp, s3 = exp ++ rest ∧ lit = sign ++ d :: intDigits ++ frac ++ exp ∧
            (exp = [] ∨ ∃ e sg ds, exp = e :: sg ++ ds ∧ (e = 'e' ∨ e = 'E') ∧
              (sg = [] ∨ sg = ['+'] ∨ sg = ['-']) ∧ ds ≠ [] ∧ IsDigits ds) := by
          split at h
          · rename_i e r3
            split_ifs at h with he hed
            · simp only [Option.some.injEq, Prod.mk.injEq] at h
              obtain ⟨rfl, rfl⟩ := h
              revert hed
              split <;> intro hed
              · rename_i r4
                exact ⟨e :: ['+'] ++ List.takeWhile isDigit r4, by simp, by simp,
                  Or.inr ⟨e, ['+'], _, rfl, he, Or.inr (Or.inl rfl), hed, isDigits_takeWhile _⟩⟩
              · rename_i r4
                exact ⟨e :: ['-'] ++ List.takeWhile isDigit r4, by simp, by simp,
                  Or.inr ⟨e, ['-'], _, rfl, he, Or.inr (Or.inr rfl), hed, isDigits_takeWhile _⟩⟩
              · exact ⟨e :: [] ++ List.takeWhile isDigit r3, by simp, by simp,
                  Or.inr ⟨e, [], _, rfl, he, Or.inl rfl, hed, isDigits_takeWhile _⟩⟩
            · simp only [Option.some.injEq, Prod.mk.injEq] at h
              obtain ⟨rfl, rfl⟩ := h
              exact ⟨[], by simp, by simp, Or.inl rfl⟩
          · simp only [Option.some.injEq, Prod.mk.injEq] at h
            obtain ⟨rfl, rfl⟩ := h
            exact ⟨[], by simp, by simp, Or.inl rfl⟩
        obtain ⟨exp, h3, hlit, hexpok⟩ := hexp
        refine ⟨?_, sign, d :: intDigits, frac, exp, ?_, hsg, ?_, hfrac.2, hexpok⟩
        · rw [hlit, hint.1, hfrac.1, h3]; simp
        · rw [hlit]
        · rcases hint.2 with h0 | ⟨h0, hds⟩
          · exact Or.inl h0
          · exact Or.inr ⟨d, intDigits, rfl, h0, hds⟩
    · simp [hd] at h

theorem takeWhile_digits (ds tail : GoString) (hds : IsDigits ds)
    (ht : ∀ c r, tail = c :: r → isDigit c = false) :
    List.takeWhile isDigit (ds ++ tail) = ds ∧ List.dropWhile isDigit (ds ++ tail) = tail := by
  have hp : ∀ c ∈ ds, isDigit c = true := fun c hc => (isDigit_iff c).mpr (hds c hc)
  rw [List.takeWhile_append_of_pos hp, List.dropWhile_append_of_pos hp]
  cases tail with
  | nil => simp
  | cons c r =>
    have := ht c r rfl
    simp [List.takeWhile_cons, List.dropWhile_cons, this]

theorem parseNumber_complete (lit rest : GoString) (hlit : NumberLit lit)
    (hfollow : ∀ c r, rest = c :: r → isDigit c = false ∧ c ≠ '.' ∧ c ≠ 'e' ∧ c ≠ 'E') :
    parseNumber (lit ++ rest) = some (lit, rest) := by
  obtain ⟨sign, int, frac, exp, rfl, hsign, hint, hfrac, hexp⟩ := hlit
  obtain ⟨d, ds, rfl, hd, hds, hzero, hnz⟩ : ∃ d ds, int = d :: ds ∧ isDigit d = true ∧
      IsDigits ds ∧ (d = '0' → ds = []) ∧ (d ≠ '0' → True) := by
    rcases hint with rfl | ⟨d, ds, rfl, h0, hds⟩
    · exact ⟨'0', [], rfl, by decide, (fun c hc => by cases hc), fun _ => rfl, fun _ => trivial⟩
    · exact ⟨d, ds, rfl, (isDigit_iff d).mpr (hds d (List.mem_cons_self _ _)),
        fun c hc => hds c (List.mem_cons_of_mem _ hc), fun h => absurd h h0, fun _ => trivial⟩
  clear hint hnz
  -- the heads of the tails
  have hrest : ∀ c r, rest = c :: r → isDigit c = false := fun c r h => (hfollow c r h).1
  have hexpHead : ∀ c r, exp ++ rest = c :: r → isDigit c = false ∧ c ≠ '.' := by
    intro c r h
    rcases hexp with rfl | ⟨e, sg, eds, rfl, he, -, -, -⟩
    · exact ⟨(hfollow c r h).1, (hfollow c r h).2.1⟩
    · simp only [List.cons_append, List.cons.injEq] at h
      obtain ⟨rfl, -⟩ := h
      rcases he with rfl | rfl <;> exact ⟨by decide, by decide⟩
  have hfracHead : ∀ c r, frac ++ (exp ++ rest) = c :: r → isDigit c = false := by
    intro c r h
    rcases hfrac with rfl | ⟨fd, rfl, -, -⟩
    · exact (hexpHead c r h).1
    · simp only [List.cons_append, List.cons.injEq] at h
      obtain ⟨rfl, -⟩ := h
      decide
  generalize hres : parseNumber (sign ++ d :: ds ++ frac ++ exp ++ rest) = res
  unfold parseNumber at hres
  split at hres
  rename_i sign1 s1 heq
  have hs1 : sign1 = sign ∧ s1 = d :: (ds ++ (frac ++ (exp ++ rest))) := by
    rcases hsign with rfl | rfl
    · split at heq
      · rename_i r hr
        simp only [List.nil_append, List.cons_append, List.cons.injEq] at hr
        rw [hr.1] at hd
        exact absurd hd (by decide)
      · cases heq
        simp
    · split at heq
      · rename_i r hr
        cases heq
        simp only [List.cons_append, List.nil_append, List.cons.injEq, true_and] at hr
        simp [← hr]
      · rename_i hne
        exact absurd rfl (hne (d :: ds ++ frac ++ exp ++ rest))
  clear heq
  obtain ⟨rfl, rfl⟩ := hs1
  simp only [hd, not_true_eq_false, if_false] at hres
  have hid : (if d = '0' then [] else List.takeWhile isDigit (ds ++ (frac ++ (exp ++ rest)))) =
      ds := by
    by_cases h0 : d = '0'
    · simp [h0, hzero h0]
    · simp only [h0, if_false]
      exact (takeWhile_digits ds _ hds hfracHead).1
  have hs2 : (if d = '0' then ds ++ (frac ++ (exp ++ rest))
      else List.dropWhile isDigit (ds ++ (frac ++ (exp ++ rest)))) = frac ++ (exp ++ rest) := by
    by_cases h0 : d = '0'
    · simp [h0, hzero h0]
    · simp only [h0, if_false]
      exact (takeWhile_digits ds _ hds hfracHead).2
  rw [hid, hs2] at hres
  clear hid hs2
  have hfr : ∀ fr, (match frac ++ (exp ++ rest) with
      | '.' :: r2 =>
        if List.takeWhile isDigit r2 = [] then none
        else some ('.' :: List.takeWhile isDigit r2, List.dropWhile isDigit r2)
      | _ => some ([], frac ++ (exp ++ rest))) = fr → fr = some (frac, exp ++ rest) := by
    intro fr hfr
    split at hfr
    · rename_i r2 hr2
      rcases hfrac with rfl | ⟨fd, rfl, hne, hfd⟩
      · exact absurd rfl ((hexpHead _ _ hr2).2)
      · simp only [List.cons_append, List.cons.injEq, true_and] at hr2
        subst hr2
        have ht := takeWhile_digits fd (exp ++ rest) hfd (fun c r h => (hexpHead c r h).1)
        rw [ht.1, ht.2, if_neg hne] at hfr
        exact hfr.symm
    · rename_i hne
      rcases hfrac with rfl | ⟨fd, rfl, -, -⟩
      · exact hfr.symm
      · exact absurd rfl (hne (fd ++ (exp ++ rest)))
  split at hres
  · rename_i h1
    have := hfr _ h1
    cases this
  · rename_i frac1 s3 h1
    have := hfr _ h1
    simp only [Option.some.injEq, Prod.mk.injEq] at this
    obtain ⟨rfl, rfl⟩ := this
    clear h1 hfr
    rcases hexp with rfl | ⟨e, sg, eds, rfl, he, hsg, hne, heds⟩
    · simp only [List.nil_append, List.append_nil] at hres ⊢
      split at hres
      · rename_i e r3
        have hf := hfollow e r3 rfl
        rw [if_neg (by simp [hf.2.2.1, hf.2.2.2])] at hres
        exact hres.symm
      · exact hres.symm
    · simp only [List.cons_append] at hres
      rw [if_pos he] at hres
      obtain ⟨c0, eds1, rfl⟩ : ∃ c0 eds1, eds = c0 :: eds1 := by
        cases eds with
        | nil => exact absurd rfl hne
        | cons c0 eds1 => exact ⟨c0, eds1, rfl⟩
      have hc0 : isDigit c0 = true := (isDigit_iff c0).mpr (heds c0 (List.mem_cons_self _ _))
      have ht := takeWhile_digits (c0 :: eds1) rest heds hrest
      have hplus : ∀ r, sg ++ (c0 :: eds1 ++ rest) = '+' :: r →
          sg = ['+'] ∧ r = c0 :: eds1 ++ rest := by
        intro r hr
        rcases hsg with rfl | rfl | rfl
        · simp only [List.nil_append, List.cons_append, List.cons.injEq] at hr
          rw [hr.1] at hc0
          exact absurd hc0 (by decide)
        · simp only [List.cons_append, List.nil_append, List.cons.injEq, true_and] at hr
          exact ⟨rfl, hr.symm⟩
        · simp at hr
      have hminus : ∀ r, sg ++ (c0 :: eds1 ++ rest) = '-' :: r →
          sg = ['-'] ∧ r = c0 :: eds1 ++ rest := by
        intro r hr
        rcases hsg with rfl | rfl | rfl
        · simp only [List.nil_append, List.cons_append, List.cons.injEq] at hr
          rw [hr.1] at hc0
          exact absurd hc0 (by decide)
        · simp at hr
        · simp only [List.cons_append, List.nil_append, List.cons.injEq, true_and] at hr
          exact ⟨rfl, hr.symm⟩
      have hnone : (∀ r, sg ++ (c0 :: eds1 ++ rest) = '+' :: r → False) →
          (∀ r, sg ++ (c0 :: eds1 ++ rest) = '-' :: r → False) → sg = [] := by
        intro hn1 hn2
        rcases hsg with rfl | rfl | rfl
        · rfl
        · exact absurd rfl (hn1 (c0 :: eds1 ++ rest))
        · exact absurd rfl (hn2 (c0 :: eds1 ++ rest))
      simp only [List.append_assoc] at hres
      split_ifs at hres with hed
      · exfalso
        revert hed
        split
        · rename_i r hr
          obtain ⟨-, rfl⟩ := hplus r hr
          simp only [ht.1]
          exact fun h => hne h
        · rename_i r hr
          obtain ⟨-, rfl⟩ := hminus r hr
          simp only [ht.1]
          exact fun h => hne h
        · rename_i hn1 hn2
          have := hnone hn1 hn2
          subst this
          simp only [List.nil_append, ht.1]
          exact fun h => hne h
      · clear hed
        revert hres
        split
        · rename_i r hr
          obtain ⟨rfl, rfl⟩ := hplus r hr
          simp only [ht.1, ht.2]
          intro hres
          rw [← hres]
          simp
        · rename_i r hr
          obtain ⟨rfl, rfl⟩ := hminus r hr
          simp only [ht.1, ht.2]
          intro hres
          rw [← hres]
          simp
        · rename_i hn1 hn2
          have := hnone hn1 hn2
          subst this
          simp only [List.nil_append, ht.1, ht.2]
          intro hres
          rw [← hres]
          simp

theorem escapeChar_simple (e : Char) (h : e = '"' ∨ e = '\\' ∨ e = '/') :
    escapeChar e = some e := by
  rcases h with rfl | rfl | rfl <;> rfl

theorem lowSurrogateAhead_append {raw : GoString} (h : LowSurrogateAhead raw) (t : GoString) :
    LowSurrogateAhead (raw ++ t) := by
  obtain ⟨a, b, c, d, rr, rest, rfl, hg, h1, h2⟩ := h
  exact ⟨a, b, c, d, rr, rest ++ t, by simp, hg, h1, h2⟩

theorem parseStringBody_sound (fuel : Nat) : ∀ (s acc dec rest : GoString),
    parseStringBody fuel s acc = some (dec, rest) →
    ∃ raw d, s = raw ++ '"' :: rest ∧ StringBody raw d ∧ dec = acc.reverse ++ d := by
  induction fuel with
  | zero => intro s acc dec rest h; simp [parseStringBody] at h
  | succ fuel ih =>
    intro s acc dec rest h
    cases s with
    | nil => simp [parseStringBody] at h
    | cons c rest0 =>
      rw [parseStringBody.eq_def] at h
      simp only [] at h
      have step : ∀ (pre : GoString) (x : Char) (tail : GoString),
          parseStringBody fuel tail (x :: acc) = some (dec, rest) →
          (∀ raw d, tail = raw ++ '"' :: rest → StringBody raw d →
            StringBody (pre ++ raw) (x :: d)) →
          ∃ raw d, pre ++ tail = raw ++ '"' :: rest ∧ StringBody raw d ∧
            dec = acc.reverse ++ d := by
        intro pre x tail hp hcons
        obtain ⟨raw, d, hraw, hsb, hdec⟩ := ih _ _ _ _ hp
        refine ⟨pre ++ raw, x :: d, by rw [hraw]; simp, hcons raw d hraw hsb, ?_⟩
        rw [hdec]; simp
      by_cases hq : c = '"'
      · rw [if_pos hq] at h
        simp only [Option.some.injEq, Prod.mk.injEq] at h
        obtain ⟨rfl, rfl⟩ := h
        exact ⟨[], [], by simp [hq], StringBody.done, by simp⟩
      · rw [if_neg hq] at h
        by_cases hb : c = '\\'
        · rw [if_pos hb] at h
          subst hb
          rcases rest0 with _ | ⟨e, rest1⟩
          · simp at h
          · simp only [] at h
            by_cases hu : e = 'u'
            · rw [if_pos hu] at h
              subst hu
              rcases rest1 with _ | ⟨a, _ | ⟨b, _ | ⟨c1, _ | ⟨d, rest2⟩⟩⟩⟩
              · simp at h
              · simp at h
              · simp at h
              · simp at h
              · simp only [] at h
                cases hg : getu4 a b c1 d with
                | none => rw [hg] at h; simp at h
                | some rr =>
                  rw [hg] at h
                  simp only [] at h
                  by_cases hsur : 0xD800 ≤ rr ∧ rr < 0xE000
                  · rw [if_pos hsur] at h
                    by_cases hpair : rr < 0xDC00 ∧ LowSurrogateAhead rest2
                    · obtain ⟨hlt, a2, b2, c2, d2, rr1, rest3, rfl, hg1, hl1, hl2⟩ := hpair
                      simp only [hg1, and_self, if_true, hlt, hl1, hl2] at h
                      exact step ['\\', 'u', a, b, c1, d, '\\', 'u', a2, b2, c2, d2] _ rest3 h
                        (fun raw dd _ hsb => StringBody.pair a b c1 d a2 b2 c2 d2 rr rr1 raw dd hg
                          hsur.1 hlt hg1 hl1 hl2 hsb)
                    · have hl : parseStringBody fuel rest2 (replacementChar :: acc) =
                          some (dec, rest) := by
                        split at h
                        · rename_i b0 u0 a2 b2 c2 d2 rest3
                          split at h
                          · rename_i rr1 hinner
                            split_ifs at h with hc
                            · exfalso
                              apply hpair
                              refine ⟨hc.1, ?_⟩
                              split_ifs at hinner with hbu
                              obtain ⟨rfl, rfl⟩ := hbu
                              exact ⟨a2, b2, c2, d2, rr1, rest3, rfl, hinner, hc.2.1, hc.2.2⟩
                            · exact h
                          · exact h
                        · exact h
                      exact step ['\\', 'u', a, b, c1, d] replacementChar rest2 hl
                        (fun raw dd hraw hsb => StringBody.lone a b c1 d rr raw dd hg hsur.1 hsur.2
                          (fun hp => hpair ⟨hp.1, hraw ▸ lowSurrogateAhead_append hp.2 _⟩) hsb)
                  · rw [if_neg hsur] at h
                    exact step ['\\', 'u', a, b, c1, d] (Char.ofNat rr) rest2 h
                      (fun raw dd _ hsb => StringBody.unicode a b c1 d rr raw dd hg hsur hsb)
            · rw [if_neg hu] at h
              have hx : ∃ x, escapeChar e = some x ∧
                  parseStringBody fuel rest1 (x :: acc) = some (dec, rest) := by
                split_ifs at h with h1 h2 h3 h4 h5 h6
                · exact ⟨e, escapeChar_simple e h1, h⟩
                · subst h2; exact ⟨_, rfl, h⟩
                · subst h3; exact ⟨_, rfl, h⟩
                · subst h4; exact ⟨_, rfl, h⟩
                · subst h5; exact ⟨_, rfl, h⟩
                · subst h6; exact ⟨_, rfl, h⟩
              obtain ⟨x, hx1, hx2⟩ := hx
              exact step ['\\', e] x rest1 hx2
                (fun raw d _ hsb => StringBody.escape e x raw d hx1 hsb)
        · rw [if_neg hb] at h
          split_ifs at h with hctl
          exact step [c] c rest0 h
            (fun raw d _ hsb => StringBody.plain c raw d hq hb (by omega) hsb)

theorem escapeChar_chain {β : Type} (P : Char → Option β) (e x : Char)
    (h : escapeChar e = some x) :
    e ≠ 'u' ∧
    (if e = '"' ∨ e = '\\' ∨ e = '/' then P e
      else if e = 'b' then P (Char.ofNat 8)
      else if e = 'f' then P (Char.ofNat 12)
      else if e = 'n' then P '\n'
      else if e = 'r' then P '\r'
      else if e = 't' then P '\t'
      else none) = P x := by
  unfold escapeChar at h
  split_ifs at h with h1 h2 h3 h4 h5 h6 h7 h8 <;>
    simp only [Option.some.injEq] at h <;> subst h
  all_goals first
    | (subst h1; exact ⟨by decide, rfl⟩)
    | (subst h2; exact ⟨by decide, rfl⟩)
    | (subst h3; exact ⟨by decide, rfl⟩)
    | (subst h4; exact ⟨by decide, rfl⟩)
    | (subst h5; exact ⟨by decide, rfl⟩)
    | (subst h6; exact ⟨by decide, rfl⟩)
    | (subst h7; exact ⟨by decide, rfl⟩)
    | (subst h8; exact ⟨by decide, rfl⟩)

theorem getu4_hex (a b c d : Char) (rr : Nat) (h : getu4 a b c d = some rr) :
    a ≠ '"' ∧ b ≠ '"' ∧ c ≠ '"' ∧ d ≠ '"' := by
  unfold getu4 at h
  refine ⟨?_, ?_, ?_, ?_⟩ <;> (rintro rfl; revert h; simp [hexVal])

theorem lowSurrogateAhead_of_append (raw rest : GoString) (a2 b2 c2 d2 : Char) (rr1 : Nat)
    (rest3 : GoString)
    (heq : raw ++ '"' :: rest = '\\' :: 'u' :: a2 :: b2 :: c2 :: d2 :: rest3)
    (hg : getu4 a2 b2 c2 d2 = some rr1) (h1 : 0xDC00 ≤ rr1) (h2 : rr1 < 0xE000) :
    LowSurrogateAhead raw := by
  obtain ⟨ha, hb, hc, hd⟩ := getu4_hex a2 b2 c2 d2 rr1 hg
  rcases raw with _ | ⟨r0, _ | ⟨r1, _ | ⟨r2, _ | ⟨r3, _ | ⟨r4, _ | ⟨r5, raw1⟩⟩⟩⟩⟩⟩ <;>
    simp only [List.nil_append, List.cons_append, List.cons.injEq] at heq
  · exact absurd heq.1 (by decide)
  · exact absurd heq.2.1 (by decide)
  · exact absurd heq.2.2.1.symm ha
  · exact absurd heq.2.2.2.1.symm hb
  · exact absurd heq.2.2.2.2.1.symm hc
  · exact absurd heq.2.2.2.2.2.1.symm hd
  · obtain ⟨rfl, rfl, rfl, rfl, rfl, rfl, -⟩ := heq
    exact ⟨_, _, _, _, rr1, raw1, rfl, hg, h1, h2⟩

theorem parseStringBody_complete (raw d : GoString) (h : StringBody raw d) :
    ∀ (fuel : Nat) (acc rest : GoString), raw.length + 1 ≤ fuel →
      parseStringBody fuel (raw ++ '"' :: rest) acc = some (acc.reverse ++ d, rest) := by
  induction h with
  | done =>
    intro fuel acc rest hf
    obtain ⟨fuel, rfl⟩ : ∃ k, fuel = k + 1 := ⟨fuel - 1, by omega⟩
    rw [parseStringBody.eq_def]
    simp
  | plain c raw dec hq hb hctl _ ih =>
    intro fuel acc rest hf
    obtain ⟨fuel, rfl⟩ : ∃ k, fuel = k + 1 := ⟨fuel - 1, by omega⟩
    rw [parseStringBody.eq_def]
    simp only [List.cons_append, if_neg hq, if_neg hb, if_neg (show ¬ c.toNat < 0x20 by omega)]
    rw [ih fuel (c :: acc) rest (by simp only [List.length_cons] at hf; omega)]
    simp
  | escape e x raw dec hx _ ih =>
    intro fuel acc rest hf
    obtain ⟨fuel, rfl⟩ : ∃ k, fuel = k + 1 := ⟨fuel - 1, by omega⟩
    rw [parseStringBody.eq_def]
    obtain ⟨hu, hchain⟩ := escapeChar_chain
      (fun y => parseStringBody fuel (raw ++ '"' :: rest) (y :: acc)) e x hx
    simp only [List.cons_append, reduceCtorEq, if_false, if_true, if_neg hu]
    simp only [show ('\\' = '"') = False from by decide, if_false] 
    rw [hchain, ih fuel (x :: acc) rest (by simp only [List.length_cons] at hf; omega)]
    simp
  | unicode a b c d rr raw dec hg hsur _ ih =>
    intro fuel acc rest hf
    obtain ⟨fuel, rfl⟩ : ∃ k, fuel = k + 1 := ⟨fuel - 1, by omega⟩
    rw [parseStringBody.eq_def]
    simp only [List.cons_append, show ('\\' = '"') = False from by decide, if_false, if_true, hg,
      if_neg hsur]
    rw [ih fuel (Char.ofNat rr :: acc) rest (by simp only [List.length_cons] at hf; omega)]
    simp
  | pair a b c d a2 b2 c2 d2 rr rr1 raw dec hg h1 h2 hg1 h3 h4 _ ih =>
    intro fuel acc rest hf
    obtain ⟨fuel, rfl⟩ : ∃ k, fuel = k + 1 := ⟨fuel - 1, by omega⟩
    rw [parseStringBody.eq_def]
    simp only [List.cons_append, show ('\\' = '"') = False from by decide, if_false, if_true, hg,
      if_pos (show 0xD800 ≤ rr ∧ rr < 0xE000 from ⟨h1, by omega⟩), and_self, hg1,
      if_pos (show rr < 0xDC00 ∧ 0xDC00 ≤ rr1 ∧ rr1 < 0xE000 from ⟨h2, h3, h4⟩)]
    rw [ih fuel _ rest (by simp only [List.length_cons] at hf; omega)]
    simp
  | lone a b c d rr raw dec hg h1 h2 hno _ ih =>
    intro fuel acc rest hf
    obtain ⟨fuel, rfl⟩ : ∃ k, fuel = k + 1 := ⟨fuel - 1, by omega⟩
    rw [parseStringBody.eq_def]
    simp only [List.cons_append, show ('\\' = '"') = False from by decide, if_false, if_true, hg,
      if_pos (show 0xD800 ≤ rr ∧ rr < 0xE000 from ⟨h1, h2⟩)]
    have hrec := ih fuel (replacementChar :: acc) rest
      (by simp only [List.length_cons] at hf; omega)
    have hgoal : acc.reverse ++ replacementChar :: dec =
        (replacementChar :: acc).reverse ++ dec := by simp
    rw [hgoal, ← hrec]
    split
    · rename_i b0 u0 a2 b2 c2 d2 rest3 heq
      split
      · rename_i rr1 hinner
        split_ifs at hinner with hbu
        obtain ⟨rfl, rfl⟩ := hbu
        rw [if_neg]
        rintro ⟨hlt, hl1, hl2⟩
        exact hno ⟨hlt, lowSurrogateAhead_of_append raw rest a2 b2 c2 d2 rr1 rest3 heq hinner
          hl1 hl2⟩
      · rfl
    · rfl

theorem parse_sound (fuel : Nat) :
    (∀ d s v rest, parseValue fuel d s = some (v, rest) →
      ∃ w t, s = w ++ t ++ rest ∧ IsWs w ∧ Derives d t (.value v)) ∧
    (∀ d s vs rest, parseElems fuel d s = some (vs, rest) →
      ∃ t, s = t ++ ']' :: rest ∧ Derives d t (.elems vs)) ∧
    (∀ d s ms rest, parseMembers fuel d s = some (ms, rest) →
      ∃ t, s = t ++ '\x7d' :: rest ∧ Derives d t (.members ms)) := by
  induction fuel with
  | zero =>
    refine ⟨?_, ?_, ?_⟩ <;> intro d s v rest h
    · simp [parseValue] at h
    · simp [parseElems] at h
    · simp [parseMembers] at h
  | succ fuel ih =>
    obtain ⟨ihv, ihe, ihm⟩ := ih
    refine ⟨?_, ?_, ?_⟩
    · intro d s v rest h
      rw [parseValue] at h
      obtain ⟨w, hs, hw⟩ := skipSpace_spec s
      cases hsk : skipSpace s with
      | nil => rw [hsk] at h; simp at h
      | cons c rest0 =>
        rw [hsk] at h hs
        simp only [] at h
        suffices hmain : ∃ t, c :: rest0 = t ++ rest ∧ Derives d t (.value v) by
          obtain ⟨t, ht, hd⟩ := hmain
          exact ⟨w, t, by rw [hs, ht]; simp, hw, hd⟩
        by_cases h1 : c = '['
        · subst h1
          rw [if_pos rfl] at h
          split_ifs at h with hdep
          split at h
          · rename_i rest1 hsp
            simp only [Option.some.injEq, Prod.mk.injEq] at h
            obtain ⟨rfl, rfl⟩ := h
            obtain ⟨w1, hr, hw1⟩ := skipSpace_spec rest0
            rw [hsp] at hr
            exact ⟨'[' :: w1 ++ [']'], by rw [hr]; simp,
              Derives.emptyArray d w1 (by omega) hw1⟩
          · split at h
            · cases h
            · rename_i es rest1 he
              simp only [Option.some.injEq, Prod.mk.injEq] at h
              obtain ⟨rfl, rfl⟩ := h
              obtain ⟨t, ht, hd⟩ := ihe _ _ _ _ he
              exact ⟨'[' :: t ++ [']'], by rw [ht]; simp, Derives.array d t es (by omega) hd⟩
        · rw [if_neg h1] at h
          by_cases h2 : c = '\x7b'
          · subst h2
            rw [if_pos rfl] at h
            split_ifs at h with hdep
            split at h
            · rename_i rest1 hsp
              simp only [Option.some.injEq, Prod.mk.injEq] at h
              obtain ⟨rfl, rfl⟩ := h
              obtain ⟨w1, hr, hw1⟩ := skipSpace_spec rest0
              rw [hsp] at hr
              exact ⟨'\x7b' :: w1 ++ ['\x7d'], by rw [hr]; simp,
                Derives.emptyObject d w1 (by omega) hw1⟩
            · split at h
              · cases h
              · rename_i ms rest1 he
                simp only [Option.some.injEq, Prod.mk.injEq] at h
                obtain ⟨rfl, rfl⟩ := h
                obtain ⟨t, ht, hd⟩ := ihm _ _ _ _ he
                exact ⟨'\x7b' :: t ++ ['\x7d'], by rw [ht]; simp,
                  Derives.object d t ms (by omega) hd⟩
          · rw [if_neg h2] at h
            by_cases h3 : c = '"'
            · subst h3
              rw [if_pos rfl] at h
              split at h
              · cases h
              · rename_i str rest1 hstr
                simp only [Option.some.injEq, Prod.mk.injEq] at h
                obtain ⟨rfl, rfl⟩ := h
                obtain ⟨raw, dec, hraw, hsb, hdec⟩ := parseStringBody_sound _ _ _ _ _ hstr
                simp only [List.reverse_nil, List.nil_append] at hdec
                subst hdec
                exact ⟨'"' :: raw ++ ['"'], by rw [hraw]; simp, Derives.string d raw str hsb⟩
            · rw [if_neg h3] at h
              by_cases h4 : c = '-' ∨ isDigit c = true
              · rw [if_pos h4] at h
                split at h
                · cases h
                · rename_i lit rest1 hnum
                  simp only [Option.some.injEq, Prod.mk.injEq] at h
                  obtain ⟨rfl, rfl⟩ := h
                  obtain ⟨hlit, hnl⟩ := parseNumber_sound _ _ _ hnum
                  exact ⟨lit, hlit, Derives.number d lit hnl⟩
              · rw [if_neg h4] at h
                split at h
                · rename_i rest1 heq
                  simp only [Option.some.injEq, Prod.mk.injEq] at h
                  obtain ⟨rfl, rfl⟩ := h
                  exact ⟨"true".toList, by rw [heq]; rfl, Derives.litTrue d⟩
                · rename_i rest1 heq
                  simp only [Option.some.injEq, Prod.mk.injEq] at h
                  obtain ⟨rfl, rfl⟩ := h
                  exact ⟨"false".toList, by rw [heq]; rfl, Derives.litFalse d⟩
                · rename_i rest1 heq
                  simp only [Option.some.injEq, Prod.mk.injEq] at h
                  obtain ⟨rfl, rfl⟩ := h
                  exact ⟨"null".toList, by rw [heq]; rfl, Derives.litNull d⟩
                · cases h
    · intro d s vs rest h
      rw [parseElems] at h
      split at h
      · cases h
      · rename_i v rest0 hv
        obtain ⟨w1, t, hs, hw1, hd⟩ := ihv _ _ _ _ hv
        obtain ⟨w2, hr, hw2⟩ := skipSpace_spec rest0
        split at h
        · rename_i rest1 hsp
          rw [hsp] at hr
          split at h
          · cases h
          · rename_i vs1 rest2 he
            simp only [Option.some.injEq, Prod.mk.injEq] at h
            obtain ⟨rfl, rfl⟩ := h
            obtain ⟨more, hm, hdm⟩ := ihe _ _ _ _ he
            exact ⟨w1 ++ t ++ w2 ++ ',' :: more, by rw [hs, hr, hm]; simp,
              Derives.consElem d w1 t w2 more v vs1 hw1 hw2 hd hdm⟩
        · rename_i rest1 hsp
          rw [hsp] at hr
          simp only [Option.some.injEq, Prod.mk.injEq] at h
          obtain ⟨rfl, rfl⟩ := h
          exact ⟨w1 ++ t ++ w2, by rw [hs, hr]; simp, Derives.lastElem d w1 t w2 v hw1 hw2 hd⟩
        · cases h
    · intro d s ms rest h
      rw [parseMembers] at h
      obtain ⟨w1, hs, hw1⟩ := skipSpace_spec s
      split at h
      · rename_i rest0 hsp
        rw [hsp] at hs
        split at h
        · cases h
        · rename_i key rest1 hkey
          obtain ⟨raw, dec, hraw, hsb, hdec⟩ := parseStringBody_sound _ _ _ _ _ hkey
          simp only [List.reverse_nil, List.nil_append] at hdec
          subst hdec
          obtain ⟨w2, hr1, hw2⟩ := skipSpace_spec rest1
          split at h
          · rename_i rest2 hsp2
            rw [hsp2] at hr1
            split at h
            · cases h
            · rename_i v rest3 hv
              obtain ⟨w3, t, hr2, hw3, hd⟩ := ihv _ _ _ _ hv
              obtain ⟨w4, hr3, hw4⟩ := skipSpace_spec rest3
              split at h
              · rename_i rest4 hsp4
                rw [hsp4] at hr3
                split at h
                · cases h
                · rename_i ms1 rest5 hm
                  simp only [Option.some.injEq, Prod.mk.injEq] at h
                  obtain ⟨rfl, rfl⟩ := h
                  obtain ⟨more, hmore, hdm⟩ := ihm _ _ _ _ hm
                  exact ⟨w1 ++ '"' :: raw ++ '"' :: w2 ++ ':' :: w3 ++ t ++ w4 ++ ',' :: more,
                    by rw [hs, hraw, hr1, hr2, hr3, hmore]; simp,
                    Derives.consMember d w1 raw w2 w3 t w4 more key v ms1 hw1 hw2 hw3 hw4 hsb hd
                      hdm⟩
              · rename_i rest4 hsp4
                rw [hsp4] at hr3
                simp only [Option.some.injEq, Prod.mk.injEq] at h
                obtain ⟨rfl, rfl⟩ := h
                exact ⟨w1 ++ '"' :: raw ++ '"' :: w2 ++ ':' :: w3 ++ t ++ w4,
                  by rw [hs, hraw, hr1, hr2, hr3]; simp,
                  Derives.lastMember d w1 raw w2 w3 t w4 key v hw1 hw2 hw3 hw4 hsb hd⟩
              · cases h
          · cases h
      · cases h

theorem numberLit_head (lit : GoString) (h : NumberLit lit) :
    ∃ c l, lit = c :: l ∧ (c = '-' ∨ isDigit c = true) := by
  obtain ⟨sign, int, frac, exp, rfl, hsign, hint, -, -⟩ := h
  rcases hsign with rfl | rfl
  · rcases hint with rfl | ⟨d, ds, rfl, -, hds⟩
    · exact ⟨'0', _, rfl, Or.inr (by decide)⟩
    · exact ⟨d, _, rfl, Or.inr ((isDigit_iff d).mpr (hds d (List.mem_cons_self _ _)))⟩
  · exact ⟨'-', _, rfl, Or.inl rfl⟩

theorem isDigit_not_special (c : Char) (h : isDigit c = true) :
    isJSONSpace c = false ∧ c ≠ '[' ∧ c ≠ ']' ∧ c ≠ '\x7b' ∧ c ≠ '\x7d' ∧ c ≠ '"' := by
  refine ⟨?_, ?_, ?_, ?_, ?_, ?_⟩ <;> first
    | (rintro rfl; exact absurd h (by decide))
    | (cases hs : isJSONSpace c with
       | false => rfl
       | true =>
         rcases (isJSONSpace_iff c).mp hs with rfl | rfl | rfl | rfl <;>
           exact absurd h (by decide))

theorem value_head (d : Nat) (t : GoString) (v : JValue) (h : Derives d t (.value v)) :
    ∃ c r, t = c :: r ∧ isJSONSpace c = false ∧ c ≠ ']' ∧ c ≠ '\x7d' := by
  cases h with
  | litNull => exact ⟨'n', _, rfl, by decide, by decide, by decide⟩
  | litTrue => exact ⟨'t', _, rfl, by decide, by decide, by decide⟩
  | litFalse => exact ⟨'f', _, rfl, by decide, by decide, by decide⟩
  | number _ s hn =>
    obtain ⟨c, l, rfl, hc⟩ := numberLit_head _ hn
    rcases hc with rfl | hc
    · exact ⟨'-', l, rfl, by decide, by decide, by decide⟩
    · have := isDigit_not_special c hc
      exact ⟨c, l, rfl, this.1, this.2.2.1, this.2.2.2.2.1⟩
  | string _ raw dec _ => exact ⟨'"', _, rfl, by decide, by decide, by decide⟩
  | emptyArray _ w _ _ => exact ⟨'[', _, rfl, by decide, by decide, by decide⟩
  | array _ t vs _ _ => exact ⟨'[', _, rfl, by decide, by decide, by decide⟩
  | emptyObject _ w _ _ => exact ⟨'\x7b', _, rfl, by decide, by decide, by decide⟩
  | object _ t ms _ _ => exact ⟨'\x7b', _, rfl, by decide, by decide, by decide⟩

theorem elems_head (d : Nat) (t : GoString) (vs : List JValue) (h : Derives d t (.elems vs)) :
    ∃ w c r, t = w ++ c :: r ∧ IsWs w ∧ isJSONSpace c = false ∧ c ≠ ']' := by
  cases h with
  | lastElem _ w1 t w2 v hw1 _ hv =>
    obtain ⟨c, r, rfl, hc, hc1, -⟩ := value_head _ _ _ hv
    exact ⟨w1, c, r ++ w2, by simp, hw1, hc, hc1⟩
  | consElem _ w1 t w2 more v vs hw1 _ hv _ =>
    obtain ⟨c, r, rfl, hc, hc1, -⟩ := value_head _ _ _ hv
    exact ⟨w1, c, r ++ w2 ++ ',' :: more, by simp, hw1, hc, hc1⟩

theorem members_head (d : Nat) (t : GoString) (ms : List (GoString × JValue))
    (h : Derives d t (.members ms)) :
    ∃ w r, t = w ++ '"' :: r ∧ IsWs w := by
  cases h with
  | lastMember _ w1 raw w2 w3 t w4 key v hw1 _ _ _ _ _ =>
    exact ⟨w1, raw ++ '"' :: w2 ++ ':' :: w3 ++ t ++ w4, by simp, hw1⟩
  | consMember _ w1 raw w2 w3 t w4 more key v ms hw1 _ _ _ _ _ _ =>
    exact ⟨w1, raw ++ '"' :: w2 ++ ':' :: w3 ++ t ++ w4 ++ ',' :: more, by simp, hw1⟩

theorem valueEnd_number {rest : GoString} (h : ValueEnd rest) :
    ∀ c r, rest = c :: r → isDigit c = false ∧ c ≠ '.' ∧ c ≠ 'e' ∧ c ≠ 'E' := by
  intro c r hr
  rcases h c r hr with rfl | rfl | rfl | rfl | rfl | rfl | rfl <;>
    exact ⟨by decide, by decide, by decide, by decide⟩

theorem valueEnd_ws_cons (w : GoString) (c : Char) (rest : GoString) (hw : IsWs w)
    (hc : c = ',' ∨ c = ']' ∨ c = '\x7d') : ValueEnd (w ++ c :: rest) := by
  intro c1 r h
  cases w with
  | nil =>
    simp only [List.nil_append, List.cons.injEq] at h
    obtain ⟨rfl, -⟩ := h
    rcases hc with rfl | rfl | rfl <;> simp
  | cons x w1 =>
    simp only [List.cons_append, List.cons.injEq] at h
    obtain ⟨rfl, -⟩ := h
    rcases hw x (List.mem_cons_self _ _) with rfl | rfl | rfl | rfl <;> simp

theorem valueEnd_ws (w : GoString) (hw : IsWs w) : ValueEnd w := by
  intro c r h
  subst h
  rcases hw c (List.mem_cons_self _ _) with rfl | rfl | rfl | rfl <;> simp

theorem parse_complete (d : Nat) (t : GoString) (n : Node) (h : Derives d t n) :
    match n with
    | .value v => ∀ (fuel : Nat) (w rest : GoString), IsWs w → ValueEnd rest →
        2 * t.length ≤ fuel → parseValue fuel d (w ++ (t ++ rest)) = some (v, rest)
    | .elems vs => ∀ (fuel : Nat) (rest : GoString), 2 * t.length + 1 ≤ fuel →
        parseElems fuel d (t ++ ']' :: rest) = some (vs, rest)
    | .members ms => ∀ (fuel : Nat) (rest : GoString), 2 * t.length + 1 ≤ fuel →
        parseMembers fuel d (t ++ '\x7d' :: rest) = some (ms, rest) := by
  induction h with
  | litNull d =>
    intro fuel w rest hw _ hf
    obtain ⟨fuel, rfl⟩ : ∃ k, fuel = k + 1 := ⟨fuel - 1, by simp at hf; omega⟩
    show parseValue _ d (w ++ ('n' :: 'u' :: 'l' :: 'l' :: rest)) = _
    rw [parseValue, skipSpace_append _ _ hw, skipSpace_cons _ _ (by decide)]
    rfl
  | litTrue d =>
    intro fuel w rest hw _ hf
    obtain ⟨fuel, rfl⟩ : ∃ k, fuel = k + 1 := ⟨fuel - 1, by simp at hf; omega⟩
    show parseValue _ d (w ++ ('t' :: 'r' :: 'u' :: 'e' :: rest)) = _
    rw [parseValue, skipSpace_append _ _ hw, skipSpace_cons _ _ (by decide)]
    rfl
  | litFalse d =>
    intro fuel w rest hw _ hf
    obtain ⟨fuel, rfl⟩ : ∃ k, fuel = k + 1 := ⟨fuel - 1, by simp at hf; omega⟩
    show parseValue _ d (w ++ ('f' :: 'a' :: 'l' :: 's' :: 'e' :: rest)) = _
    rw [parseValue, skipSpace_append _ _ hw, skipSpace_cons _ _ (by decide)]
    rfl
  | number d s hn =>
    intro fuel w rest hw hend hf
    obtain ⟨c, l, rfl, hc⟩ := numberLit_head s hn
    obtain ⟨fuel, rfl⟩ : ∃ k, fuel = k + 1 := ⟨fuel - 1, by simp at hf; omega⟩
    have hnum := parseNumber_complete _ rest hn (valueEnd_number hend)
    have hcs : isJSONSpace c = false ∧ c ≠ '[' ∧ c ≠ '\x7b' ∧ c ≠ '"' := by
      rcases hc with rfl | hc
      · exact ⟨by decide, by decide, by decide, by decide⟩
      · have := isDigit_not_special c hc
        exact ⟨this.1, this.2.1, this.2.2.2.1, this.2.2.2.2.2⟩
    rw [parseValue, skipSpace_append _ _ hw, List.cons_append, skipSpace_cons _ _ hcs.1]
    simp only [if_neg hcs.2.1, if_neg hcs.2.2.1, if_neg hcs.2.2.2, if_pos hc]
    rw [List.cons_append] at hnum
    rw [hnum]
  | string d raw dec hsb =>
    intro fuel w rest hw _ hf
    obtain ⟨fuel, rfl⟩ : ∃ k, fuel = k + 1 := ⟨fuel - 1, by simp at hf; omega⟩
    have hstr := parseStringBody_complete raw dec hsb (raw ++ '"' :: rest).length [] rest
      (by simp)
    rw [parseValue, skipSpace_append _ _ hw]
    simp only [List.cons_append, List.append_assoc, List.nil_append]
    rw [skipSpace_cons _ _ (by decide)]
    simp only [show ('"' = '[') = False from by decide, show ('"' = '\x7b') = False from by decide,
      if_false, if_true, hstr, List.reverse_nil, List.nil_append]
  | emptyArray d w1 hd hw1 =>
    intro fuel w rest hw _ hf
    obtain ⟨fuel, rfl⟩ : ∃ k, fuel = k + 1 := ⟨fuel - 1, by simp at hf; omega⟩
    rw [parseValue, skipSpace_append _ _ hw]
    simp only [List.cons_append, List.append_assoc, List.nil_append]
    rw [skipSpace_cons _ _ (by decide)]
    simp only [if_true, if_neg (show ¬ d + 1 > maxNestingDepth by omega),
      skipSpace_append _ _ hw1, skipSpace_cons ']' rest (by decide)]
  | array d te vs hd hde ih =>
    intro fuel w rest hw _ hf
    obtain ⟨fuel, rfl⟩ : ∃ k, fuel = k + 1 := ⟨fuel - 1, by simp at hf; omega⟩
    obtain ⟨w0, c, r, hte, hw0, hc, hc1⟩ := elems_head _ _ _ hde
    have hsk : skipSpace (te ++ ']' :: rest) = c :: (r ++ ']' :: rest) := by
      rw [hte, List.append_assoc, skipSpace_append _ _ hw0, List.cons_append,
        skipSpace_cons _ _ hc]
    have hrec := ih fuel rest (by simp at hf; omega)
    rw [parseValue, skipSpace_append _ _ hw]
    simp only [List.cons_append, List.append_assoc, List.nil_append]
    rw [skipSpace_cons _ _ (by decide)]
    simp only [if_true, if_neg (show ¬ d + 1 > maxNestingDepth by omega), hsk, hrec]
    split
    · rename_i heq
      simp only [List.cons.injEq] at heq
      exact absurd heq.1 hc1
    · rfl
  | emptyObject d w1 hd hw1 =>
    intro fuel w rest hw _ hf
    obtain ⟨fuel, rfl⟩ : ∃ k, fuel = k + 1 := ⟨fuel - 1, by simp at hf; omega⟩
    rw [parseValue, skipSpace_append _ _ hw]
    simp only [List.cons_append, List.append_assoc, List.nil_append]
    rw [skipSpace_cons _ _ (by decide)]
    simp only [show ('\x7b' = '[') = False from by decide, if_false, if_true,
      if_neg (show ¬ d + 1 > maxNestingDepth by omega),
      skipSpace_append _ _ hw1, skipSpace_cons '\x7d' rest (by decide)]
  | object d te ms hd hde ih =>
    intro fuel w rest hw _ hf
    obtain ⟨fuel, rfl⟩ : ∃ k, fuel = k + 1 := ⟨fuel - 1, by simp at hf; omega⟩
    obtain ⟨w0, r, hte, hw0⟩ := members_head _ _ _ hde
    have hsk : skipSpace (te ++ '\x7d' :: rest) = '"' :: (r ++ '\x7d' :: rest) := by
      rw [hte, List.append_assoc, skipSpace_append _ _ hw0, List.cons_append,
        skipSpace_cons _ _ (by decide)]
    have hrec := ih fuel rest (by simp at hf; omega)
    rw [parseValue, skipSpace_append _ _ hw]
    simp only [List.cons_append, List.append_assoc, List.nil_append]
    rw [skipSpace_cons _ _ (by decide)]
    simp only [show ('\x7b' = '[') = False from by decide, if_false, if_true,
      if_neg (show ¬ d + 1 > maxNestingDepth by omega), hsk, hrec]
    rfl
  | lastElem d w1 tv w2 v hw1 hw2 hv ih =>
    intro fuel rest hf
    obtain ⟨fuel, rfl⟩ : ∃ k, fuel = k + 1 := ⟨fuel - 1, by omega⟩
    have hrec := ih fuel w1 (w2 ++ ']' :: rest) hw1
      (valueEnd_ws_cons w2 ']' rest hw2 (Or.inr (Or.inl rfl)))
      (by simp only [List.length_append] at hf; omega)
    rw [parseElems]
    simp only [List.append_assoc]
    rw [hrec]
    simp only [skipSpace_append _ _ hw2, skipSpace_cons ']' rest (by decide)]
  | consElem d w1 tv w2 more v vs hw1 hw2 hv hmore ih1 ih2 =>
    intro fuel rest hf
    obtain ⟨fuel, rfl⟩ : ∃ k, fuel = k + 1 := ⟨fuel - 1, by omega⟩
    have hrec := ih1 fuel w1 (w2 ++ ',' :: (more ++ ']' :: rest)) hw1
      (valueEnd_ws_cons w2 ',' _ hw2 (Or.inl rfl))
      (by simp only [List.length_append, List.length_cons] at hf; omega)
    have hrec2 := ih2 fuel rest
      (by simp only [List.length_append, List.length_cons] at hf; omega)
    rw [parseElems]
    simp only [List.append_assoc, List.cons_append]
    rw [hrec]
    simp only [skipSpace_append _ _ hw2, skipSpace_cons ',' _ (by decide), hrec2]
  | lastMember d w1 raw w2 w3 tv w4 key v hw1 hw2 hw3 hw4 hsb hv ih =>
    intro fuel rest hf
    obtain ⟨fuel, rfl⟩ : ∃ k, fuel = k + 1 := ⟨fuel - 1, by omega⟩
    have hrec := ih fuel w3 (w4 ++ '\x7d' :: rest) hw3
      (valueEnd_ws_cons w4 '\x7d' rest hw4 (Or.inr (Or.inr rfl)))
      (by simp only [List.length_append, List.length_cons] at hf; omega)
    have hstr := parseStringBody_complete raw key hsb
      (raw ++ '"' :: (w2 ++ ':' :: (w3 ++ (tv ++ (w4 ++ '\x7d' :: rest))))).length []
      (w2 ++ ':' :: (w3 ++ (tv ++ (w4 ++ '\x7d' :: rest)))) (by simp)
    rw [parseMembers]
    simp only [List.append_assoc, List.cons_append]
    rw [skipSpace_append _ _ hw1, skipSpace_cons '"' _ (by decide)]
    simp only [hstr, List.reverse_nil, List.nil_append, skipSpace_append _ _ hw2,
      skipSpace_cons ':' _ (by decide), hrec, skipSpace_append _ _ hw4,
      skipSpace_cons '\x7d' rest (by decide)]
  | consMember d w1 raw w2 w3 tv w4 more key v ms hw1 hw2 hw3 hw4 hsb hv hmore ih1 ih2 =>
    intro fuel rest hf
    obtain ⟨fuel, rfl⟩ : ∃ k, fuel = k + 1 := ⟨fuel - 1, by omega⟩
    have hrec := ih1 fuel w3 (w4 ++ ',' :: (more ++ '\x7d' :: rest)) hw3
      (valueEnd_ws_cons w4 ',' _ hw4 (Or.inl rfl))
      (by simp only [List.length_append, List.length_cons] at hf; omega)
    have hrec2 := ih2 fuel rest
      (by simp only [List.length_append, List.length_cons] at hf; omega)
    have hstr := parseStringBody_complete raw key hsb
      (raw ++ '"' :: (w2 ++ ':' :: (w3 ++ (tv ++ (w4 ++ ',' :: (more ++ '\x7d' :: rest)))))).length
      [] (w2 ++ ':' :: (w3 ++ (tv ++ (w4 ++ ',' :: (more ++ '\x7d' :: rest))))) (by simp)
    rw [parseMembers]
    simp only [List.append_assoc, List.cons_append]
    rw [skipSpace_append _ _ hw1, skipSpace_cons '"' _ (by decide)]
    simp only [hstr, List.reverse_nil, List.nil_append, skipSpace_append _ _ hw2,
      skipSpace_cons ':' _ (by decide), hrec, skipSpace_append _ _ hw4,
      skipSpace_cons ',' _ (by decide), hrec2]

/-- The parser accepts exactly the JSON texts, and returns what they stand
for. -/
theorem parseJSON_iff (data : GoString) (v : JValue) :
    parseJSON data = some v ↔ JSONText data v := by
  constructor
  · intro h
    unfold parseJSON at h
    split at h
    · cases h
    · rename_i v1 rest hv
      split_ifs at h with hrest
      simp only [Option.some.injEq] at h
      subst h
      obtain ⟨w, t, hs, hw, hd⟩ := (parse_sound _).1 _ _ _ _ hv
      exact ⟨w, t, rest, hs, hw, isWs_of_skipSpace_nil rest hrest, hd⟩
  · rintro ⟨w1, t, w2, rfl, hw1, hw2, hd⟩
    have hp := parse_complete 0 t (.value v) hd (2 * (w1 ++ (t ++ w2)).length + 2) w1 w2 hw1
      (valueEnd_ws w2 hw2) (by simp only [List.length_append]; omega)
    unfold parseJSON
    rw [List.append_assoc, hp]
    simp only [skipSpace_ws w2 hw2, if_true]

/-! ## Paths built by `filepath.Join` from a directory and a file name -/

theorem takeWhile_ne_slash (e rest : GoString) (he : ∀ c ∈ e, c ≠ '/')
    (hrest : rest = [] ∨ rest.head? = some '/') :
    (e ++ rest).takeWhile (fun x => x ≠ '/') = e ∧ (e ++ rest).dropWhile (fun x => x ≠ '/') = rest := by
  induction e with
  | nil =>
    rcases hrest with rfl | h
    · simp
    · cases rest with
      | nil => simp
      | cons r rs =>
        simp only [List.head?_cons, Option.some.injEq] at h
        subst h
        simp
  | cons c cs ih =>
    have hc : c ≠ '/' := he c (List.mem_cons_self _ _)
    have := ih (fun x hx => he x (List.mem_cons_of_mem _ hx))
    constructor
    · rw [List.cons_append, List.takeWhile_cons_of_pos (by simpa using hc), this.1]
    · rw [List.cons_append, List.dropWhile_cons_of_pos (by simpa using hc), this.2]

/-- One turn of the loop of `Clean` on a real path element `e` followed by
the end of the input or a separator: the element is copied, after a separator
when the buffer needs one. -/
theorem cleanLoop_component (rooted : Bool) (fuel : Nat) (e rest out : GoString) (dd : Nat)
    (he : ∀ c ∈ e, c ≠ '/') (hne : e ≠ []) (hdot : e ≠ ['.']) (hdotdot : e ≠ ['.', '.'])
    (hrest : rest = [] ∨ rest.head? = some '/') :
    cleanLoop rooted (fuel + 1) (e ++ rest) out dd =
      cleanLoop rooted fuel rest
        ((if (rooted = true ∧ out.length ≠ 1) ∨ (¬ rooted = true ∧ out.length ≠ 0) then out ++ ['/']
          else out) ++ e) dd := by
  cases e with
  | nil => exact absurd rfl hne
  | cons c cs =>
    have hc : c ≠ '/' := he c (List.mem_cons_self _ _)
    have hcs : ∀ x ∈ cs, x ≠ '/' := fun x hx => he x (List.mem_cons_of_mem _ hx)
    have htd := takeWhile_ne_slash cs rest hcs hrest
    simp only [List.cons_append, cleanLoop, hc, if_false]
    have h1 : ¬ (c = '.' ∧ (cs ++ rest = [] ∨ (cs ++ rest).head? = some '/')) := by
      rintro ⟨rfl, h⟩
      cases cs with
      | nil => exact hdot rfl
      | cons x xs =>
        have hx : x ≠ '/' := hcs x (List.mem_cons_self _ _)
        rcases h with h | h
        · simp at h
        · simp only [List.cons_append, List.head?_cons, Option.some.injEq] at h
          exact hx h
    have h2 : ¬ (c = '.' ∧ (cs ++ rest).head? = some '.' ∧
        ((cs ++ rest).tail = [] ∨ (cs ++ rest).tail.head? = some '/')) := by
      rintro ⟨rfl, hh, h⟩
      cases cs with
      | nil => exact hdot rfl
      | cons x xs =>
        simp only [List.cons_append, List.head?_cons, Option.some.injEq] at hh
        subst hh
        cases xs with
        | nil => exact hdotdot rfl
        | cons y ys =>
          have hy : y ≠ '/' := hcs y (by simp)
          rcases h with h | h
          · simp at h
          · simp only [List.cons_append, List.tail_cons, List.head?_cons, Option.some.injEq] at h
            exact hy h
    rw [if_neg h1, if_neg h2, htd.1, htd.2]

theorem cleanLoop_nil (rooted : Bool) (fuel : Nat) (out : GoString) (dd : Nat) :
    cleanLoop rooted fuel [] out dd = out := by
  cases fuel <;> simp [cleanLoop]

/-- The last turn of the loop of `Clean`, on a real path element. -/
theorem cleanLoop_component_end (rooted : Bool) (fuel : Nat) (e out : GoString) (dd : Nat)
    (he : ∀ c ∈ e, c ≠ '/') (hne : e ≠ []) (hdot : e ≠ ['.']) (hdotdot : e ≠ ['.', '.']) :
    cleanLoop rooted (fuel + 1) e out dd =
      (if (rooted = true ∧ out.length ≠ 1) ∨ (¬ rooted = true ∧ out.length ≠ 0) then out ++ ['/']
        else out) ++ e := by
  have := cleanLoop_component rooted fuel e [] out dd he hne hdot hdotdot (Or.inl rfl)
  rw [List.append_nil, cleanLoop_nil] at this
  exact this

theorem cleanLoop_slash (rooted : Bool) (fuel : Nat) (rest out : GoString) (dd : Nat) :
    cleanLoop rooted (fuel + 1) ('/' :: rest) out dd = cleanLoop rooted fuel rest out dd := by
  simp [cleanLoop]

/-- `Clean` leaves a plain file name as it is. -/
theorem Clean_component (e : GoString) (he : ∀ c ∈ e, c ≠ '/') (hne : e ≠ [])
    (hdot : e ≠ ['.']) (hdotdot : e ≠ ['.', '.']) : Clean e = e := by
  cases e with
  | nil => exact absurd rfl hne
  | cons c cs =>
    have hc : c ≠ '/' := he c (List.mem_cons_self _ _)
    have := cleanLoop_component_end false cs.length (c :: cs) [] 0 he hne hdot hdotdot
    simp [Clean, hc, this]

/-- `Clean` of a plain name followed by a separator is the name. -/
theorem Clean_component_slash (e : GoString) (he : ∀ c ∈ e, c ≠ '/') (hne : e ≠ [])
    (hdot : e ≠ ['.']) (hdotdot : e ≠ ['.', '.']) : Clean (e ++ ['/']) = e := by
  cases e with
  | nil => exact absurd rfl hne
  | cons c cs =>
    have hc : c ≠ '/' := he c (List.mem_cons_self _ _)
    have := cleanLoop_component false (cs.length + 1) (c :: cs) ['/'] [] 0 he hne hdot hdotdot
      (Or.inr rfl)
    simp only [List.cons_append] at this
    simp [Clean, hc, this, cleanLoop_nil, cleanLoop_slash]

/-- The loop of `Clean` on a plain directory name, a separator and a plain
file name, started on an empty buffer. -/
theorem cleanLoop_two_components (k : Nat) (d n : GoString) (hd : ∀ c ∈ d, c ≠ '/')
    (hdne : d ≠ []) (hddot : d ≠ ['.']) (hddotdot : d ≠ ['.', '.'])
    (hn : ∀ c ∈ n, c ≠ '/') (hnne : n ≠ []) (hndot : n ≠ ['.']) (hndotdot : n ≠ ['.', '.']) :
    cleanLoop false (k + 3) (d ++ '/' :: n) [] 0 = d ++ '/' :: n := by
  rw [cleanLoop_component false (k + 2) d ('/' :: n) [] 0 hd hdne hddot hddotdot (Or.inr rfl),
    cleanLoop_slash]
  have e0 : (if (false = true ∧ ([] : GoString).length ≠ 1) ∨
      (¬ false = true ∧ ([] : GoString).length ≠ 0) then [] ++ ['/'] else ([] : GoString)) ++ d
        = d := by simp
  rw [e0, cleanLoop_component_end false k n d 0 hn hnne hndot hndotdot]
  have hl : d.length ≠ 0 := by simpa using hdne
  simp [hl]

/-- `Clean` of a plain directory name, a separator and a plain file name
changes nothing. -/
theorem Clean_two_components (d n : GoString) (hd : ∀ c ∈ d, c ≠ '/') (hdne : d ≠ [])
    (hddot : d ≠ ['.']) (hddotdot : d ≠ ['.', '.'])
    (hn : ∀ c ∈ n, c ≠ '/') (hnne : n ≠ []) (hndot : n ≠ ['.']) (hndotdot : n ≠ ['.', '.']) :
    Clean (d ++ '/' :: n) = d ++ '/' :: n := by
  have hloop := cleanLoop_two_components ((d ++ '/' :: n).length - 3) d n hd hdne hddot hddotdot
    hn hnne hndot hndotdot
  have hdl : 0 < d.length := List.length_pos.mpr hdne
  have hnl : 0 < n.length := List.length_pos.mpr hnne
  have hL : (d ++ '/' :: n).length - 3 + 3 = (d ++ '/' :: n).length := by
    simp only [List.length_append, List.length_cons]; omega
  rw [hL] at hloop
  cases d with
  | nil => exact absurd rfl hdne
  | cons c cs =>
    have hc : c ≠ '/' := hd c (List.mem_cons_self _ _)
    simp only [List.cons_append] at hloop
    simp only [Clean, List.cons_append, hc, decide_False, Bool.false_eq_true, if_false, hloop]
    simp

theorem Clean_unrooted (c : Char) (cs : GoString) (hc : c ≠ '/') :
    Clean (c :: cs) =
      if (cleanLoop false (cs.length + 1) (c :: cs) [] 0).length = 0 then ['.']
      else cleanLoop false (cs.length + 1) (c :: cs) [] 0 := by
  simp [Clean, hc]

theorem Clean_rooted (cs : GoString) :
    Clean ('/' :: cs) =
      if (cleanLoop true (cs.length + 1) cs ['/'] 1).length = 0 then ['.']
      else cleanLoop true (cs.length + 1) cs ['/'] 1 := by
  simp [Clean]

theorem cleanLoop_dot_slash (rooted : Bool) (fuel : Nat) (rest out : GoString) (dd : Nat) :
    cleanLoop rooted (fuel + 1) ('.' :: '/' :: rest) out dd =
      cleanLoop rooted fuel ('/' :: rest) out dd := by
  simp [cleanLoop]

theorem cleanLoop_dotdot_start (fuel : Nat) (rest : GoString) :
    cleanLoop false (fuel + 1) ('.' :: '.' :: '/' :: rest) [] 0 =
      cleanLoop false fuel ('/' :: rest) ['.', '.'] 2 := by
  simp [cleanLoop]

theorem Join_dir_name (d n : GoString) (hd : ∀ c ∈ d, c ≠ '/') (hn : PlainName n) :
    Join [d, n] = if d = [] ∨ d = ['.'] then n else d ++ '/' :: n := by
  obtain ⟨hn1, hn2, hn3, hn4⟩ := hn
  have hnl : n.length ≠ 0 := by simpa using hn2
  obtain ⟨k, hk⟩ : ∃ k, n.length = k + 1 := ⟨n.length - 1, by omega⟩
  by_cases h0 : d = []
  · subst h0
    simp [Join, joinSep, hn2, Clean_component n hn1 hn2 hn3 hn4]
  · simp only [Join, joinSep, ne_eq, h0, not_false_eq_true, if_true, false_or]
    by_cases h1 : d = ['.']
    · subst h1
      rw [if_pos rfl, List.singleton_append, Clean_unrooted _ _ (by decide), List.length_cons, hk,
        cleanLoop_dot_slash, cleanLoop_slash,
        cleanLoop_component_end false k n [] 0 hn1 hn2 hn3 hn4]
      simp [hnl]
    · by_cases h2 : d = ['.', '.']
      · subst h2
        rw [if_neg (by decide), List.cons_append, List.singleton_append,
          Clean_unrooted _ _ (by decide), List.length_cons, List.length_cons, hk,
          cleanLoop_dotdot_start, cleanLoop_slash,
          cleanLoop_component_end false (k + 1) n _ 2 hn1 hn2 hn3 hn4]
        simp
      · simp only [h1, if_false]
        exact Clean_two_components d n hd h0 h1 h2 hn1 hn2 hn3 hn4

theorem Join_root_name (n : GoString) (hn : PlainName n) : Join [['/'], n] = '/' :: n := by
  obtain ⟨hn1, hn2, hn3, hn4⟩ := hn
  have hnl : n.length ≠ 0 := by simpa using hn2
  obtain ⟨k, hk⟩ : ∃ k, n.length = k + 1 := ⟨n.length - 1, by omega⟩
  simp only [Join, joinSep, ne_eq, reduceCtorEq, not_false_eq_true, if_true]
  rw [List.singleton_append, Clean_rooted, List.length_cons, hk, cleanLoop_slash,
    cleanLoop_component_end true (k + 1) n _ 1 hn1 hn2 hn3 hn4]
  simp

theorem rtakeWhile_name (pre n : GoString) (hn : ∀ c ∈ n, c ≠ '/') :
    (pre ++ '/' :: n).rtakeWhile (fun x => x ≠ '/') = n ∧
    n.rtakeWhile (fun x => x ≠ '/') = n := by
  have h1 := takeWhile_ne_slash n.reverse ('/' :: pre.reverse)
    (fun c hc => hn c (List.mem_reverse.mp hc)) (Or.inr rfl)
  have h2 := takeWhile_ne_slash n.reverse [] (fun c hc => hn c (List.mem_reverse.mp hc))
    (Or.inl rfl)
  constructor
  · unfold List.rtakeWhile
    rw [List.reverse_append, List.reverse_cons, List.append_assoc, List.singleton_append, h1.1,
      List.reverse_reverse]
  · unfold List.rtakeWhile
    rw [List.append_nil] at h2
    rw [h2.1, List.reverse_reverse]

theorem rdropWhile_name (pre n : GoString) (hn : ∀ c ∈ n, c ≠ '/') :
    (pre ++ '/' :: n).rdropWhile (fun x => x ≠ '/') = pre ++ ['/'] ∧
    n.rdropWhile (fun x => x ≠ '/') = [] := by
  have h1 := takeWhile_ne_slash n.reverse ('/' :: pre.reverse)
    (fun c hc => hn c (List.mem_reverse.mp hc)) (Or.inr rfl)
  have h2 := takeWhile_ne_slash n.reverse [] (fun c hc => hn c (List.mem_reverse.mp hc))
    (Or.inl rfl)
  constructor
  · unfold List.rdropWhile
    rw [List.reverse_append, List.reverse_cons, List.append_assoc, List.singleton_append, h1.2]
    simp
  · unfold List.rdropWhile
    rw [List.append_nil] at h2
    rw [h2.2]
    rfl

theorem rdropWhile_slash_name (p : GoString) (z : Char) (hz : z ≠ '/') :
    (p ++ [z]).rdropWhile (fun x => x = '/') = p ++ [z] := by
  unfold List.rdropWhile
  rw [List.reverse_append, List.reverse_singleton, List.singleton_append,
    List.dropWhile_cons_of_neg (by simpa using hz)]
  simp

theorem Base_of_name (pre n : GoString) (hn : PlainName n) :
    Base (pre ++ '/' :: n) = n ∧ Base n = n := by
  obtain ⟨hn1, hn2, -, -⟩ := hn
  obtain ⟨m, z, rfl⟩ : ∃ m z, n = m ++ [z] := by
    rcases List.eq_nil_or_concat n with h | ⟨m, z, h⟩
    · exact absurd h hn2
    · exact ⟨m, z, by simpa using h⟩
  have hz : z ≠ '/' := hn1 z (by simp)
  have e1 : pre ++ '/' :: (m ++ [z]) = (pre ++ '/' :: m) ++ [z] := by simp
  have r := rtakeWhile_name pre (m ++ [z]) hn1
  constructor
  · unfold Base
    rw [if_neg (by simp)]
    simp only
    rw [e1, rdropWhile_slash_name _ z hz, ← e1, r.1, if_neg (by simp)]
  · unfold Base
    rw [if_neg (by simp)]
    simp only
    rw [rdropWhile_slash_name _ z hz, r.2, if_neg (by simp)]

theorem Dir_of_name (d n : GoString) (hn : ∀ c ∈ n, c ≠ '/') :
    Dir (d ++ '/' :: n) = Clean (d ++ ['/']) ∧ Dir n = ['.'] := by
  have r := rdropWhile_name d n hn
  constructor
  · unfold Dir; rw [r.1]
  · unfold Dir; rw [r.2]; rfl

theorem Dir_Join_name (d n : GoString) (hd : (∀ c ∈ d, c ≠ '/') ∨ d = ['/']) (hn : PlainName n) :
    Dir (Join [d, n]) = Clean d := by
  rcases hd with hd | rfl
  · rw [Join_dir_name d n hd hn]
    by_cases h0 : d = []
    · subst h0
      rw [if_pos (Or.inl rfl), (Dir_of_name [] n hn.1).2]
      rfl
    · by_cases h1 : d = ['.']
      · subst h1
        rw [if_pos (Or.inr rfl), (Dir_of_name [] n hn.1).2]
        decide
      · rw [if_neg (by simp [h0, h1]), (Dir_of_name d n hn.1).1]
        by_cases h2 : d = ['.', '.']
        · subst h2; decide
        · rw [Clean_component_slash d hd h0 h1 h2, Clean_component d hd h0 h1 h2]
  · rw [Join_root_name n hn]
    have := (Dir_of_name [] n hn.1).1
    simp only [List.nil_append] at this
    rw [this]

theorem Base_Join_name (d n : GoString) (hd : (∀ c ∈ d, c ≠ '/') ∨ d = ['/']) (hn : PlainName n) :
    Base (Join [d, n]) = n := by
  rcases hd with hd | rfl
  · rw [Join_dir_name d n hd hn]
    split_ifs
    · exact (Base_of_name [] n hn).2
    · exact (Base_of_name d n hn).1
  · rw [Join_root_name n hn]
    exact (Base_of_name [] n hn).1

theorem Base_shape (v : GoString) : (∀ c ∈ Base v, c ≠ '/') ∨ Base v = ['/'] := by
  simp only [Base]
  split_ifs with h1 h2
  · left; decide
  · right; rfl
  · left
    intro c hc
    simpa using List.mem_rtakeWhile_imp hc

theorem TrimSuffix_take (s t : GoString) : ∃ k, TrimSuffix s t = s.take k := by
  unfold TrimSuffix
  split_ifs
  · exact ⟨_, rfl⟩
  · exact ⟨s.length, by simp⟩

theorem videoName_shape (v : GoString) :
    (∀ c ∈ TrimSuffix (Base v) (Ext v), c ≠ '/') ∨ TrimSuffix (Base v) (Ext v) = ['/'] := by
  obtain ⟨k, hk⟩ := TrimSuffix_take (Base v) (Ext v)
  rw [hk]
  rcases Base_shape v with h | h
  · left
    intro c hc
    exact h c (List.mem_of_mem_take hc)
  · rw [h]
    cases k with
    | zero => left; simp
    | succ k => right; simp

theorem plainName_suffix (stem suffix : GoString) (hstem : ∀ c ∈ stem, c ≠ '/')
    (hsuf : ∀ c ∈ suffix, c ≠ '/') (hlen : 3 ≤ suffix.length) : PlainName (stem ++ suffix) := by
  refine ⟨?_, ?_, ?_, ?_⟩
  · intro c hc
    rcases List.mem_append.mp hc with h | h
    · exact hstem c h
    · exact hsuf c h
  · intro h
    have := congrArg List.length h
    simp only [List.length_append, List.length_nil, List.length_cons] at this
    omega
  · intro h
    have := congrArg List.length h
    simp only [List.length_append, List.length_nil, List.length_cons] at this
    omega
  · intro h
    have := congrArg List.length h
    simp only [List.length_append, List.length_nil, List.length_cons] at this
    omega

/-! ## File discovery -/

theorem mp4WalkFn_visit (path : GoString) (info : FileInfo) (st : List GoString) :
    mp4WalkFn path (some info) none st =
      (st ++ ([(path, info)].filter isMP4Entry).map Prod.fst, none) := by
  simp only [mp4WalkFn, isMP4Entry, List.filter]
  generalize HasSuffix info.name ".mp4".toList = b
  cases info.IsDir <;> cases b <;> simp

theorem mp4WalkFn_err (path : GoString) (info : Option FileInfo) (e : WalkErr)
    (st : List GoString) : mp4WalkFn path info (some e) st = (st, some e) := by
  simp [mp4WalkFn]

mutual
theorem walk_mp4_noskip : ∀ (node : FsNode) (path : GoString) (info : FileInfo)
    (st : List GoString),
    (walk mp4WalkFn path info node st).2 ≠ some WalkErr.skipDir ∧
    (walk mp4WalkFn path info node st).2 ≠ some WalkErr.skipAll
  | .node name kind lstatOk readOk children, path, info, st => by
    simp only [walk]
    by_cases hd : info.IsDir = true
    · simp only [hd, not_true_eq_false, if_false]
      cases readOk with
      | false => simp [mp4WalkFn_err]
      | true =>
        simp only [if_true, mp4WalkFn_visit, ne_eq, not_true_eq_false, or_self, if_false]
        exact walkNames_mp4_noskip children path _
    · simp [hd, mp4WalkFn_visit]
theorem walkNames_mp4_noskip : ∀ (nodes : List FsNode) (path : GoString) (st : List GoString),
    (walkNames mp4WalkFn path nodes st).2 ≠ some WalkErr.skipDir ∧
    (walkNames mp4WalkFn path nodes st).2 ≠ some WalkErr.skipAll
  | [], path, st => by simp [walkNames]
  | .node name kind lstatOk readOk children :: rest, path, st => by
    simp only [walkNames]
    cases lstatOk with
    | false => simp [mp4WalkFn_err]
    | true =>
      simp only [not_true_eq_false, if_false, Bool.true_eq_false]
      have h1 := walk_mp4_noskip (.node name kind true readOk children) (Join [path, name])
        ⟨name, kind⟩ st
      split_ifs
      · exact h1
      · exact walkNames_mp4_noskip rest path _
end

mutual
theorem walk_mp4_ok : ∀ (node : FsNode) (path : GoString) (info : FileInfo) (st : List GoString),
    (walk mp4WalkFn path info node st).2 = none →
    (walk mp4WalkFn path info node st).1 =
      st ++ ((visitOrder path info node).filter isMP4Entry).map Prod.fst
  | .node name kind lstatOk readOk children, path, info, st, h => by
    simp only [walk, visitOrder] at h ⊢
    by_cases hd : info.IsDir = true
    · simp only [hd, not_true_eq_false, if_false, if_true] at h ⊢
      cases readOk with
      | false => simp [mp4WalkFn_err] at h
      | true =>
        simp only [if_true, mp4WalkFn_visit, ne_eq, not_true_eq_false, or_self, if_false] at h ⊢
        rw [walkNames_mp4_ok children path _ h, List.filter_cons (p := isMP4Entry)]
        split_ifs <;> simp [List.filter, List.append_assoc, *]
    · simp only [hd, not_false_eq_true, if_true, Bool.false_eq_true, if_false,
        mp4WalkFn_visit] at h ⊢
theorem walkNames_mp4_ok : ∀ (nodes : List FsNode) (path : GoString) (st : List GoString),
    (walkNames mp4WalkFn path nodes st).2 = none →
    (walkNames mp4WalkFn path nodes st).1 =
      st ++ ((visitNames path nodes).filter isMP4Entry).map Prod.fst
  | [], path, st, h => by simp [walkNames, visitNames]
  | .node name kind lstatOk readOk children :: rest, path, st, h => by
    simp only [walkNames, visitNames] at h ⊢
    cases lstatOk with
    | false => simp [mp4WalkFn_err] at h
    | true =>
      simp only [not_true_eq_false, if_false, Bool.true_eq_false] at h ⊢
      cases hr : (walk mp4WalkFn (Join [path, name]) ⟨name, kind⟩
          (.node name kind true readOk children) st).2 with
      | some e =>
        exfalso
        rw [hr] at h
        by_cases hdir : (FileInfo.mk name kind).IsDir = true
        · by_cases hskip : e = WalkErr.skipDir
          · subst hskip
            exact (walk_mp4_noskip _ _ _ _).1 hr
          · simp [hdir, hskip, hr] at h
        · simp [hdir, hr] at h
      | none =>
        have h1 := walk_mp4_ok (.node name kind true readOk children) (Join [path, name])
          ⟨name, kind⟩ st hr
        rw [hr] at h
        simp only [ne_eq, not_true_eq_false, false_and, if_false] at h ⊢
        rw [h1] at h ⊢
        rw [walkNames_mp4_ok rest path _ h]
        simp [List.append_assoc]
end

theorem getMP4Files_ok (tree : FsNode) (h : (getMP4Files tree).2 = none) :
    (getMP4Files tree).1 = ((visited tree).filter isMP4Entry).map Prod.fst := by
  cases tree with
  | node name kind lstatOk readOk children =>
    simp only [getMP4Files, Walk, visited] at h ⊢
    cases lstatOk with
    | false => simp [mp4WalkFn_err] at h
    | true =>
      simp only [not_true_eq_false, if_false, Bool.true_eq_false] at h ⊢
      have hns := walk_mp4_noskip (.node name kind true readOk children) ".".toList
        ⟨Base ".".toList, kind⟩ []
      simp only [hns.1, hns.2, or_self, if_false] at h ⊢
      simpa using walk_mp4_ok _ _ _ _ h

/-! ## From `main` to its parts -/

theorem main_eq_mainSelect (env : Env) (files : List GoString) (line1 line2 : GoString)
    (hwalk : getMP4Files env.tree = (files, none)) (hne : files ≠ []) :
    main env line1 line2 = mainSelect env files line1 line2 := by
  have hl : files.length ≠ 0 := by simpa using hne
  simp [main, hwalk, hl]

theorem invocations_mkdir_append (pre rest : List Event)
    (hpre : ∀ ev ∈ pre, ∃ p, ev = Event.mkdir p) :
    (pre ++ rest).filterMap execArgs = rest.filterMap execArgs := by
  induction pre with
  | nil => rfl
  | cons e es ih =>
    obtain ⟨p, rfl⟩ := hpre _ (List.mem_cons_self _ _)
    simpa [List.filterMap_cons, execArgs] using ih (fun ev h => hpre ev (List.mem_cons_of_mem _ h))

/-- A run of `main` that gets past the scan, the selection, the output
directory and the parse is the run of `mainExtract`, preceded by the creation
of the output directory when that was needed. -/
theorem main_parsed (env : Env) (files : List GoString) (line1 line2 v : GoString)
    (items : List Item) (hwalk : getMP4Files env.tree = (files, none)) (hne : files ≠ [])
    (hsel : selectVideo files line1 = some v)
    (hdir : env.statNotExist (TrimSuffix (Base v) (Ext v)) = true →
      env.mkdirOk (TrimSuffix (Base v) (Ext v)) = true)
    (hparse : Unmarshal (ReplaceAll (TrimSpace line2) (Char.ofNat 39) '"') = .ok items) :
    ∃ pre : List Event, (∀ ev ∈ pre, ∃ p, ev = Event.mkdir p) ∧
      main env line1 line2 =
        ⟨pre ++ (mainExtract env v (TrimSuffix (Base v) (Ext v)) items).events,
          (mainExtract env v (TrimSuffix (Base v) (Ext v)) items).outcome⟩ := by
  have hl : files.length ≠ 0 := by simpa using hne
  have hmain : main env line1 line2 = mainPrepare env v line2 := by
    simp [main, hwalk, hl, mainSelect, hsel]
  rw [hmain]
  simp only [mainPrepare, hparse]
  by_cases hs : env.statNotExist (TrimSuffix (Base v) (Ext v)) = true
  · have hm := hdir hs
    refine ⟨[Event.mkdir (TrimSuffix (Base v) (Ext v))], ?_, ?_⟩
    · intro ev hev
      exact ⟨_, List.mem_singleton.mp hev⟩
    · simp [hs, hm]
  · refine ⟨[], by simp, ?_⟩
    simp [hs]

theorem main_parsed_invocations (env : Env) (files : List GoString) (line1 line2 v : GoString)
    (items : List Item) (hwalk : getMP4Files env.tree = (files, none)) (hne : files ≠ [])
    (hsel : selectVideo files line1 = some v)
    (hdir : env.statNotExist (TrimSuffix (Base v) (Ext v)) = true →
      env.mkdirOk (TrimSuffix (Base v) (Ext v)) = true)
    (hparse : Unmarshal (ReplaceAll (TrimSpace line2) (Char.ofNat 39) '"') = .ok items) :
    invocations (main env line1 line2) =
      invocations (mainExtract env v (TrimSuffix (Base v) (Ext v)) items) := by
  obtain ⟨pre, hpre, hrun⟩ := main_parsed env files line1 line2 v items hwalk hne hsel hdir hparse
  rw [hrun]
  exact invocations_mkdir_append pre _ hpre

theorem entries_mkdir_append (pre rest : List Event) (o : Outcome)
    (hpre : ∀ ev ∈ pre, ∃ p, ev = Event.mkdir p) :
    archiveEntries ⟨pre ++ rest, o⟩ = archiveEntries ⟨rest, o⟩ := by
  induction pre with
  | nil => rfl
  | cons e es ih =>
    obtain ⟨p, rfl⟩ := hpre _ (List.mem_cons_self _ _)
    have ih2 := ih (fun ev h => hpre ev (List.mem_cons_of_mem _ h))
    simp only [archiveEntries, List.cons_append, List.filterMap_cons] at ih2 ⊢
    exact ih2

theorem main_parsed_entries (env : Env) (files : List GoString) (line1 line2 v : GoString)
    (items : List Item) (hwalk : getMP4Files env.tree = (files, none)) (hne : files ≠ [])
    (hsel : selectVideo files line1 = some v)
    (hdir : env.statNotExist (TrimSuffix (Base v) (Ext v)) = true →
      env.mkdirOk (TrimSuffix (Base v) (Ext v)) = true)
    (hparse : Unmarshal (ReplaceAll (TrimSpace line2) (Char.ofNat 39) '"') = .ok items) :
    archiveEntries (main env line1 line2) =
      archiveEntries (mainExtract env v (TrimSuffix (Base v) (Ext v)) items) ∧
    (main env line1 line2).outcome =
      (mainExtract env v (TrimSuffix (Base v) (Ext v)) items).outcome := by
  obtain ⟨pre, hpre, hrun⟩ := main_parsed env files line1 line2 v items hwalk hne hsel hdir hparse
  rw [hrun]
  exact ⟨entries_mkdir_append pre _ _ hpre, rfl⟩

theorem invocations_exec (cmds : List (List GoString)) (o : Outcome) :
    invocations ⟨cmds.map (Event.exec ffmpeg), o⟩ = cmds := by
  induction cmds with
  | nil => rfl
  | cons c cs ih =>
    simp only [invocations, List.map_cons, List.filterMap_cons, execArgs] at ih ⊢
    rw [ih]

theorem entries_exec (cmds : List (List GoString)) (o : Outcome) :
    archiveEntries ⟨cmds.map (Event.exec ffmpeg), o⟩ = [] := by
  induction cmds with
  | nil => rfl
  | cons c cs ih =>
    simp only [archiveEntries, List.map_cons, List.filterMap_cons] at ih ⊢
    exact ih

/-! ## The extraction sequence -/

theorem mainExtract_all_run (env : Env) (v n : GoString) (items : List Item)
    (hrun : ∀ k args, env.runOk k args = true) :
    mainExtract env v n items =
      ⟨Event.exec ffmpeg (extraCommand v (Join [n, "bz.mp3".toList])) ::
          (sortSlice lessRownum items).map (fun it => Event.exec ffmpeg (trackCommand v n it)) ++
        (zipFiles env (Join [n, n ++ "_output.zip".toList])
          (Join [n, "bz.mp3".toList] ::
            (sortSlice lessRownum items).map (outputFileName n))).1,
       if (zipFiles env (Join [n, n ++ "_output.zip".toList])
          (Join [n, "bz.mp3".toList] ::
            (sortSlice lessRownum items).map (outputFileName n))).2 = true
        then Outcome.done else Outcome.zipFatal⟩ := by
  have hloop := extractLoop_ok env v n (sortSlice lessRownum items) 1 (fun i it _ => hrun _ _)
  simp only [mainExtract, executeCommand, hrun, hloop, not_true_eq_false, if_false]

theorem zipFiles_no_exec (env : Env) (name : GoString) (files : List GoString) :
    (zipFiles env name files).1.filterMap execArgs = [] := by
  simp only [zipFiles]
  split_ifs
  · simp only [List.filterMap_cons, execArgs, List.filterMap_eq_nil_iff]
    intro e he
    obtain ⟨nm, rfl⟩ := zipLoop_entries env files e he
    rfl
  · rfl

theorem invocations_all_run (env : Env) (v n : GoString) (items : List Item)
    (hrun : ∀ k args, env.runOk k args = true) :
    invocations (mainExtract env v n items) = allCommands v n items := by
  rw [mainExtract_all_run env v n items hrun]
  simp only [invocations, allCommands, List.cons_append, List.filterMap_cons, execArgs,
    List.filterMap_append, zipFiles_no_exec, List.append_nil, List.filterMap_map]
  congr 1
  induction sortSlice lessRownum items with
  | nil => rfl
  | cons it rest ih => simp [List.filterMap_cons, execArgs, ih]

theorem lessRownum_eq (x y : Item) : lessRownum x y = decide (x.Rownum < y.Rownum) := rfl

theorem sorted_map_audioTrackID (l : List Item)
    (hrange : ∀ it ∈ l, minInt ≤ it.Rownum ∧ it.Rownum ≤ maxInt)
    (hmax : ∀ it ∈ l, it.Rownum ≠ maxInt)
    (hs : (l.map Item.Rownum).Sorted (· ≤ ·)) : (l.map audioTrackID).Sorted (· ≤ ·) := by
  induction l with
  | nil => simp
  | cons a l ih =>
    simp only [List.map_cons, List.sorted_cons, List.mem_map, forall_exists_index, and_imp,
      forall_apply_eq_imp_iff₂] at hs ⊢
    refine ⟨?_, ih (fun it h => hrange it (List.mem_cons_of_mem _ h))
      (fun it h => hmax it (List.mem_cons_of_mem _ h)) hs.2⟩
    intro b hb
    have h1 := hs.1 b hb
    rw [audioTrackID_eq a (hrange a (List.mem_cons_self _ _)),
      audioTrackID_eq b (hrange b (List.mem_cons_of_mem _ hb)),
      if_neg (hmax a (List.mem_cons_self _ _)), if_neg (hmax b (List.mem_cons_of_mem _ hb))]
    omega

/-- C1, amended: when every transcoder invocation succeeds, the run performs
exactly `N + 1` invocations: first the default one, with the arguments
`-i <source> -map 0:1 -b:a 129k -f mp3 -vn Join(outputDir, "bz.mp3")`, then one
per record in the order of the sorted list, with the same arguments except
for the stream, `0:` followed by the decimal form of `rownum + 1` computed in
wrapping 64-bit arithmetic, and the output, `Join(outputDir, typeName + ".mp3")`.
The sorted list is a permutation of the parsed one and is in non-decreasing
rownum order; the stream numbers are `rownum + 1` except that the largest
`int` wraps to the smallest, so they are in non-decreasing order whenever no
record has rownum 9223372036854775807.  These invocations are those of a
run of `main` that selects the source and parses the list. -/
theorem C1_extraction_sequence (env : Env) (data videoResource videoName : GoString)
    (items : List Item) (hparse : Unmarshal data = .ok items)
    (hrun : ∀ k args, env.runOk k args = true) :
    invocations (mainExtract env videoResource videoName items) =
      ["-i".toList, videoResource, "-map".toList, "0:1".toList, "-b:a".toList, "129k".toList,
        "-f".toList, "mp3".toList, "-vn".toList, Join [videoName, "bz.mp3".toList]] ::
      (sortSlice lessRownum items).map (fun it =>
        ["-i".toList, videoResource, "-map".toList, "0:".toList ++ formatInt (audioTrackID it),
          "-b:a".toList, "129k".toList, "-f".toList, "mp3".toList, "-vn".toList,
          Join [videoName, it.TypeName ++ ".mp3".toList]]) ∧
    (invocations (mainExtract env videoResource videoName items)).length = items.length + 1 ∧
    (invocations (mainExtract env videoResource videoName items)).map streamSelector =
      "0:1".toList ::
        (sortSlice lessRownum items).map (fun it => "0:".toList ++ formatInt (audioTrackID it)) ∧
    (invocations (mainExtract env videoResource videoName items)).map List.getLast? =
      some (Join [videoName, "bz.mp3".toList]) ::
        (sortSlice lessRownum items).map
          (fun it => some (Join [videoName, it.TypeName ++ ".mp3".toList])) ∧
    (sortSlice lessRownum items).Perm items ∧
    ((sortSlice lessRownum items).map Item.Rownum).Sorted (· ≤ ·) ∧
    (∀ it ∈ items, audioTrackID it = if it.Rownum = maxInt then minInt else it.Rownum + 1) ∧
    ((∀ it ∈ items, it.Rownum ≠ maxInt) →
      ((sortSlice lessRownum items).map audioTrackID).Sorted (· ≤ ·)) ∧
    (∀ files line1 line2, getMP4Files env.tree = (files, none) → files ≠ [] →
      selectVideo files line1 = some videoResource →
      videoName = TrimSuffix (Base videoResource) (Ext videoResource) →
      (env.statNotExist videoName = true → env.mkdirOk videoName = true) →
      Unmarshal (ReplaceAll (TrimSpace line2) (Char.ofNat 39) '"') = .ok items →
      invocations (main env line1 line2) =
        ["-i".toList, videoResource, "-map".toList, "0:1".toList, "-b:a".toList, "129k".toList,
          "-f".toList, "mp3".toList, "-vn".toList, Join [videoName, "bz.mp3".toList]] ::
        (sortSlice lessRownum items).map (fun it =>
          ["-i".toList, videoResource, "-map".toList, "0:".toList ++ formatInt (audioTrackID it),
            "-b:a".toList, "129k".toList, "-f".toList, "mp3".toList, "-vn".toList,
            Join [videoName, it.TypeName ++ ".mp3".toList]])) := by
  have hrange := Unmarshal_range data items hparse
  have hperm := sortSlice_perm lessRownum items
  have hsorted := sortSlice_sorted Item.Rownum lessRownum lessRownum_eq items
  have hinv := invocations_all_run env videoResource videoName items hrun
  refine ⟨hinv, ?_, ?_, ?_, hperm, hsorted,
    fun it hit => audioTrackID_eq it (hrange it hit), ?_, ?_⟩
  · rw [hinv]
    simp [allCommands, hperm.length_eq]
  · rw [hinv]
    simp only [allCommands, List.map_cons, List.map_map]
    rfl
  · rw [hinv]
    simp only [allCommands, List.map_cons, List.map_map]
    rfl
  · intro hmax
    exact sorted_map_audioTrackID _ (fun it h => hrange it (hperm.mem_iff.mp h))
      (fun it h => hmax it (hperm.mem_iff.mp h)) hsorted
  · intro files line1 line2 hwalk hne hsel hname hdir hline
    subst hname
    rw [main_parsed_invocations env files line1 line2 videoResource items hwalk hne hsel hdir hline]
    exact invocations_all_run env _ _ items hrun

set_option maxRecDepth 100000 in
theorem C1_extraction_sequence_witness :
    Unmarshal twoTracksText = .ok twoTracks ∧
    invocations (main okEnv "1".toList twoTracksText) =
      [extraCommand "a.mp4".toList "a/bz.mp3".toList,
       trackCommand "a.mp4".toList "a".toList ⟨1, "fr".toList⟩,
       trackCommand "a.mp4".toList "a".toList ⟨2, "en".toList⟩] :=
  ⟨by decide,
   ((C1_extraction_sequence okEnv twoTracksText "a.mp4".toList "a".toList twoTracks (by decide)
      (fun _ _ => rfl)).2.2.2.2.2.2.2.2 ["a.mp4".toList] "1".toList twoTracksText (by decide)
      (by decide) (by decide) (by decide) (fun _ => rfl) (by decide)).trans (by decide)⟩

set_option maxRecDepth 100000 in
/-- At rownum 9223372036854775807 the stream number wraps: in the run of
`main` on a successfully parsed list with that rownum the selectors of the
track invocations, taken in sorted order, are not non-decreasing and the last
one is not `rownum + 1`. -/
theorem C1_selectors_not_monotone :
    Unmarshal (ReplaceAll (TrimSpace maxRownumText) (Char.ofNat 39) '"') = .ok maxRownumTracks ∧
    (invocations (main okEnv "1".toList maxRownumText)).map streamSelector =
      ["0:1".toList, "0:1".toList, "0:-9223372036854775808".toList] ∧
    (sortSlice lessRownum maxRownumTracks).map audioTrackID = [1, -9223372036854775808] ∧
    ¬ ((sortSlice lessRownum maxRownumTracks).map audioTrackID).Sorted (· ≤ ·) := by
  refine ⟨by decide, by decide, by decide, ?_⟩
  rw [show (sortSlice lessRownum maxRownumTracks).map audioTrackID = [1, -9223372036854775808]
    from by decide]
  decide

/-! ## Distinctness of the stream selectors -/

theorem nodup_map_congr {α β γ : Type} (f : α → β) (g : α → γ) (l : List α)
    (h : ∀ a ∈ l, ∀ b ∈ l, f a = f b ↔ g a = g b) : (l.map f).Nodup ↔ (l.map g).Nodup := by
  induction l with
  | nil => simp
  | cons a l ih =>
    have ih' := ih (fun x hx y hy => h x (List.mem_cons_of_mem _ hx) y (List.mem_cons_of_mem _ hy))
    simp only [List.map_cons, List.nodup_cons, List.mem_map, not_exists, not_and, ih']
    constructor
    · rintro ⟨h1, h2⟩
      refine ⟨fun x hx hgx => h1 x hx ?_, h2⟩
      exact (h x (List.mem_cons_of_mem _ hx) a (List.mem_cons_self _ _)).mpr hgx
    · rintro ⟨h1, h2⟩
      refine ⟨fun x hx hfx => h1 x hx ?_, h2⟩
      exact (h x (List.mem_cons_of_mem _ hx) a (List.mem_cons_self _ _)).mp hfx

theorem audioTrackID_inj (a b : Item) (ha : minInt ≤ a.Rownum ∧ a.Rownum ≤ maxInt)
    (hb : minInt ≤ b.Rownum ∧ b.Rownum ≤ maxInt) :
    audioTrackID a = audioTrackID b ↔ a.Rownum = b.Rownum := by
  rw [audioTrackID_eq a ha, audioTrackID_eq b hb]
  simp only [minInt, maxInt] at ha hb ⊢
  split_ifs <;> omega

theorem selector_inj (v n : GoString) (a b : Item) (ha : minInt ≤ a.Rownum ∧ a.Rownum ≤ maxInt)
    (hb : minInt ≤ b.Rownum ∧ b.Rownum ≤ maxInt) :
    streamSelector (trackCommand v n a) = streamSelector (trackCommand v n b) ↔
      a.Rownum = b.Rownum := by
  rw [← audioTrackID_inj a b ha hb]
  show "0:".toList ++ formatInt (audioTrackID a) = "0:".toList ++ formatInt (audioTrackID b) ↔ _
  constructor
  · intro h
    exact formatInt_injective _ _ (audioTrackID_range a ha) (audioTrackID_range b hb)
      (List.append_cancel_left h)
  · intro h; rw [h]

theorem selector_default (v n : GoString) (a : Item) (ha : minInt ≤ a.Rownum ∧ a.Rownum ≤ maxInt) :
    streamSelector (trackCommand v n a) = "0:1".toList ↔ a.Rownum = 0 := by
  have h := selector_inj v n a ⟨0, []⟩ ha (by simp [minInt, maxInt])
  exact h

/-- C2, amended: the default invocation carries selector `0:1` and a record's
invocation carries `0:` followed by the decimal form of its stream number; for
a successfully parsed list these `N + 1` selectors are pairwise different
exactly when the rownums of the records are pairwise different and none of
them is 0. -/
theorem C2_selectors_distinct_iff (data videoResource videoName : GoString) (items : List Item)
    (hparse : Unmarshal data = .ok items) :
    (allCommands videoResource videoName items).map streamSelector =
      "0:1".toList :: (sortSlice lessRownum items).map
        (fun it => "0:".toList ++ formatInt (audioTrackID it)) ∧
    (((allCommands videoResource videoName items).map streamSelector).Nodup ↔
      (items.map Item.Rownum).Nodup ∧ ∀ it ∈ items, it.Rownum ≠ 0) := by
  have hrange := Unmarshal_range data items hparse
  have hperm := sortSlice_perm lessRownum items
  have hrange' : ∀ it ∈ sortSlice lessRownum items, minInt ≤ it.Rownum ∧ it.Rownum ≤ maxInt :=
    fun it h => hrange it (hperm.mem_iff.mp h)
  refine ⟨by simp [allCommands, streamSelector, extraCommand, trackCommand], ?_⟩
  have hform : (allCommands videoResource videoName items).map streamSelector =
      "0:1".toList :: (sortSlice lessRownum items).map
        (fun it => streamSelector (trackCommand videoResource videoName it)) := by
    simp [allCommands, streamSelector, extraCommand]
  rw [hform, List.nodup_cons]
  rw [nodup_map_congr (fun it => streamSelector (trackCommand videoResource videoName it))
    Item.Rownum _ (fun a ha b hb => selector_inj _ _ a b (hrange' a ha) (hrange' b hb))]
  rw [(hperm.map Item.Rownum).nodup_iff]
  constructor
  · rintro ⟨h1, h2⟩
    refine ⟨h2, fun it hit h0 => h1 ?_⟩
    exact List.mem_map.mpr ⟨it, hperm.mem_iff.mpr hit,
      (selector_default _ _ it (hrange it hit)).mpr h0⟩
  · rintro ⟨h1, h2⟩
    refine ⟨fun hmem => ?_, h1⟩
    obtain ⟨it, hit, hsel⟩ := List.mem_map.mp hmem
    exact h2 it (hperm.mem_iff.mp hit) ((selector_default _ _ it (hrange' it hit)).mp hsel)

theorem C2_selectors_distinct_iff_witness :
    Unmarshal twoTracksText = .ok twoTracks ∧
    ((allCommands "a.mp4".toList "a".toList twoTracks).map streamSelector).Nodup :=
  ⟨by decide,
   (C2_selectors_distinct_iff twoTracksText "a.mp4".toList "a".toList twoTracks (by decide)).2.mpr
     (by decide)⟩

set_option maxRecDepth 100000 in
/-- A record with rownum 0 gets the selector of the default track: the two
invocations of the run of `main` on a successfully parsed one-record list
carry the same selector. -/
theorem C2_selector_clash :
    Unmarshal (ReplaceAll (TrimSpace zeroRownumText) (Char.ofNat 39) '"') = .ok zeroRownumTracks ∧
    (invocations (main okEnv "1".toList zeroRownumText)).map streamSelector =
      ["0:1".toList, "0:1".toList] ∧
    (allCommands "a.mp4".toList "a".toList zeroRownumTracks).map streamSelector =
      ["0:1".toList, "0:1".toList] ∧
    ¬ ((allCommands "a.mp4".toList "a".toList zeroRownumTracks).map streamSelector).Nodup := by
  refine ⟨by decide, by decide, by decide, ?_⟩
  rw [show (allCommands "a.mp4".toList "a".toList zeroRownumTracks).map streamSelector =
    ["0:1".toList, "0:1".toList] from by decide]
  decide

/-! ## Stability of the sort -/

/-- C3, amended: on a track list of at most twelve records the sort applied
by `main` keeps records of equal rownum in their input order: for every
rownum, the records carrying it appear in the sorted list in the same order as
in the input.  (Longer lists go through the quicksort partitioning of
`sort.Slice`, which may reorder them.) -/
theorem C3_stable_up_to_twelve (items : List Item) (hlen : items.length ≤ 12) (k : Int) :
    (sortSlice lessRownum items).filter (fun it => decide (it.Rownum = k)) =
      items.filter (fun it => decide (it.Rownum = k)) := by
  refine sortSlice_short_filter lessRownum _ ?_ items hlen
  intro x y hxy hp
  simp only [lessRownum, decide_eq_true_eq] at hxy hp
  omega

theorem C3_stable_up_to_twelve_witness :
    tiedTracks.length ≤ 12 ∧
    (sortSlice lessRownum tiedTracks).filter (fun it => decide (it.Rownum = 2)) =
      [⟨2, "x".toList⟩, ⟨2, "z".toList⟩] :=
  ⟨by decide, (C3_stable_up_to_twelve tiedTracks (by decide) 2).trans (by decide)⟩

set_option maxRecDepth 100000 in
/-- On thirteen successfully parsed records the sort moves the seventh
record of rownum 1 in front of the first six: ties are not kept in input
order. -/
theorem C3_unstable_at_thirteen :
    Unmarshal thirteenText = .ok thirteenTracks ∧
    (sortSlice lessRownum thirteenTracks).map Item.TypeName =
      ["m".toList, "g".toList, "c".toList, "d".toList, "e".toList, "f".toList, "a".toList,
       "h".toList, "i".toList, "j".toList, "k".toList, "l".toList, "b".toList] ∧
    (sortSlice lessRownum thirteenTracks).filter (fun it => decide (it.Rownum = 1)) ≠
      thirteenTracks.filter (fun it => decide (it.Rownum = 1)) := by
  refine ⟨by decide, by decide, by decide⟩

set_option maxRecDepth 100000 in
/-- The order `sort.Slice` gives the fourteen records of `fourteenTracks`,
where the scattering of `breakPatterns_func` shows in the order of the ties. -/
theorem sortSlice_fourteen :
    (sortSlice lessRownum fourteenTracks).map Item.TypeName =
      ["j".toList, "k".toList, "c".toList, "d".toList, "e".toList, "f".toList, "i".toList,
       "h".toList, "b".toList, "a".toList, "l".toList, "g".toList, "m".toList, "n".toList] := by
  decide

/-! ## The archive -/

theorem plainName_bz : PlainName "bz.mp3".toList :=
  ⟨by decide, by decide, by decide, by decide⟩

theorem plainName_label (label : GoString) (h : ∀ c ∈ label, c ≠ '/') :
    PlainName (label ++ ".mp3".toList) :=
  plainName_suffix label _ h (by decide) (by decide)

theorem archiveEntries_run (env : Env) (v n : GoString) (items : List Item)
    (hrun : ∀ k args, env.runOk k args = true)
    (hcreate : ∀ p, env.createOk p = true) (hopen : ∀ f, env.openOk f = true)
    (hstat : ∀ f, env.statOk f = true) (hhdr : ∀ f, env.createHeaderOk f = true)
    (hcopy : ∀ f, env.copyOk f = true) :
    mainExtract env v n items =
      ⟨(allCommands v n items).map (Event.exec ffmpeg) ++
        Event.createZip (Join [n, n ++ "_output.zip".toList]) ::
          (Join [n, "bz.mp3".toList] :: (sortSlice lessRownum items).map (outputFileName n)).map
            (fun f => Event.zipEntry (Base f)), Outcome.done⟩ := by
  rw [mainExtract_all_run env v n items hrun]
  have hz := zipLoop_ok env
    (Join [n, "bz.mp3".toList] :: (sortSlice lessRownum items).map (outputFileName n))
    (fun f _ => hopen f) (fun f _ => hstat f) (fun f _ => hhdr _) (fun f _ => hcopy f)
  simp only [zipFiles, hcreate, not_true_eq_false, if_false, hz, if_true, allCommands,
    List.map_cons, List.map_map, Function.comp_def, List.cons_append]

theorem archiveEntries_of_events (cmds : List (List GoString)) (zipName : GoString)
    (files : List GoString) :
    archiveEntries ⟨cmds.map (Event.exec ffmpeg) ++
      Event.createZip zipName :: files.map (fun f => Event.zipEntry (Base f)), Outcome.done⟩ =
      files.map Base := by
  simp only [archiveEntries, List.filterMap_append, List.filterMap_cons]
  have h1 : (cmds.map (Event.exec ffmpeg)).filterMap (fun e => match e with
      | .zipEntry name => some name
      | _ => none) = [] := by
    induction cmds with
    | nil => rfl
    | cons c cs ih => simp [List.filterMap_cons, ih]
  have h2 : (files.map (fun f => Event.zipEntry (Base f))).filterMap (fun e => match e with
      | .zipEntry name => some name
      | _ => none) = files.map Base := by
    induction files with
    | nil => rfl
    | cons f fs ih => simp [List.filterMap_cons, ih]
  rw [h1, h2]
  rfl

/-- C4, amended: when no label contains a path separator and every
extraction and every archive operation succeeds, the run ends normally, the
file list handed to `zipFiles` has `N + 1` elements (the default output, then
one output per record in sorted order), and the archive gets exactly `N + 1`
entries in that order, named `bz.mp3` and then `typeName + ".mp3"` for each
record of the sorted list.  These are the entries of a run of `main` that
selects the source and parses the list. -/
theorem C4_archive_entries (env : Env) (videoResource : GoString) (items : List Item)
    (hlabels : ∀ it ∈ items, ∀ c ∈ it.TypeName, c ≠ '/')
    (hrun : ∀ k args, env.runOk k args = true)
    (hcreate : ∀ p, env.createOk p = true) (hopen : ∀ f, env.openOk f = true)
    (hstat : ∀ f, env.statOk f = true) (hhdr : ∀ f, env.createHeaderOk f = true)
    (hcopy : ∀ f, env.copyOk f = true) :
    mainExtract env videoResource (TrimSuffix (Base videoResource) (Ext videoResource)) items =
      ⟨(allCommands videoResource (TrimSuffix (Base videoResource) (Ext videoResource)) items).map
          (Event.exec ffmpeg) ++
        (zipFiles env
          (Join [TrimSuffix (Base videoResource) (Ext videoResource),
            TrimSuffix (Base videoResource) (Ext videoResource) ++ "_output.zip".toList])
          (Join [TrimSuffix (Base videoResource) (Ext videoResource), "bz.mp3".toList] ::
            (sortSlice lessRownum items).map
              (outputFileName (TrimSuffix (Base videoResource) (Ext videoResource))))).1,
        Outcome.done⟩ ∧
    (Join [TrimSuffix (Base videoResource) (Ext videoResource), "bz.mp3".toList] ::
      (sortSlice lessRownum items).map
        (outputFileName (TrimSuffix (Base videoResource) (Ext videoResource)))).length =
      items.length + 1 ∧
    archiveEntries
        (mainExtract env videoResource (TrimSuffix (Base videoResource) (Ext videoResource)) items) =
      "bz.mp3".toList ::
        (sortSlice lessRownum items).map (fun it => it.TypeName ++ ".mp3".toList) ∧
    (archiveEntries
        (mainExtract env videoResource (TrimSuffix (Base videoResource) (Ext videoResource))
          items)).length = items.length + 1 ∧
    (∀ files line1 line2, getMP4Files env.tree = (files, none) → files ≠ [] →
      selectVideo files line1 = some videoResource →
      (env.statNotExist (TrimSuffix (Base videoResource) (Ext videoResource)) = true →
        env.mkdirOk (TrimSuffix (Base videoResource) (Ext videoResource)) = true) →
      Unmarshal (ReplaceAll (TrimSpace line2) (Char.ofNat 39) '"') = .ok items →
      archiveEntries (main env line1 line2) =
        "bz.mp3".toList ::
          (sortSlice lessRownum items).map (fun it => it.TypeName ++ ".mp3".toList) ∧
      (main env line1 line2).outcome = Outcome.done) := by
  have hmain := fun files line1 line2 hwalk hne hsel hdir hline =>
    main_parsed_entries env files line1 line2 videoResource items hwalk hne hsel hdir hline
  generalize hn : TrimSuffix (Base videoResource) (Ext videoResource) = n at hmain ⊢
  have hshape : (∀ c ∈ n, c ≠ '/') ∨ n = ['/'] := hn ▸ videoName_shape videoResource
  have hperm := sortSlice_perm lessRownum items
  have hrun' := archiveEntries_run env videoResource n items hrun hcreate hopen hstat hhdr hcopy
  have hentries : archiveEntries (mainExtract env videoResource n items) =
      "bz.mp3".toList :: (sortSlice lessRownum items).map (fun it => it.TypeName ++ ".mp3".toList) := by
    rw [hrun', archiveEntries_of_events, List.map_cons, Base_Join_name n _ hshape plainName_bz,
      List.map_map]
    congr 1
    apply List.map_congr_left
    intro it hit
    exact Base_Join_name n _ hshape (plainName_label _ (hlabels it (hperm.mem_iff.mp hit)))
  refine ⟨?_, by simp [hperm.length_eq], hentries, ?_, ?_⟩
  · rw [hrun']
    have hz := zipLoop_ok env
      (Join [n, "bz.mp3".toList] :: (sortSlice lessRownum items).map (outputFileName n))
      (fun f _ => hopen f) (fun f _ => hstat f) (fun f _ => hhdr _) (fun f _ => hcopy f)
    simp only [zipFiles, hcreate, not_true_eq_false, if_false, hz]
  · rw [hentries]
    simp [hperm.length_eq]
  · intro files line1 line2 hwalk hne hsel hdir hline
    obtain ⟨h1, h2⟩ := hmain files line1 line2 hwalk hne hsel hdir hline
    refine ⟨h1.trans hentries, ?_⟩
    rw [h2, hrun']

set_option maxRecDepth 100000 in
theorem C4_archive_entries_witness :
    (∀ it ∈ twoTracks, ∀ c ∈ it.TypeName, c ≠ '/') ∧
    archiveEntries (main okEnv "1".toList twoTracksText) =
      ["bz.mp3".toList, "fr.mp3".toList, "en.mp3".toList] :=
  ⟨by decide,
   ((C4_archive_entries okEnv "a.mp4".toList twoTracks (by decide) (fun _ _ => rfl) (fun _ => rfl)
      (fun _ => rfl) (fun _ => rfl) (fun _ => rfl) (fun _ => rfl)).2.2.2.2 ["a.mp4".toList]
      "1".toList twoTracksText (by decide) (by decide) (by decide) (fun _ => rfl)
      (by decide)).1.trans (by decide)⟩

set_option maxRecDepth 100000 in
/-- A label with a directory part names its archive entry by the last path
element only: in the run of `main` on the successfully parsed one-record list
with label `a/b`, every operation succeeding, the entry is `b.mp3`, not
`a/b.mp3`. -/
theorem C4_entry_name_differs :
    Unmarshal (ReplaceAll (TrimSpace nestedLabelText) (Char.ofNat 39) '"') =
      .ok nestedLabelTracks ∧
    (main okEnv "1".toList nestedLabelText).outcome = Outcome.done ∧
    archiveEntries (main okEnv "1".toList nestedLabelText) =
      ["bz.mp3".toList, "b.mp3".toList] ∧
    archiveEntries (main okEnv "1".toList nestedLabelText) ≠
      "bz.mp3".toList ::
        (sortSlice lessRownum nestedLabelTracks).map (fun it => it.TypeName ++ ".mp3".toList) := by
  refine ⟨by decide, by decide, by decide, by decide⟩

/-! ## Where the outputs are -/

/-- C5, amended: the output directory is named by the source's base name
without its extension; the default audio path and the archive path lie
directly in it, and so does the audio path of every record whose label
contains no path separator, under the name `typeName + ".mp3"`. -/
theorem C5_outputs_in_output_directory (videoResource : GoString) (item : Item)
    (hlabel : ∀ c ∈ item.TypeName, c ≠ '/') :
    Dir (outputFileName (TrimSuffix (Base videoResource) (Ext videoResource)) item) =
      Clean (TrimSuffix (Base videoResource) (Ext videoResource)) ∧
    Base (outputFileName (TrimSuffix (Base videoResource) (Ext videoResource)) item) =
      item.TypeName ++ ".mp3".toList ∧
    Dir (Join [TrimSuffix (Base videoResource) (Ext videoResource), "bz.mp3".toList]) =
      Clean (TrimSuffix (Base videoResource) (Ext videoResource)) ∧
    Base (Join [TrimSuffix (Base videoResource) (Ext videoResource), "bz.mp3".toList]) =
      "bz.mp3".toList ∧
    Dir (Join [TrimSuffix (Base videoResource) (Ext videoResource),
        TrimSuffix (Base videoResource) (Ext videoResource) ++ "_output.zip".toList]) =
      Clean (TrimSuffix (Base videoResource) (Ext videoResource)) := by
  generalize hn : TrimSuffix (Base videoResource) (Ext videoResource) = n
  have hshape : (∀ c ∈ n, c ≠ '/') ∨ n = ['/'] := hn ▸ videoName_shape videoResource
  refine ⟨Dir_Join_name n _ hshape (plainName_label _ hlabel),
    Base_Join_name n _ hshape (plainName_label _ hlabel),
    Dir_Join_name n _ hshape plainName_bz, Base_Join_name n _ hshape plainName_bz, ?_⟩
  rcases hshape with h | rfl
  · exact Dir_Join_name n _ (Or.inl h) (plainName_suffix n _ h (by decide) (by decide))
  · decide

theorem C5_outputs_in_output_directory_witness :
    (∀ c ∈ "en".toList, c ≠ '/') ∧
    Dir (outputFileName (TrimSuffix (Base "s/a.mp4".toList) (Ext "s/a.mp4".toList))
      ⟨2, "en".toList⟩) = "a".toList :=
  ⟨by decide,
   (C5_outputs_in_output_directory "s/a.mp4".toList ⟨2, "en".toList⟩ (by decide)).1.trans
     (by decide)⟩

set_option maxRecDepth 100000 in
/-- The audio path of a record whose label starts with `../` is outside the
output directory: for source `a.mp4` and the successfully parsed label `../x`
the path handed to the transcoder is `x.mp3`, in the working directory and not
in `a`. -/
theorem C5_label_escapes :
    Unmarshal (ReplaceAll (TrimSpace escapingText) (Char.ofNat 39) '"') = .ok [escapingLabel] ∧
    (invocations (main okEnv "1".toList escapingText)).map List.getLast? =
      [some "a/bz.mp3".toList, some "x.mp3".toList] ∧
    outputFileName (TrimSuffix (Base "a.mp4".toList) (Ext "a.mp4".toList)) escapingLabel
      = "x.mp3".toList ∧
    Dir (outputFileName (TrimSuffix (Base "a.mp4".toList) (Ext "a.mp4".toList)) escapingLabel)
      = ".".toList ∧
    Dir (outputFileName (TrimSuffix (Base "a.mp4".toList) (Ext "a.mp4".toList)) escapingLabel)
      ≠ Clean (TrimSuffix (Base "a.mp4".toList) (Ext "a.mp4".toList)) := by
  refine ⟨by decide, by decide, by decide, by decide, by decide⟩

/-! ## Fatal transcoder failure and parse failure -/

theorem mainExtract_fail (env : Env) (videoResource videoName : GoString)
    (items : List Item) (k : Nat) (failed : List GoString)
    (hk : (allCommands videoResource videoName items)[k]? = some failed)
    (hok : ∀ i args, i < k → (allCommands videoResource videoName items)[i]? = some args →
      env.runOk i args = true)
    (hbad : env.runOk k failed = false) :
    mainExtract env videoResource videoName items =
      ⟨((allCommands videoResource videoName items).take (k + 1)).map (Event.exec ffmpeg),
        Outcome.execFatal⟩ := by
  cases k with
  | zero =>
    simp only [allCommands, List.getElem?_cons_zero, Option.some.injEq] at hk
    subst hk
    simp only [mainExtract, executeCommand, hbad, allCommands, Bool.false_eq_true,
      not_false_eq_true, if_true, List.take_succ_cons, List.take_zero, List.map_cons, List.map_nil,
      Nat.zero_add]
  | succ j =>
    have h0 := hok 0 (extraCommand videoResource (Join [videoName, "bz.mp3".toList])) (by omega)
      (by simp only [allCommands, List.getElem?_cons_zero])
    simp only [allCommands, List.getElem?_cons_succ, List.getElem?_map, Option.map_eq_some'] at hk
    obtain ⟨bad, hbad1, hbad2⟩ := hk
    subst hbad2
    have hloop := extractLoop_fail env videoResource videoName (sortSlice lessRownum items) 1 j bad
      hbad1
      (fun i it hi hit => by
        have := hok (i + 1) (trackCommand videoResource videoName it) (by omega)
          (by simp [allCommands, hit])
        simpa [Nat.add_comm 1 i] using this)
      (by simpa [Nat.add_comm 1 j] using hbad)
    simp only [mainExtract, executeCommand, h0, hloop, allCommands, not_true_eq_false, if_false,
      List.take_succ_cons, List.map_cons, List.map_take, List.map_map, Function.comp_def]

/-- C9: when the `k`-th extraction command (0 the default one) is the first
to fail, the run consists of exactly the first `k + 1` commands, each run
once, and ends fatally: nothing is run after the failure and no archive
event occurs.  So it is in a run of `main` that selects the source and parses
the list: its invocations are these commands, no archive is created, and it
ends fatally. -/
theorem C9_abort_on_failed_extraction (env : Env) (videoResource videoName : GoString)
    (items : List Item) (k : Nat) (failed : List GoString)
    (hk : (allCommands videoResource videoName items)[k]? = some failed)
    (hok : ∀ i args, i < k → (allCommands videoResource videoName items)[i]? = some args →
      env.runOk i args = true)
    (hbad : env.runOk k failed = false) :
    mainExtract env videoResource videoName items =
      ⟨((allCommands videoResource videoName items).take (k + 1)).map (Event.exec ffmpeg),
        Outcome.execFatal⟩ ∧
    (∀ files line1 line2, getMP4Files env.tree = (files, none) → files ≠ [] →
      selectVideo files line1 = some videoResource →
      videoName = TrimSuffix (Base videoResource) (Ext videoResource) →
      (env.statNotExist videoName = true → env.mkdirOk videoName = true) →
      Unmarshal (ReplaceAll (TrimSpace line2) (Char.ofNat 39) '"') = .ok items →
      invocations (main env line1 line2) =
        (allCommands videoResource videoName items).take (k + 1) ∧
      archiveEntries (main env line1 line2) = [] ∧
      (∀ p, Event.createZip p ∉ (main env line1 line2).events) ∧
      (main env line1 line2).outcome = Outcome.execFatal) := by
  have hrun : mainExtract env videoResource videoName items =
      ⟨((allCommands videoResource videoName items).take (k + 1)).map (Event.exec ffmpeg),
        Outcome.execFatal⟩ := by
    exact mainExtract_fail env videoResource videoName items k failed hk hok hbad
  refine ⟨hrun, ?_⟩
  intro files line1 line2 hwalk hne hsel hname hdir hline
  subst hname
  obtain ⟨pre, hpre, hmain⟩ :=
    main_parsed env files line1 line2 videoResource items hwalk hne hsel hdir hline
  have hinv := main_parsed_invocations env files line1 line2 videoResource items hwalk hne hsel
    hdir hline
  have hent := main_parsed_entries env files line1 line2 videoResource items hwalk hne hsel
    hdir hline
  rw [hrun] at hinv hent hmain
  refine ⟨hinv.trans (invocations_exec _ _), hent.1.trans (entries_exec _ _), ?_, hent.2⟩
  intro p hp
  rw [hmain] at hp
  rcases List.mem_append.mp hp with h | h
  · obtain ⟨q, hq⟩ := hpre _ h
    cases hq
  · obtain ⟨c, _, hc⟩ := List.mem_map.mp h
    cases hc

theorem mainPrepare_parse_error (env : Env) (v line2 : GoString) (e : JSONError)
    (hparse : Unmarshal (ReplaceAll (TrimSpace line2) (Char.ofNat 39) '"') = .error e) :
    (∀ ev ∈ (mainPrepare env v line2).events, ∃ p, ev = Event.mkdir p) ∧
    ((mainPrepare env v line2).outcome = Outcome.mkdirFatal ∨
      (mainPrepare env v line2).outcome = Outcome.parseError) ∧
    ((env.statNotExist (TrimSuffix (Base v) (Ext v)) = true →
        env.mkdirOk (TrimSuffix (Base v) (Ext v)) = true) →
      (mainPrepare env v line2).outcome = Outcome.parseError) := by
  simp only [mainPrepare, hparse]
  by_cases hs : env.statNotExist (TrimSuffix (Base v) (Ext v)) = true
  · by_cases hm : env.mkdirOk (TrimSuffix (Base v) (Ext v)) = true
    · simp [hs, hm]
    · simp [hs, hm]
  · simp [hs]

/-- C7: when the track-specification line does not parse, no transcoder
invocation and no archive event occurs (the only possible event is the
creation of the output directory), the run ends with the selection-error,
directory-error or parse-error outcome, and it ends with the parse-error
outcome whenever a source was selected and the output directory is in place.
For a non-empty candidate list found by the scan, this is the run of `main`. -/
theorem C7_parse_failure_no_output (env : Env) (files : List GoString) (line1 line2 : GoString)
    (e : JSONError)
    (hparse : Unmarshal (ReplaceAll (TrimSpace line2) (Char.ofNat 39) '"') = .error e) :
    (∀ ev ∈ (mainSelect env files line1 line2).events, ∃ p, ev = Event.mkdir p) ∧
    invocations (mainSelect env files line1 line2) = [] ∧
    archiveEntries (mainSelect env files line1 line2) = [] ∧
    ((mainSelect env files line1 line2).outcome = Outcome.selectionInvalid ∨
      (mainSelect env files line1 line2).outcome = Outcome.mkdirFatal ∨
      (mainSelect env files line1 line2).outcome = Outcome.parseError) ∧
    (∀ v, selectVideo files line1 = some v →
      (env.statNotExist (TrimSuffix (Base v) (Ext v)) = true →
        env.mkdirOk (TrimSuffix (Base v) (Ext v)) = true) →
      (mainSelect env files line1 line2).outcome = Outcome.parseError) ∧
    (getMP4Files env.tree = (files, none) → files ≠ [] →
      main env line1 line2 = mainSelect env files line1 line2) := by
  have hev : (∀ ev ∈ (mainSelect env files line1 line2).events, ∃ p, ev = Event.mkdir p) := by
    unfold mainSelect
    cases hsel : selectVideo files line1 with
    | none => simp
    | some v => exact (mainPrepare_parse_error env v line2 e hparse).1
  refine ⟨hev, ?_, ?_, ?_, ?_, main_eq_mainSelect env files line1 line2⟩
  · simp only [invocations, List.filterMap_eq_nil_iff]
    intro ev hmem
    obtain ⟨p, rfl⟩ := hev ev hmem
    rfl
  · simp only [archiveEntries, List.filterMap_eq_nil_iff]
    intro ev hmem
    obtain ⟨p, rfl⟩ := hev ev hmem
    rfl
  · unfold mainSelect
    cases hsel : selectVideo files line1 with
    | none => simp
    | some v => exact Or.inr (mainPrepare_parse_error env v line2 e hparse).2.1
  · intro v hv hdir
    unfold mainSelect
    rw [hv]
    exact (mainPrepare_parse_error env v line2 e hparse).2.2 hdir

/-! ## Selection -/

/-- C8: the selection line is accepted exactly when, trimmed, it is a decimal
integer literal denoting some `i` with `1 ≤ i ≤ len(files)`, and then the
chosen source is `files[i-1]` and the run goes on with it; otherwise the run
is the selection-error outcome with no event at all (no directory created, no
process invoked).  For a non-empty candidate list found by the scan, this is
the behaviour of `main`. -/
theorem C8_selection_accepted_iff (env : Env) (files : List GoString) (line1 line2 : GoString)
    (hlen : (files.length : Int) ≤ maxInt) :
    (∀ v, selectVideo files line1 = some v ↔
      ∃ i : Int, DecimalDenotes (TrimSpace line1) i ∧ 1 ≤ i ∧ i ≤ (files.length : Int) ∧
        files[(i - 1).toNat]? = some v) ∧
    (∀ v, selectVideo files line1 = some v →
      mainSelect env files line1 line2 = mainPrepare env v line2) ∧
    (selectVideo files line1 = none →
      mainSelect env files line1 line2 = ⟨[], Outcome.selectionInvalid⟩) ∧
    (getMP4Files env.tree = (files, none) → files ≠ [] →
      main env line1 line2 = mainSelect env files line1 line2) := by
  refine ⟨?_, ?_, ?_, ?_⟩
  · intro v
    unfold selectVideo
    cases ha : Atoi (TrimSpace line1) with
    | error e =>
      simp only [ha, false_iff, not_exists, not_and, reduceCtorEq]
      intro i hd h1 h2
      have : Atoi (TrimSpace line1) = .ok i :=
        (Atoi_eq_ok _ _).mpr ⟨hd, by simp only [minInt]; omega, by omega⟩
      rw [ha] at this; cases this
    | ok index =>
      obtain ⟨hd, -, -⟩ := (Atoi_eq_ok _ _).mp ha
      simp only [ha]
      split_ifs with hr
      · simp only [false_iff, not_exists, not_and, reduceCtorEq]
        intro i hdi h1 h2
        have : Atoi (TrimSpace line1) = .ok i :=
          (Atoi_eq_ok _ _).mpr ⟨hdi, by simp only [minInt]; omega, by omega⟩
        rw [ha] at this
        simp only [Except.ok.injEq] at this
        omega
      · have hidx : (index - 1).toNat < files.length := by omega
        simp only [Option.some.injEq, List.getD_eq_getElem?_getD, List.getElem?_eq_getElem hidx,
          Option.getD_some]
        constructor
        · rintro rfl
          exact ⟨index, hd, by omega, by omega, List.getElem?_eq_getElem hidx⟩
        · rintro ⟨i, hdi, h1, h2, hv⟩
          have : Atoi (TrimSpace line1) = .ok i :=
            (Atoi_eq_ok _ _).mpr ⟨hdi, by simp only [minInt]; omega, by omega⟩
          rw [ha] at this
          simp only [Except.ok.injEq] at this
          subst this
          rw [List.getElem?_eq_getElem hidx] at hv
          exact Option.some.inj hv
  · intro v hv
    simp only [mainSelect, hv]
  · intro h
    simp only [mainSelect, h]
  · exact main_eq_mainSelect env files line1 line2

/-! ## Parse errors -/

/-- C6, amended: parsing fails with a syntax error exactly when the text is
not a JSON text (the grammar of RFC 8259, with arrays and objects nested at
most 10000 deep), and with a type error exactly when it is a JSON text that
does not stand for null or an array of records, each null or an object whose
members named `rownum` hold null or an integer that fits `int` and whose
members named `typeName` hold null or a string; in every other case it
succeeds.  A record that lacks `rownum` or `typeName` is not rejected: the
missing field keeps its zero value.  Members with any other name are
ignored. -/
theorem C6_parse_errors (data : GoString) :
    (Unmarshal data = .error .syntaxErr ↔ ¬ ∃ v, JSONText data v) ∧
    (Unmarshal data = .error .typeErr ↔ ∃ v, JSONText data v ∧ ¬ listAccepts v) ∧
    (∀ v, JSONText data v → listAccepts v → Unmarshal data = .ok (decodeItems v).1) ∧
    (∀ ms : List (GoString × JValue),
      ((∀ kv ∈ ms, keyMatches kv.1 rownumTag = false) →
        (decodeItem (.object ms)).1.Rownum = 0) ∧
      ((∀ kv ∈ ms, keyMatches kv.1 typeNameTag = false) →
        (decodeItem (.object ms)).1.TypeName = [])) ∧
    decodeItem (.object []) = (⟨0, []⟩, false) ∧
    (∀ ms : List (GoString × JValue),
      decodeItem (.object (ms.filter knownField)) = decodeItem (.object ms)) := by
  refine ⟨?_, ?_, ?_, ?_, rfl, ?_⟩
  · unfold Unmarshal
    cases hp : parseJSON data with
    | none =>
      simp only [true_iff]
      rintro ⟨v, hv⟩
      rw [(parseJSON_iff data v).mpr hv] at hp
      cases hp
    | some v =>
      have hv := (parseJSON_iff data v).mp hp
      simp only
      constructor
      · intro h
        split_ifs at h
        cases h
      · intro h
        exact absurd ⟨v, hv⟩ h
  · unfold Unmarshal
    cases hp : parseJSON data with
    | none =>
      constructor
      · intro h
        cases h
      · rintro ⟨v, hv, -⟩
        rw [(parseJSON_iff data v).mpr hv] at hp
        cases hp
    | some v =>
      have hbad := decodeItems_bad v
      simp only
      constructor
      · intro h
        refine ⟨v, (parseJSON_iff data v).mp hp, ?_⟩
        intro hacc
        rw [hbad.mpr hacc] at h
        simp at h
      · rintro ⟨v1, hv1, hacc⟩
        have : v1 = v := by
          have := (parseJSON_iff data v1).mpr hv1
          rw [hp] at this
          exact (Option.some.inj this).symm
        subst this
        have : (decodeItems v1).2 = true := by
          cases hb : (decodeItems v1).2 with
          | true => rfl
          | false => exact absurd (hbad.mp hb) hacc
        simp [this]
  · intro v hv hacc
    have hp := (parseJSON_iff data v).mpr hv
    have := (decodeItems_bad v).mpr hacc
    simp [Unmarshal, hp, this]
  · intro ms
    exact decodeMembers_missing ms ⟨0, []⟩ false
  · intro ms
    simp only [decodeItem]
    exact decodeMembers_unknown ms _ _

/-- A record without `typeName` parses: the line `[{'rownum':1}]`, once its
single quotes are replaced, yields one record with rownum 1 and an empty
label. -/
theorem C6_missing_field_accepted :
    Unmarshal (ReplaceAll (TrimSpace missingLabelText) (Char.ofNat 39) '"') =
      .ok [⟨1, []⟩] := by
  decide

/-! ## File discovery -/

theorem HasSuffix_iff (s suffix : GoString) :
    HasSuffix s suffix = true ↔ ∃ stem, s = stem ++ suffix := by
  unfold HasSuffix
  simp only [Bool.and_eq_true, decide_eq_true_eq, beq_iff_eq]
  constructor
  · rintro ⟨_, h⟩
    refine ⟨s.take (s.length - suffix.length), ?_⟩
    conv_lhs => rw [← List.take_append_drop (s.length - suffix.length) s]
    rw [h]
  · rintro ⟨stem, rfl⟩
    simp

/-- C10, amended: when the walk succeeds, `getMP4Files` returns the paths of
exactly the visited entries that are not directories and whose name ends with
the suffix `.mp4` (compared byte for byte), each once, in the order of the
traversal.  Entries that are not directories include symbolic links and
other non-regular files. -/
theorem C10_mp4_files (tree : FsNode) (h : (getMP4Files tree).2 = none) :
    (getMP4Files tree).1 = ((visited tree).filter isMP4Entry).map Prod.fst ∧
    (∀ e : GoString × FileInfo, isMP4Entry e = true ↔
      e.2.kind ≠ FileKind.directory ∧ ∃ stem, e.2.name = stem ++ ".mp4".toList) := by
  refine ⟨getMP4Files_ok tree h, ?_⟩
  intro e
  simp only [isMP4Entry, FileInfo.IsDir, Bool.and_eq_true, Bool.not_eq_true', decide_eq_false_iff_not,
    HasSuffix_iff]

set_option maxRecDepth 100000 in
theorem C10_mp4_files_witness :
    (getMP4Files mixedTree).2 = none ∧
    (getMP4Files mixedTree).1 = ["b.mp4".toList, "x.mp4/c.mp4".toList] :=
  ⟨by decide, (C10_mp4_files mixedTree (by decide)).1.trans (by decide)⟩

/-- A symbolic link named `l.mp4` is returned although it is not a regular
file. -/
theorem C10_symlink_included :
    getMP4Files symlinkTree = (["l.mp4".toList], none) ∧
    (getMP4Files symlinkTree).1 ≠ ((visited symlinkTree).filter isRegularMP4Entry).map Prod.fst := by
  refine ⟨by decide, by decide⟩

/-! ## Concrete runs -/

set_option maxRecDepth 100000 in
theorem C7_parse_failure_no_output_witness :
    Unmarshal (ReplaceAll (TrimSpace malformedText) (Char.ofNat 39) '"') = .error .syntaxErr ∧
    main okEnv "1".toList malformedText = ⟨[Event.mkdir "a".toList], Outcome.parseError⟩ ∧
    invocations (mainSelect okEnv ["a.mp4".toList] "1".toList malformedText) = [] :=
  ⟨by decide, by decide,
   (C7_parse_failure_no_output okEnv ["a.mp4".toList] "1".toList malformedText .syntaxErr
      (by decide)).2.1⟩

theorem C8_selection_accepted_iff_witness :
    selectVideo ["a.mp4".toList, "b.mp4".toList] " 2\n".toList = some "b.mp4".toList ∧
    selectVideo ["a.mp4".toList, "b.mp4".toList] "0".toList = none ∧
    selectVideo ["a.mp4".toList, "b.mp4".toList] "3".toList = none ∧
    selectVideo ["a.mp4".toList, "b.mp4".toList] "x".toList = none ∧
    mainSelect okEnv ["a.mp4".toList, "b.mp4".toList] "3".toList twoTracksText =
      ⟨[], Outcome.selectionInvalid⟩ :=
  ⟨by decide, by decide, by decide, by decide,
   (C8_selection_accepted_iff okEnv ["a.mp4".toList, "b.mp4".toList] "3".toList twoTracksText
      (by decide)).2.2.1 (by decide)⟩

set_option maxRecDepth 100000 in
theorem C9_abort_on_failed_extraction_witness :
    mainExtract failSecondEnv "a.mp4".toList "a".toList twoTracks =
      ⟨[Event.exec ffmpeg (extraCommand "a.mp4".toList "a/bz.mp3".toList),
        Event.exec ffmpeg (trackCommand "a.mp4".toList "a".toList ⟨1, "fr".toList⟩)],
       Outcome.execFatal⟩ :=
  (C9_abort_on_failed_extraction failSecondEnv "a.mp4".toList "a".toList twoTracks 1
    (trackCommand "a.mp4".toList "a".toList ⟨1, "fr".toList⟩) (by decide)
    (fun i args hi _ => by
      have : i = 0 := by omega
      subst this
      rfl)
    (by rfl)).1.trans (by decide)

end MultiTrack
